import Mathlib

/-!
Verification development for the fuzzy-aho-corasick engine.

Shallow embedding notes:
* A grapheme cluster is represented as the list of its Unicode scalar values
  (`G := List Nat`); a haystack is the list of its grapheme clusters as produced
  by `grapheme_indices(true)`, and byte positions are recovered through the
  UTF-8 width of each scalar.  Unicode lowercasing (`str::to_lowercase`) is an
  external primitive and is passed in as an abstract function `lower : G → G`.
* `f32` arithmetic is modelled with `ℚ`.  All quantities the claims compare are
  exact sums/quotients of the configured penalty constants, so ordering facts
  transfer whenever no division by zero occurs (degenerate zero-length pattern
  configurations, where `f32` produces NaN, are excluded by explicit
  hypotheses where they matter).
* The search loop of `FuzzyAhoCorasick::search_unsorted` is a worklist loop
  with an append-only queue and a cursor; since the processed prefix is never
  read again it is embedded as structural recursion on the unprocessed tail,
  with an explicit fuel parameter (`none` = fuel exhausted).  Termination for
  well-formed automata is proved separately.
* `HashMap`-valued results are embedded as association lists in first-insertion
  order; the claims below never depend on the (unspecified) iteration order.
-/

namespace FAC

/-- A grapheme cluster, as the list of its Unicode scalar values. -/
abbrev G := List Nat

/-- UTF-8 byte width of a Unicode scalar value. -/
def utf8Len (c : Nat) : Nat :=
  if c < 0x80 then 1 else if c < 0x800 then 2 else if c < 0x10000 then 3 else 4

/-- UTF-8 encoding of a Unicode scalar value. -/
def utf8Bytes (c : Nat) : List Nat :=
  if c < 0x80 then [c]
  else if c < 0x800 then [0xC0 + c / 64, 0x80 + c % 64]
  else if c < 0x10000 then [0xE0 + c / 4096, 0x80 + c / 64 % 64, 0x80 + c % 64]
  else [0xF0 + c / 262144, 0x80 + c / 4096 % 64, 0x80 + c / 64 % 64, 0x80 + c % 64]

/-- Bytes of one grapheme cluster. -/
def graphemeBytes (g : G) : List Nat := (g.map utf8Bytes).flatten

/-- Byte length of one grapheme cluster. -/
def graphemeSize (g : G) : Nat := (graphemeBytes g).length

/-- Byte offset of the `i`-th grapheme of a haystack
(the first component of `grapheme_indices(true)` entries). -/
def byteOffset (hs : List G) (i : Nat) : Nat := ((hs.take i).map graphemeSize).sum

/-- The haystack as a byte sequence. -/
def haystackBytes (hs : List G) : List Nat := (hs.map graphemeBytes).flatten

/-- `bs[a..b]`: the byte slice between two byte positions. -/
def byteSlice (bs : List Nat) (a b : Nat) : List Nat := (bs.drop a).take (b - a)

/-- `FuzzyLimits` (structs.rs): optional per-kind and total edit bounds. -/
structure FuzzyLimits where
  insertions : Option Nat := none
  deletions : Option Nat := none
  substitutions : Option Nat := none
  swaps : Option Nat := none
  edits : Option Nat := none
  deriving DecidableEq, Repr

/-- `FuzzyLimits::finalize` (structs.rs): if `edits` is unset, default every
unset individual kind to 0. -/
def FuzzyLimits.finalize (l : FuzzyLimits) : FuzzyLimits :=
  if l.edits = none then
    { l with
      insertions := some (l.insertions.getD 0),
      deletions := some (l.deletions.getD 0),
      substitutions := some (l.substitutions.getD 0),
      swaps := some (l.swaps.getD 0) }
  else l

/-- `FuzzyPenalties` (structs.rs). -/
structure FuzzyPenalties where
  insertion : ℚ := 2/5
  deletion : ℚ := 7/10
  substitution : ℚ := 1
  swap : ℚ := 2/5
  deriving DecidableEq, Repr

/-- `Pattern` (structs.rs); `pattern` holds the grapheme clusters of the
original pattern text. -/
structure Pattern where
  grapheme_len : Nat
  pattern : List G
  custom_unique_id : Option Nat := none
  weight : ℚ := 1
  limits : Option FuzzyLimits := none
  deriving DecidableEq, Repr

/-- `Pattern::len()`: byte length of the pattern text. -/
def Pattern.byteLen (p : Pattern) : Nat := (p.pattern.map graphemeSize).sum

/-- `Node` (structs.rs): transitions are a `BTreeMap<String, usize>`, embedded
as a key-sorted association list. -/
structure Node where
  pattern_index : Option Nat := none
  transitions : List (G × Nat) := []
  fail : Nat := 0
  output : List Nat := []
  weight : ℚ := 0
  deriving DecidableEq, Repr

/-- `BTreeMap::get` on an association list. -/
def alGet : List (G × Nat) → G → Option Nat
  | [], _ => none
  | (k, v) :: rest, key => if k = key then some v else alGet rest key

/-- The automaton (structs.rs `FuzzyAhoCorasick`).  The fields
`max_pattern_grapheme_len` and `beam_width` are read by lib.rs but their
declarations are missing from the snapshot's structs.rs; they are modelled
from the spec (`L_max` = maximum pattern grapheme length, optional beam). -/
structure FuzzyAhoCorasick where
  nodes : List Node
  patterns : List Pattern
  similarity : List ((Nat × Nat) × ℚ) := []
  limits : Option FuzzyLimits := none
  penalties : FuzzyPenalties := {}
  case_insensitive : Bool := false
  max_pattern_grapheme_len : Nat
  beam_width : Option Nat := none
  deriving DecidableEq, Repr

/-- `self.nodes[node]` (with a harmless default for out-of-range access,
which the real code would turn into a panic). -/
def nodeAt (A : FuzzyAhoCorasick) (n : Nat) : Node := A.nodes.getD n {}

/-- `self.patterns[i]` with the same out-of-range convention. -/
def patternAt (A : FuzzyAhoCorasick) (i : Nat) : Pattern :=
  A.patterns.getD i { grapheme_len := 0, pattern := [] }

/-- `FuzzyAhoCorasick::get_node_limits` (lib.rs). -/
def get_node_limits (A : FuzzyAhoCorasick) (node : Nat) : Option FuzzyLimits :=
  ((nodeAt A node).pattern_index).bind fun i => (A.patterns.get? i).bind fun p => p.limits

/-- Association-list lookup for the similarity table. -/
def simGet : List ((Nat × Nat) × ℚ) → Nat × Nat → Option ℚ
  | [], _ => none
  | (k, v) :: rest, key => if k = key then some v else simGet rest key

/-- `FuzzyAhoCorasick::get_similarity` (lib.rs). -/
def get_similarity (A : FuzzyAhoCorasick) (a b : Nat) : ℚ :=
  if a = b then 1 else (simGet A.similarity (a, b)).getD 0

/-- `Option::is_none_or` on a `Bool` predicate. -/
def isNoneOr (o : Option Nat) (p : Nat → Bool) : Bool :=
  match o with
  | none => true
  | some x => p x

/-- `within_limits_insertion_ahead` (lib.rs). -/
def within_limits_insertion_ahead (A : FuzzyAhoCorasick) (limits : Option FuzzyLimits)
    (edits insertions : Nat) : Bool :=
  match limits.or A.limits with
  | some mx => isNoneOr mx.edits (fun m => edits < m) &&
      isNoneOr mx.insertions (fun m => insertions < m)
  | none => false

/-- `within_limits_deletion_ahead` (lib.rs). -/
def within_limits_deletion_ahead (A : FuzzyAhoCorasick) (limits : Option FuzzyLimits)
    (edits deletions : Nat) : Bool :=
  match limits.or A.limits with
  | some mx => isNoneOr mx.edits (fun m => edits < m) &&
      isNoneOr mx.deletions (fun m => deletions < m)
  | none => false

/-- `within_limits_swap_ahead` (lib.rs). -/
def within_limits_swap_ahead (A : FuzzyAhoCorasick) (limits : Option FuzzyLimits)
    (edits swaps : Nat) : Bool :=
  match limits.or A.limits with
  | some mx => isNoneOr mx.edits (fun m => edits < m) &&
      isNoneOr mx.swaps (fun m => swaps < m)
  | none => false

/-- `within_limits_subst` (lib.rs); note the non-strict comparisons and the
one-substitution allowance of the limitless branch. -/
def within_limits_subst (A : FuzzyAhoCorasick) (limits : Option FuzzyLimits)
    (edits substitutions : Nat) : Bool :=
  match limits.or A.limits with
  | some mx => isNoneOr mx.edits (fun m => edits ≤ m) &&
      isNoneOr mx.substitutions (fun m => substitutions ≤ m)
  | none => edits = 0 && substitutions = 0

/-- `within_limits` (lib.rs). -/
def within_limits (A : FuzzyAhoCorasick) (limits : Option FuzzyLimits)
    (edits insertions deletions substitutions swaps : Nat) : Bool :=
  match limits.or A.limits with
  | some mx => isNoneOr mx.edits (fun m => edits ≤ m) &&
      isNoneOr mx.insertions (fun m => insertions ≤ m) &&
      isNoneOr mx.deletions (fun m => deletions ≤ m) &&
      isNoneOr mx.substitutions (fun m => substitutions ≤ m) &&
      isNoneOr mx.swaps (fun m => swaps ≤ m)
  | none => edits = 0 && insertions = 0 && deletions = 0 && substitutions = 0 && swaps = 0

/-- BFS state (structs.rs `State`). -/
structure SState where
  node : Nat
  j : Nat
  matched_start : Nat
  matched_end : Nat
  penalties : ℚ
  edits : Nat
  insertions : Nat
  deletions : Nat
  substitutions : Nat
  swaps : Nat
  deriving DecidableEq, Repr

/-- `FuzzyMatch` (structs.rs); `end` is a Lean keyword, hence `end_`;
`text` holds the matched byte slice, `pattern` a copy of the borrowed pattern. -/
structure FuzzyMatch where
  insertions : Nat
  deletions : Nat
  substitutions : Nat
  swaps : Nat
  edits : Nat
  pattern_index : Nat
  pattern : Pattern
  start : Nat
  end_ : Nat
  similarity : ℚ
  text : List Nat
  deriving DecidableEq, Repr

/-- `FuzzyMatches` (structs.rs). -/
structure FuzzyMatches where
  haystack : List G
  inner : List FuzzyMatch
  deriving DecidableEq, Repr

/-- The keyed best-match table (`HashMap<(usize, usize, usize), FuzzyMatch>`),
as an association list in first-insertion order. -/
abbrev Best := List ((Nat × Nat × Nat) × FuzzyMatch)

/-- `best.entry(key).and_modify(..).or_insert_with(..)`: replace an existing
entry only on strictly higher similarity, insert when absent. -/
def bestUpdate (best : Best) (key : Nat × Nat × Nat) (m : FuzzyMatch) : Best :=
  match best with
  | [] => [(key, m)]
  | (k, old) :: rest =>
    if k = key then (k, if old.similarity < m.similarity then m else old) :: rest
    else (k, old) :: bestUpdate rest key m

/-- Stable insertion of `x` after every element `y` with `le y x`. -/
def insertRight (le : α → α → Bool) : List α → α → List α
  | [], x => [x]
  | y :: ys, x => if le y x then y :: insertRight le ys x else x :: y :: ys

/-- Stable sort (same result as Rust's stable `sort_by`). -/
def stableSortBy (le : α → α → Bool) (l : List α) : List α :=
  l.foldl (insertRight le) []

/-- `a.penalties.total_cmp(&b.penalties)`-ascending, as a `≤` test. -/
def penLe (a b : SState) : Bool := a.penalties ≤ b.penalties

/-- Beam pruning step of the search loop (lib.rs): when the unprocessed tail
of the queue exceeds `2 * beam_width`, keep only the `beam_width` entries of
lowest penalty (stable). -/
def beamPrune (bw : Option Nat) (rest : List SState) : List SState :=
  match bw with
  | none => rest
  | some b => if b * 2 < rest.length then (stableSortBy penLe rest).take b else rest

/-- The early-pruning bound of lib.rs:
`(max_pattern_grapheme_len - penalties) / max_pattern_grapheme_len`. -/
def maxPossibleSim (A : FuzzyAhoCorasick) (pen : ℚ) : ℚ :=
  ((A.max_pattern_grapheme_len : ℚ) - pen) / (A.max_pattern_grapheme_len : ℚ)

/-- `start_byte` of an emission:
`grapheme_idx.get(matched_start).map_or(0, |&(b, _)| b)`. -/
def startByte (hs : List G) (s : SState) : Nat :=
  if s.matched_start < hs.length then byteOffset hs s.matched_start else 0

/-- `end_byte` of an emission:
`grapheme_idx.get(matched_end).map_or_else(|| haystack.len(), |&(b, _)| b)`. -/
def endByte (hs : List G) (s : SState) : Nat :=
  if s.matched_end < hs.length then byteOffset hs s.matched_end else (haystackBytes hs).length

/-- Similarity of an emission:
`(total - penalties) / total * weight` for the emitted pattern. -/
def emissionSim (A : FuzzyAhoCorasick) (s : SState) (pattern_index : Nat) : ℚ :=
  let p := patternAt A pattern_index
  ((p.grapheme_len : ℚ) - s.penalties) / (p.grapheme_len : ℚ) * p.weight

/-- The `FuzzyMatch` record built at an emission. -/
def emissionMatch (A : FuzzyAhoCorasick) (hs : List G) (s : SState)
    (pattern_index : Nat) : FuzzyMatch :=
  { insertions := s.insertions, deletions := s.deletions,
    substitutions := s.substitutions, edits := s.edits, swaps := s.swaps,
    pattern_index := pattern_index, start := startByte hs s, end_ := endByte hs s,
    pattern := patternAt A pattern_index, similarity := emissionSim A s pattern_index,
    text := byteSlice (haystackBytes hs) (startByte hs s) (endByte hs s) }

/-- One iteration of the emission loop body of `search_unsorted`: per-pattern
limit check, threshold filter, keyed-best update. -/
def emitOne (A : FuzzyAhoCorasick) (hs : List G) (t : ℚ) (s : SState)
    (best : Best) (pattern_index : Nat) : Best :=
  if within_limits A ((A.patterns.getD pattern_index { grapheme_len := 0, pattern := [] }).limits)
      s.edits s.insertions s.deletions s.substitutions s.swaps then
    if emissionSim A s pattern_index < t then best
    else
      bestUpdate best (startByte hs s, endByte hs s, pattern_index)
        (emissionMatch A hs s pattern_index)
  else best

/-- Output emission of one state (the `!output.is_empty()` block of
`search_unsorted`): fold `emitOne` over the node's output list. -/
def emitState (A : FuzzyAhoCorasick) (hs : List G) (t : ℚ) (s : SState) (best : Best) : Best :=
  (nodeAt A s.node).output.foldl (emitOne A hs t s) best

/-- The exact-or-substitution children of a dequeued state (one per edge, in
edge order), when `j` is in range and the current grapheme is `cg`. -/
def exactSubstChildren (A : FuzzyAhoCorasick) (s : SState) (cg : G) : List SState :=
  (nodeAt A s.node).transitions.flatMap fun en =>
    if en.1 = cg then
      [{ s with
         node := en.2, j := s.j + 1,
         matched_start := if s.matched_end = s.matched_start then s.j else s.matched_start,
         matched_end := s.j + 1 }]
    else if within_limits_subst A (get_node_limits A s.node) s.edits s.substitutions then
      [{ s with
         node := en.2, j := s.j + 1,
         matched_start := if s.matched_end = s.matched_start then s.j else s.matched_start,
         matched_end := s.j + 1,
         penalties := s.penalties +
           A.penalties.substitution * (1 - get_similarity A (en.1.headD 0) (cg.headD 0)),
         edits := s.edits + 1, substitutions := s.substitutions + 1 }]
    else []

/-- The swap (transposition) child, when the two-step path on the next two
graphemes exists and the swap limit check passes. -/
def swapChildren (A : FuzzyAhoCorasick) (tc : List G) (s : SState) : List SState :=
  if s.j + 1 < tc.length then
    match (alGet (nodeAt A s.node).transitions (tc.getD (s.j + 1) [])).bind
        fun x => alGet (nodeAt A x).transitions (tc.getD s.j []) with
    | some node2 =>
      if within_limits_swap_ahead A (get_node_limits A node2) s.edits s.swaps then
        [{ s with
           node := node2, j := s.j + 2, matched_end := s.j + 2,
           penalties := s.penalties + A.penalties.swap,
           edits := s.edits + 1, swaps := s.swaps + 1 }]
      else []
    | none => []
  else []

/-- The insertion child (skip one haystack grapheme), guarded by the
degenerate-window test and the insertion limit check. -/
def insChildren (A : FuzzyAhoCorasick) (s : SState) : List SState :=
  if (s.matched_start ≠ s.matched_end || s.matched_start ≠ s.j) &&
      within_limits_insertion_ahead A (get_node_limits A s.node) s.edits s.insertions then
    [{ s with
       j := s.j + 1,
       penalties := s.penalties + A.penalties.insertion,
       edits := s.edits + 1, insertions := s.insertions + 1 }]
  else []

/-- The deletion children (advance an edge without consuming), one per edge. -/
def delChildren (A : FuzzyAhoCorasick) (s : SState) : List SState :=
  if within_limits_deletion_ahead A (get_node_limits A s.node) s.edits s.deletions then
    (nodeAt A s.node).transitions.map fun en =>
      { s with
        node := en.2,
        penalties := s.penalties + A.penalties.deletion,
        edits := s.edits + 1, deletions := s.deletions + 1 }
  else []

/-- The successor states one dequeued state pushes, in push order: per edge
exact-or-substitution, then swap, then insertion, then per-edge deletion. -/
def stepChildren (A : FuzzyAhoCorasick) (tc : List G) (s : SState) : List SState :=
  (if s.j < tc.length then
    exactSubstChildren A s (tc.getD s.j []) ++ swapChildren A tc s ++ insChildren A s
  else []) ++ delChildren A s

/-- The `while q_idx < queue.len()` loop of `search_unsorted` for one seed,
as structural recursion on the unprocessed queue tail; `none` on fuel
exhaustion. -/
def bfsLoop (A : FuzzyAhoCorasick) (hs tc : List G) (t : ℚ) :
    Nat → List SState → Best → Option Best
  | 0, rest, best =>
    match beamPrune A.beam_width rest with
    | [] => some best
    | _ :: _ => none
  | fuel + 1, rest, best =>
    match beamPrune A.beam_width rest with
    | [] => some best
    | s :: tail =>
      if maxPossibleSim A s.penalties < t then bfsLoop A hs tc t fuel tail best
      else bfsLoop A hs tc t fuel (tail ++ stepChildren A tc s) (emitState A hs t s best)

/-- Seed state of `search_unsorted` at window position `start`. -/
def initState (start : Nat) : SState :=
  ⟨0, start, start, start, 0, 0, 0, 0, 0, 0⟩

/-- The `for start in 0..text_chars.len()` loop of `search_unsorted`,
threading the shared best-match table through the per-seed BFS loops. -/
def runSeeds (A : FuzzyAhoCorasick) (hs tc : List G) (t : ℚ) (fuel : Nat) :
    List Nat → Best → Option Best
  | [], best => some best
  | st :: rest, best =>
    match bfsLoop A hs tc t fuel [initState st] best with
    | none => none
    | some best' => runSeeds A hs tc t fuel rest best'

/-- `FuzzyAhoCorasick::search_unsorted` (lib.rs), fueled.  `lower` abstracts
`str::to_lowercase` on a grapheme cluster. -/
def search_unsorted (A : FuzzyAhoCorasick) (lower : G → G) (hs : List G) (t : ℚ)
    (fuel : Nat) : Option FuzzyMatches :=
  if hs.isEmpty then some ⟨hs, []⟩
  else
    let tc := if A.case_insensitive then hs.map lower else hs
    (runSeeds A hs tc t fuel (List.range tc.length) []).map fun best =>
      ⟨hs, best.map fun km =>
        { km.2 with text := byteSlice (haystackBytes hs) km.2.start km.2.end_ }⟩

/-- Three-way comparison on `ℚ` (`f32::total_cmp` on the NaN-free values the
model produces). -/
def cmpQ (a b : ℚ) : Ordering :=
  if a < b then .lt else if b < a then .gt else .eq

/-- Three-way comparison on `Nat`. -/
def cmpN (a b : Nat) : Ordering :=
  if a < b then .lt else if b < a then .gt else .eq

/-- The `default_sort` comparator (matches.rs): descending similarity, then
descending pattern byte length, then descending text length, then ascending
start. -/
def defaultCmp (left right : FuzzyMatch) : Ordering :=
  ((cmpQ right.similarity left.similarity).then
    (cmpN right.pattern.byteLen left.pattern.byteLen)).then
    ((cmpN right.text.length left.text.length).then (cmpN left.start right.start))

/-- `FuzzyMatches::default_sort` (matches.rs), as a stable sort. -/
def default_sort (x : FuzzyMatches) : FuzzyMatches :=
  { x with inner := stableSortBy (fun a b => defaultCmp a b ≠ Ordering.gt) x.inner }

/-- `FuzzyAhoCorasick::search` (lib.rs). -/
def search (A : FuzzyAhoCorasick) (lower : G → G) (hs : List G) (t : ℚ)
    (fuel : Nat) : Option FuzzyMatches :=
  (search_unsorted A lower hs t fuel).map default_sort

/-- `range(..=k).next_back()` on a key-sorted interval map: the last entry
with key at most `k`. -/
def predEntry : List (Nat × Nat) → Nat → Option (Nat × Nat)
  | [], _ => none
  | e :: es, k =>
    if e.1 ≤ k then some ((predEntry es k).getD e) else predEntry es k

/-- `range(k..).next()` on a key-sorted interval map: the first entry with key
at least `k`. -/
def succEntry : List (Nat × Nat) → Nat → Option (Nat × Nat)
  | [], _ => none
  | e :: es, k => if k ≤ e.1 then some e else succEntry es k

/-- `BTreeMap::insert` on a key-sorted interval map (overwrites an equal key). -/
def mapInsert : List (Nat × Nat) → Nat → Nat → List (Nat × Nat)
  | [], k, v => [(k, v)]
  | e :: es, k, v =>
    if k < e.1 then (k, v) :: e :: es
    else if k = e.1 then (k, v) :: es
    else e :: mapInsert es k v

/-- The acceptance test of `non_overlapping` (matches.rs): the nearest stored
interval on each side must not strictly overlap `[start, end)`. -/
def noAccept (occ : List (Nat × Nat)) (m : FuzzyMatch) : Bool :=
  ((predEntry occ m.start).all fun e => e.2 ≤ m.start) &&
  ((succEntry occ m.start).all fun e => m.end_ ≤ e.1)

/-- The `retain` pass of `non_overlapping` (matches.rs), threading the
interval map of accepted spans. -/
def nonOverlappingRetain : List FuzzyMatch → List (Nat × Nat) → List FuzzyMatch
  | [], _ => []
  | m :: rest, occ =>
    if noAccept occ m then m :: nonOverlappingRetain rest (mapInsert occ m.start m.end_)
    else nonOverlappingRetain rest occ

/-- `sort_by_key(|m| m.start)` ordering. -/
def startLe (a b : FuzzyMatch) : Bool := a.start ≤ b.start

/-- `FuzzyMatches::non_overlapping` (matches.rs). -/
def non_overlapping (x : FuzzyMatches) : FuzzyMatches :=
  { x with inner := stableSortBy startLe (nonOverlappingRetain x.inner []) }

/-- `FuzzyAhoCorasick::search_non_overlapping` (lib.rs). -/
def search_non_overlapping (A : FuzzyAhoCorasick) (lower : G → G) (hs : List G)
    (t : ℚ) (fuel : Nat) : Option FuzzyMatches :=
  (search A lower hs t fuel).map non_overlapping

/-- `UniqueId` (structs.rs). -/
inductive UniqueId where
  | Automatic (n : Nat)
  | Custom (n : Nat)
  deriving DecidableEq, Repr

/-- The `retain` pass of `non_overlapping_unique` (matches.rs). -/
def nonOverlappingUniqueRetain :
    List FuzzyMatch → List UniqueId → List (Nat × Nat) → List FuzzyMatch
  | [], _, _ => []
  | m :: rest, used, occ =>
    let uid := match m.pattern.custom_unique_id with
      | some c => UniqueId.Custom c
      | none => UniqueId.Automatic m.pattern_index
    if !used.contains uid && noAccept occ m then
      m :: nonOverlappingUniqueRetain rest (uid :: used) (mapInsert occ m.start m.end_)
    else nonOverlappingUniqueRetain rest used occ

/-- `FuzzyMatches::non_overlapping_unique` (matches.rs). -/
def non_overlapping_unique (x : FuzzyMatches) : FuzzyMatches :=
  { x with inner := stableSortBy startLe (nonOverlappingUniqueRetain x.inner [] []) }

/-- `FuzzyAhoCorasick::search_non_overlapping_unique` (lib.rs). -/
def search_non_overlapping_unique (A : FuzzyAhoCorasick) (lower : G → G) (hs : List G)
    (t : ℚ) (fuel : Nat) : Option FuzzyMatches :=
  (search A lower hs t fuel).map non_overlapping_unique

/-! ### Basic lemmas about the sorting, best-table and child-generation steps -/

theorem insertRight_perm (le : α → α → Bool) (l : List α) (x : α) :
    (insertRight le l x).Perm (x :: l) := by
  induction l with
  | nil => simp [insertRight]
  | cons y ys ih =>
    unfold insertRight
    by_cases h : le y x = true
    · simp only [if_pos h]
      exact (ih.cons y).trans (List.Perm.swap x y ys)
    · simp only [if_neg h]
      exact List.Perm.refl _

theorem stableSortBy_perm (le : α → α → Bool) (l : List α) :
    (stableSortBy le l).Perm l := by
  suffices h : ∀ acc : List α, (l.foldl (insertRight le) acc).Perm (acc ++ l) by
    simpa using h []
  induction l with
  | nil => simp
  | cons x xs ih =>
    intro acc
    simp only [List.foldl_cons]
    exact (ih (insertRight le acc x)).trans
      (((insertRight_perm le acc x).append_right xs).trans List.perm_middle.symm)

theorem mem_stableSortBy {le : α → α → Bool} {l : List α} {a : α} :
    a ∈ stableSortBy le l ↔ a ∈ l :=
  (stableSortBy_perm le l).mem_iff

theorem mem_beamPrune {bw : Option Nat} {rest : List SState} {s : SState}
    (h : s ∈ beamPrune bw rest) : s ∈ rest := by
  unfold beamPrune at h
  cases bw with
  | none => exact h
  | some b =>
    by_cases hl : b * 2 < rest.length
    · simp only [if_pos hl] at h
      exact mem_stableSortBy.mp (List.mem_of_mem_take h)
    · simpa [if_neg hl] using h

theorem bestUpdate_mem {best : Best} {key : Nat × Nat × Nat} {m : FuzzyMatch}
    {e : (Nat × Nat × Nat) × FuzzyMatch} (h : e ∈ bestUpdate best key m) :
    e ∈ best ∨ e = (key, m) := by
  induction best with
  | nil => simpa [bestUpdate] using h
  | cons kv rest ih =>
    unfold bestUpdate at h
    by_cases hk : kv.1 = key
    · rw [if_pos hk] at h
      rcases List.mem_cons.mp h with h | h
      · by_cases hs : kv.2.similarity < m.similarity
        · rw [if_pos hs] at h
          subst hk
          exact Or.inr (by simpa using h)
        · rw [if_neg hs] at h
          exact Or.inl (by simp [h])
      · exact Or.inl (List.mem_cons_of_mem _ h)
    · rw [if_neg hk] at h
      rcases List.mem_cons.mp h with h | h
      · exact Or.inl (by simp [h])
      · rcases ih h with h | h
        · exact Or.inl (List.mem_cons_of_mem _ h)
        · exact Or.inr h

/-- One emission the state `s` may perform: pattern index in the node's
output, per-pattern limit check passed, threshold passed, and the key/match
pair is the one the emission builds. -/
def EmittedBy (A : FuzzyAhoCorasick) (hs : List G) (t : ℚ) (s : SState)
    (k : Nat × Nat × Nat) (m : FuzzyMatch) : Prop :=
  ∃ pi ∈ (nodeAt A s.node).output,
    within_limits A ((A.patterns.getD pi { grapheme_len := 0, pattern := [] }).limits)
      s.edits s.insertions s.deletions s.substitutions s.swaps = true ∧
    ¬ emissionSim A s pi < t ∧
    k = (startByte hs s, endByte hs s, pi) ∧ m = emissionMatch A hs s pi

theorem emitOne_mem {A : FuzzyAhoCorasick} {hs : List G} {t : ℚ} {s : SState}
    {best : Best} {pi : Nat} {e : (Nat × Nat × Nat) × FuzzyMatch}
    (h : e ∈ emitOne A hs t s best pi) :
    e ∈ best ∨
      (within_limits A ((A.patterns.getD pi { grapheme_len := 0, pattern := [] }).limits)
          s.edits s.insertions s.deletions s.substitutions s.swaps = true ∧
        ¬ emissionSim A s pi < t ∧
        e = ((startByte hs s, endByte hs s, pi), emissionMatch A hs s pi)) := by
  unfold emitOne at h
  by_cases hw : within_limits A
      ((A.patterns.getD pi { grapheme_len := 0, pattern := [] }).limits)
      s.edits s.insertions s.deletions s.substitutions s.swaps = true
  · rw [if_pos hw] at h
    by_cases hsim : emissionSim A s pi < t
    · rw [if_pos hsim] at h
      exact Or.inl h
    · rw [if_neg hsim] at h
      rcases bestUpdate_mem h with h | h
      · exact Or.inl h
      · exact Or.inr ⟨hw, hsim, h⟩
  · rw [if_neg hw] at h
    exact Or.inl h

theorem emitState_mem {A : FuzzyAhoCorasick} {hs : List G} {t : ℚ} {s : SState}
    {best : Best} {e : (Nat × Nat × Nat) × FuzzyMatch}
    (h : e ∈ emitState A hs t s best) :
    e ∈ best ∨ EmittedBy A hs t s e.1 e.2 := by
  unfold emitState at h
  suffices H : ∀ (l : List Nat) (b : Best), e ∈ l.foldl (emitOne A hs t s) b →
      e ∈ b ∨ ∃ pi ∈ l,
        within_limits A ((A.patterns.getD pi { grapheme_len := 0, pattern := [] }).limits)
          s.edits s.insertions s.deletions s.substitutions s.swaps = true ∧
        ¬ emissionSim A s pi < t ∧
        e = ((startByte hs s, endByte hs s, pi), emissionMatch A hs s pi) by
    rcases H _ _ h with h' | ⟨pi, hpi, hw, hsim, he⟩
    · exact Or.inl h'
    · refine Or.inr ⟨pi, hpi, hw, hsim, ?_, ?_⟩
      · rw [he]
      · rw [he]
  intro l
  induction l with
  | nil => intro b hb; exact Or.inl hb
  | cons p ps ih =>
    intro b hb
    rcases ih _ hb with h' | ⟨pi, hpi, rest⟩
    · rcases emitOne_mem h' with h'' | ⟨hw, hsim, he⟩
      · exact Or.inl h''
      · exact Or.inr ⟨p, List.mem_cons_self .., hw, hsim, he⟩
    · exact Or.inr ⟨pi, List.mem_cons_of_mem _ hpi, rest⟩

/-- The five transition kinds of the search kernel, with their guards, as a
relation between a dequeued state and a pushed child. -/
inductive Step (A : FuzzyAhoCorasick) (tc : List G) (s : SState) : SState → Prop where
  | exact (en : G × Nat) (hj : s.j < tc.length)
      (hen : en ∈ (nodeAt A s.node).transitions) (heq : en.1 = tc.getD s.j []) :
      Step A tc s
        { s with
          node := en.2, j := s.j + 1,
          matched_start := if s.matched_end = s.matched_start then s.j else s.matched_start,
          matched_end := s.j + 1 }
  | subst (en : G × Nat) (hj : s.j < tc.length)
      (hen : en ∈ (nodeAt A s.node).transitions) (hne : en.1 ≠ tc.getD s.j [])
      (hlim : within_limits_subst A (get_node_limits A s.node) s.edits s.substitutions = true) :
      Step A tc s
        { s with
          node := en.2, j := s.j + 1,
          matched_start := if s.matched_end = s.matched_start then s.j else s.matched_start,
          matched_end := s.j + 1,
          penalties := s.penalties +
            A.penalties.substitution * (1 - get_similarity A (en.1.headD 0) ((tc.getD s.j []).headD 0)),
          edits := s.edits + 1, substitutions := s.substitutions + 1 }
  | swap (node2 : Nat) (hj : s.j + 1 < tc.length)
      (hpath : (alGet (nodeAt A s.node).transitions (tc.getD (s.j + 1) [])).bind
        (fun x => alGet (nodeAt A x).transitions (tc.getD s.j [])) = some node2)
      (hlim : within_limits_swap_ahead A (get_node_limits A node2) s.edits s.swaps = true) :
      Step A tc s
        { s with
          node := node2, j := s.j + 2, matched_end := s.j + 2,
          penalties := s.penalties + A.penalties.swap,
          edits := s.edits + 1, swaps := s.swaps + 1 }
  | ins (hj : s.j < tc.length)
      (hwin : (s.matched_start ≠ s.matched_end || s.matched_start ≠ s.j) = true)
      (hlim : within_limits_insertion_ahead A (get_node_limits A s.node) s.edits s.insertions = true) :
      Step A tc s
        { s with
          j := s.j + 1,
          penalties := s.penalties + A.penalties.insertion,
          edits := s.edits + 1, insertions := s.insertions + 1 }
  | del (en : G × Nat) (hen : en ∈ (nodeAt A s.node).transitions)
      (hlim : within_limits_deletion_ahead A (get_node_limits A s.node) s.edits s.deletions = true) :
      Step A tc s
        { s with
          node := en.2,
          penalties := s.penalties + A.penalties.deletion,
          edits := s.edits + 1, deletions := s.deletions + 1 }

theorem step_of_mem {A : FuzzyAhoCorasick} {tc : List G} {s c : SState}
    (h : c ∈ stepChildren A tc s) : Step A tc s c := by
  unfold stepChildren at h
  rcases List.mem_append.mp h with h | h
  · by_cases hj : s.j < tc.length
    · rw [if_pos hj] at h
      rcases List.mem_append.mp h with h | h
      · rcases List.mem_append.mp h with h | h
        · unfold exactSubstChildren at h
          rw [List.mem_flatMap] at h
          obtain ⟨en, hen, hc⟩ := h
          by_cases he : en.1 = tc.getD s.j []
          · rw [if_pos he] at hc
            rcases List.mem_singleton.mp hc with rfl
            exact Step.exact en hj hen he
          · rw [if_neg he] at hc
            by_cases hl : within_limits_subst A (get_node_limits A s.node)
                s.edits s.substitutions = true
            · rw [if_pos hl] at hc
              rcases List.mem_singleton.mp hc with rfl
              exact Step.subst en hj hen he hl
            · rw [if_neg hl] at hc
              simp at hc
        · unfold swapChildren at h
          by_cases hj2 : s.j + 1 < tc.length
          · rw [if_pos hj2] at h
            revert h
            cases hpath : (alGet (nodeAt A s.node).transitions (tc.getD (s.j + 1) [])).bind
                (fun x => alGet (nodeAt A x).transitions (tc.getD s.j [])) with
            | none => intro h; simp at h
            | some node2 =>
              intro h
              dsimp only at h
              by_cases hl : within_limits_swap_ahead A (get_node_limits A node2)
                  s.edits s.swaps = true
              · rw [if_pos hl] at h
                rcases List.mem_singleton.mp h with rfl
                exact Step.swap node2 hj2 hpath hl
              · rw [if_neg hl] at h
                simp at h
          · rw [if_neg hj2] at h
            simp at h
      · unfold insChildren at h
        by_cases hg : ((s.matched_start ≠ s.matched_end || s.matched_start ≠ s.j) &&
            within_limits_insertion_ahead A (get_node_limits A s.node)
              s.edits s.insertions) = true
        · rw [if_pos hg] at h
          rcases List.mem_singleton.mp h with rfl
          simp only [Bool.and_eq_true] at hg
          exact Step.ins hj hg.1 hg.2
        · rw [if_neg hg] at h
          simp at h
    · rw [if_neg hj] at h
      simp at h
  · unfold delChildren at h
    by_cases hl : within_limits_deletion_ahead A (get_node_limits A s.node)
        s.edits s.deletions = true
    · rw [if_pos hl] at h
      rw [List.mem_map] at h
      obtain ⟨en, hen, rfl⟩ := h
      exact Step.del en hen hl
    · rw [if_neg hl] at h
      simp at h

/-! ### Generic invariant propagation through the search loop -/

theorem bfsLoop_inv {A : FuzzyAhoCorasick} {hs tc : List G} {t : ℚ}
    (SInv : SState → Prop) (BInv : (Nat × Nat × Nat) → FuzzyMatch → Prop)
    (hChild : ∀ s c, SInv s → Step A tc s c → SInv c)
    (hEmit : ∀ s k m, SInv s → EmittedBy A hs t s k m → BInv k m) :
    ∀ (fuel : Nat) (rest : List SState) (best final : Best),
      bfsLoop A hs tc t fuel rest best = some final →
      (∀ s ∈ rest, SInv s) → (∀ e ∈ best, BInv e.1 e.2) →
      ∀ e ∈ final, BInv e.1 e.2 := by
  intro fuel
  induction fuel with
  | zero =>
    intro rest best final hrun hrest hbest
    unfold bfsLoop at hrun
    cases hbp : beamPrune A.beam_width rest with
    | nil => rw [hbp] at hrun; cases hrun; exact hbest
    | cons s tail => rw [hbp] at hrun; cases hrun
  | succ n ih =>
    intro rest best final hrun hrest hbest
    unfold bfsLoop at hrun
    cases hbp : beamPrune A.beam_width rest with
    | nil => rw [hbp] at hrun; cases hrun; exact hbest
    | cons s tail =>
      rw [hbp] at hrun
      dsimp only at hrun
      have hSs : SInv s := hrest _ (mem_beamPrune (by rw [hbp]; exact List.mem_cons_self ..))
      have htail : ∀ x ∈ tail, SInv x := fun x hx =>
        hrest _ (mem_beamPrune (by rw [hbp]; exact List.mem_cons_of_mem _ hx))
      by_cases hpr : maxPossibleSim A s.penalties < t
      · rw [if_pos hpr] at hrun
        exact ih _ _ _ hrun htail hbest
      · rw [if_neg hpr] at hrun
        refine ih _ _ _ hrun ?_ ?_
        · intro x hx
          rcases List.mem_append.mp hx with hx | hx
          · exact htail x hx
          · exact hChild s x hSs (step_of_mem hx)
        · intro e he
          rcases emitState_mem he with he | he
          · exact hbest e he
          · exact hEmit s e.1 e.2 hSs he

theorem runSeeds_inv {A : FuzzyAhoCorasick} {hs tc : List G} {t : ℚ} {fuel : Nat}
    (SInv : SState → Prop) (BInv : (Nat × Nat × Nat) → FuzzyMatch → Prop)
    (hChild : ∀ s c, SInv s → Step A tc s c → SInv c)
    (hEmit : ∀ s k m, SInv s → EmittedBy A hs t s k m → BInv k m) :
    ∀ (seeds : List Nat) (best final : Best),
      runSeeds A hs tc t fuel seeds best = some final →
      (∀ st ∈ seeds, SInv (initState st)) → (∀ e ∈ best, BInv e.1 e.2) →
      ∀ e ∈ final, BInv e.1 e.2 := by
  intro seeds
  induction seeds with
  | nil =>
    intro best final hrun _ hbest
    cases hrun
    exact hbest
  | cons st rest ih =>
    intro best final hrun hseeds hbest
    unfold runSeeds at hrun
    cases hloop : bfsLoop A hs tc t fuel [initState st] best with
    | none => rw [hloop] at hrun; cases hrun
    | some best' =>
      rw [hloop] at hrun
      refine ih _ _ hrun (fun x hx => hseeds _ (List.mem_cons_of_mem _ hx)) ?_
      exact bfsLoop_inv SInv BInv hChild hEmit _ _ _ _ hloop
        (by
          intro x hx
          rcases List.mem_singleton.mp hx with rfl
          exact hseeds _ (List.mem_cons_self ..))
        hbest

/-- Invariant propagation from seed states and transitions through
`search_unsorted` to the produced match list (each produced match is a
best-table entry with its text re-sliced from the haystack). -/
theorem search_unsorted_inv {A : FuzzyAhoCorasick} {lower : G → G} {hs : List G}
    {t : ℚ} {fuel : Nat} {res : FuzzyMatches}
    (SInv : SState → Prop) (BInv : (Nat × Nat × Nat) → FuzzyMatch → Prop)
    (hrun : search_unsorted A lower hs t fuel = some res)
    (hseed : ∀ st, st < hs.length → SInv (initState st))
    (hChild : ∀ s c, SInv s →
      Step A (if A.case_insensitive then hs.map lower else hs) s c → SInv c)
    (hEmit : ∀ s k m, SInv s → EmittedBy A hs t s k m → BInv k m) :
    ∀ m ∈ res.inner, ∃ k m0, BInv k m0 ∧
      m = { m0 with text := byteSlice (haystackBytes hs) m0.start m0.end_ } := by
  unfold search_unsorted at hrun
  by_cases hemp : hs.isEmpty
  · rw [if_pos hemp] at hrun
    cases hrun
    intro m hm
    simp at hm
  · rw [if_neg hemp] at hrun
    dsimp only at hrun
    cases hseeds : runSeeds A hs (if A.case_insensitive then hs.map lower else hs) t fuel
        (List.range (if A.case_insensitive then hs.map lower else hs).length) [] with
    | none => rw [hseeds] at hrun; cases hrun
    | some bestf =>
      rw [hseeds] at hrun
      have hlen : (if A.case_insensitive then hs.map lower else hs).length = hs.length := by
        by_cases hci : A.case_insensitive <;> simp [hci]
      have hb : ∀ e ∈ bestf, BInv e.1 e.2 := by
        refine runSeeds_inv SInv BInv hChild hEmit _ _ _ hseeds ?_ (by intro e he; simp at he)
        intro st hst
        exact hseed st (by rw [← hlen]; exact List.mem_range.mp hst)
      cases hrun
      intro m hm
      simp only [List.mem_map] at hm
      obtain ⟨km, hkm, rfl⟩ := hm
      exact ⟨km.1, km.2, hb km hkm, rfl⟩

/-! ### Membership relations between the search variants -/

theorem mem_default_sort {x : FuzzyMatches} {m : FuzzyMatch} :
    m ∈ (default_sort x).inner ↔ m ∈ x.inner := mem_stableSortBy

theorem mem_of_mem_nonOverlappingRetain :
    ∀ {l : List FuzzyMatch} {occ : List (Nat × Nat)} {m : FuzzyMatch},
      m ∈ nonOverlappingRetain l occ → m ∈ l := by
  intro l
  induction l with
  | nil => intro occ m h; simp [nonOverlappingRetain] at h
  | cons x xs ih =>
    intro occ m h
    unfold nonOverlappingRetain at h
    by_cases ha : noAccept occ x = true
    · rw [if_pos ha] at h
      rcases List.mem_cons.mp h with h | h
      · exact h ▸ List.mem_cons_self ..
      · exact List.mem_cons_of_mem _ (ih h)
    · rw [if_neg ha] at h
      exact List.mem_cons_of_mem _ (ih h)

theorem mem_non_overlapping {x : FuzzyMatches} {m : FuzzyMatch}
    (h : m ∈ (non_overlapping x).inner) : m ∈ x.inner :=
  mem_of_mem_nonOverlappingRetain (mem_stableSortBy.mp h)

theorem mem_of_mem_nonOverlappingUniqueRetain :
    ∀ {l : List FuzzyMatch} {used : List UniqueId} {occ : List (Nat × Nat)} {m : FuzzyMatch},
      m ∈ nonOverlappingUniqueRetain l used occ → m ∈ l := by
  intro l
  induction l with
  | nil => intro used occ m h; simp [nonOverlappingUniqueRetain] at h
  | cons x xs ih =>
    intro used occ m h
    unfold nonOverlappingUniqueRetain at h
    by_cases ha : (!used.contains (match x.pattern.custom_unique_id with
        | some c => UniqueId.Custom c
        | none => UniqueId.Automatic x.pattern_index) && noAccept occ x) = true
    · rw [if_pos ha] at h
      rcases List.mem_cons.mp h with h | h
      · exact h ▸ List.mem_cons_self ..
      · exact List.mem_cons_of_mem _ (ih h)
    · rw [if_neg ha] at h
      exact List.mem_cons_of_mem _ (ih h)

theorem mem_non_overlapping_unique {x : FuzzyMatches} {m : FuzzyMatch}
    (h : m ∈ (non_overlapping_unique x).inner) : m ∈ x.inner :=
  mem_of_mem_nonOverlappingUniqueRetain (mem_stableSortBy.mp h)

/-- Any match produced by `search`, `search_non_overlapping` or
`search_non_overlapping_unique` is a match of the corresponding
`search_unsorted` run. -/
theorem searchVariants_mem (A : FuzzyAhoCorasick) (lower : G → G) (hs : List G)
    (t : ℚ) (fuel : Nat) :
    (∀ res, search A lower hs t fuel = some res →
      ∃ res0, search_unsorted A lower hs t fuel = some res0 ∧
        ∀ m ∈ res.inner, m ∈ res0.inner) ∧
    (∀ res, search_non_overlapping A lower hs t fuel = some res →
      ∃ res0, search_unsorted A lower hs t fuel = some res0 ∧
        ∀ m ∈ res.inner, m ∈ res0.inner) ∧
    (∀ res, search_non_overlapping_unique A lower hs t fuel = some res →
      ∃ res0, search_unsorted A lower hs t fuel = some res0 ∧
        ∀ m ∈ res.inner, m ∈ res0.inner) := by
  refine ⟨?_, ?_, ?_⟩ <;> intro res hres
  · unfold search at hres
    cases h0 : search_unsorted A lower hs t fuel with
    | none => rw [h0] at hres; cases hres
    | some res0 =>
      rw [h0] at hres
      cases hres
      exact ⟨res0, rfl, fun m hm => mem_default_sort.mp hm⟩
  · unfold search_non_overlapping search at hres
    cases h0 : search_unsorted A lower hs t fuel with
    | none => rw [h0] at hres; cases hres
    | some res0 =>
      rw [h0] at hres
      cases hres
      exact ⟨res0, rfl, fun m hm => mem_default_sort.mp (mem_non_overlapping hm)⟩
  · unfold search_non_overlapping_unique search at hres
    cases h0 : search_unsorted A lower hs t fuel with
    | none => rw [h0] at hres; cases hres
    | some res0 =>
      rw [h0] at hres
      cases hres
      exact ⟨res0, rfl, fun m hm => mem_default_sort.mp (mem_non_overlapping_unique hm)⟩

/-! ### Claim C6: the edit-sum invariant -/

/-- The edit-sum property of a state. -/
def StateEditSum (s : SState) : Prop :=
  s.edits = s.insertions + s.deletions + s.substitutions + s.swaps

/-- The edit-sum property of a match. -/
def MatchEditSum (m : FuzzyMatch) : Prop :=
  m.edits = m.insertions + m.deletions + m.substitutions + m.swaps

theorem stateEditSum_step {A : FuzzyAhoCorasick} {tc : List G} {s c : SState}
    (hs : StateEditSum s) (h : Step A tc s c) : StateEditSum c := by
  unfold StateEditSum at *
  cases h <;> simp <;> omega

theorem matchEditSum_emit {A : FuzzyAhoCorasick} {hs : List G} {t : ℚ} {s : SState}
    {k : Nat × Nat × Nat} {m : FuzzyMatch}
    (hss : StateEditSum s) (h : EmittedBy A hs t s k m) : MatchEditSum m := by
  obtain ⟨pi, _, _, _, _, rfl⟩ := h
  exact hss

/-- Claim C6: every match returned by `search_unsorted`, `search`,
`search_non_overlapping` or `search_non_overlapping_unique` satisfies
`edits = insertions + deletions + substitutions + swaps`; each BFS transition
that increments an individual edit count increments `edits` by exactly one and
exact-match transitions change no count (captured by the per-transition
preservation lemma used in the proof). -/
theorem C6_edit_sum (A : FuzzyAhoCorasick) (lower : G → G) (hs : List G) (t : ℚ)
    (fuel : Nat) :
    (∀ res, search_unsorted A lower hs t fuel = some res →
      ∀ m ∈ res.inner, m.edits = m.insertions + m.deletions + m.substitutions + m.swaps) ∧
    (∀ res, search A lower hs t fuel = some res →
      ∀ m ∈ res.inner, m.edits = m.insertions + m.deletions + m.substitutions + m.swaps) ∧
    (∀ res, search_non_overlapping A lower hs t fuel = some res →
      ∀ m ∈ res.inner, m.edits = m.insertions + m.deletions + m.substitutions + m.swaps) ∧
    (∀ res, search_non_overlapping_unique A lower hs t fuel = some res →
      ∀ m ∈ res.inner, m.edits = m.insertions + m.deletions + m.substitutions + m.swaps) := by
  have base : ∀ res, search_unsorted A lower hs t fuel = some res →
      ∀ m ∈ res.inner, m.edits = m.insertions + m.deletions + m.substitutions + m.swaps := by
    intro res hres m hm
    have := search_unsorted_inv StateEditSum (fun _ m => MatchEditSum m)
      hres (fun st _ => by unfold StateEditSum initState; simp)
      (fun s c hsi hstep => stateEditSum_step hsi hstep)
      (fun s k m hsi he => matchEditSum_emit hsi he)
    obtain ⟨k, m0, hm0, rfl⟩ := this m hm
    exact hm0
  obtain ⟨hv1, hv2, hv3⟩ :=
    searchVariants_mem A lower hs t fuel
  refine ⟨base, ?_, ?_, ?_⟩
  · intro res hres m hm
    obtain ⟨res0, h0, hsub⟩ := hv1 res hres
    exact base res0 h0 m (hsub m hm)
  · intro res hres m hm
    obtain ⟨res0, h0, hsub⟩ := hv2 res hres
    exact base res0 h0 m (hsub m hm)
  · intro res hres m hm
    obtain ⟨res0, h0, hsub⟩ := hv3 res hres
    exact base res0 h0 m (hsub m hm)

/-! ### Concrete example automata used by witnesses and counterexamples -/

/-- ASCII grapheme `a`. -/
def gA : G := [97]
/-- ASCII grapheme `b`. -/
def gB : G := [98]
/-- ASCII grapheme `x`. -/
def gX : G := [120]
/-- ASCII grapheme `y`. -/
def gY : G := [121]

/-- `FuzzyLimits::new().edits(2)` after `finalize`. -/
def lim2 : FuzzyLimits := FuzzyLimits.finalize { edits := some 2 }

/-- `FuzzyLimits::new().edits(1)` after `finalize`. -/
def lim1 : FuzzyLimits := FuzzyLimits.finalize { edits := some 1 }

/-- Automaton for the single pattern `ab` with global limits `edits(2)` and
default penalties (the trie `build` produces for it). -/
def autAB : FuzzyAhoCorasick :=
  { nodes :=
      [ { transitions := [(gA, 1)] },
        { pattern_index := some 0, transitions := [(gB, 2)], weight := 1/2 },
        { pattern_index := some 0, output := [0], weight := 1 } ],
    patterns := [{ grapheme_len := 2, pattern := [gA, gB] }],
    limits := some lim2,
    max_pattern_grapheme_len := 2 }

/-- A default match record (used only to select elements of concrete runs). -/
def mDefault : FuzzyMatch :=
  { insertions := 0, deletions := 0, substitutions := 0, swaps := 0, edits := 0,
    pattern_index := 0, pattern := { grapheme_len := 0, pattern := [] },
    start := 0, end_ := 0, similarity := 0, text := [] }

/-- The concrete result of searching `xy` with `autAB` at threshold 1/5. -/
def resAB_xy : FuzzyMatches := (search_unsorted autAB id [gX, gY] (1/5) 50).getD ⟨[], []⟩

section
attribute [local semireducible] Rat.mul Rat.add Rat.sub Rat.inv
set_option maxRecDepth 100000

/-- Witness for C6 at a concrete input: the first match of a concrete run
satisfies the edit-sum equation. -/
theorem C6_edit_sum_witness :
    (resAB_xy.inner.getD 0 mDefault).edits =
      (resAB_xy.inner.getD 0 mDefault).insertions +
      (resAB_xy.inner.getD 0 mDefault).deletions +
      (resAB_xy.inner.getD 0 mDefault).substitutions +
      (resAB_xy.inner.getD 0 mDefault).swaps :=
  (C6_edit_sum autAB id [gX, gY] (1/5) 50).1 resAB_xy (by decide) _ (by decide)

end

/-! ### Claim C1: span validity -/

theorem byteOffset_mono (hs : List G) {i j : Nat} (h : i ≤ j) :
    byteOffset hs i ≤ byteOffset hs j := by
  unfold byteOffset
  calc ((hs.take i).map graphemeSize).sum
      = (((hs.take j).take i).map graphemeSize).sum := by
        rw [List.take_take, Nat.min_eq_left h]
    _ ≤ (((hs.take j).take i).map graphemeSize).sum +
        (((hs.take j).drop i).map graphemeSize).sum := Nat.le_add_right _ _
    _ = ((hs.take j).map graphemeSize).sum := by
        rw [← List.sum_append, ← List.map_append, List.take_append_drop]

theorem length_haystackBytes (hs : List G) :
    (haystackBytes hs).length = (hs.map graphemeSize).sum := by
  unfold haystackBytes
  rw [List.length_flatten, List.map_map]
  rfl

theorem byteOffset_le_length (hs : List G) (i : Nat) :
    byteOffset hs i ≤ (haystackBytes hs).length := by
  rw [length_haystackBytes]
  unfold byteOffset
  conv_rhs => rw [← List.take_append_drop i hs]
  rw [List.map_append, List.sum_append]
  exact Nat.le_add_right _ _

/-- The state invariant for span validity: the matched window sits between the
seed and the cursor, inside the haystack. -/
def SpanInv (len : Nat) (s : SState) : Prop :=
  s.matched_start ≤ s.matched_end ∧ s.matched_end ≤ s.j ∧ s.j ≤ len ∧
    (s.matched_start < len ∨ len = 0)

theorem spanInv_step {A : FuzzyAhoCorasick} {tc : List G} {s c : SState}
    (hs : SpanInv tc.length s) (h : Step A tc s c) :
    SpanInv tc.length c := by
  obtain ⟨h1, h2, h3, h4⟩ := hs
  cases h with
  | exact en hj hen heq =>
    unfold SpanInv
    dsimp only
    by_cases hms : s.matched_end = s.matched_start <;> simp only [hms, if_pos, if_neg] <;>
      simp [hms] <;> omega
  | subst en hj hen hne hlim =>
    unfold SpanInv
    dsimp only
    by_cases hms : s.matched_end = s.matched_start <;> simp only [hms, if_pos, if_neg] <;>
      simp [hms] <;> omega
  | swap node2 hj hpath hlim =>
    unfold SpanInv
    dsimp only
    omega
  | ins hj hwin hlim =>
    unfold SpanInv
    dsimp only
    omega
  | del en hen hlim =>
    unfold SpanInv
    dsimp only
    exact ⟨h1, h2, h3, h4⟩

/-- The match-level span property. -/
def SpanOk (hs : List G) (m : FuzzyMatch) : Prop :=
  m.start ≤ m.end_ ∧ m.end_ ≤ (haystackBytes hs).length

theorem spanOk_emit {A : FuzzyAhoCorasick} {hs : List G} {t : ℚ} {s : SState}
    {k : Nat × Nat × Nat} {m : FuzzyMatch}
    (hsi : SpanInv hs.length s) (h : EmittedBy A hs t s k m) : SpanOk hs m := by
  obtain ⟨pi, _, _, _, _, rfl⟩ := h
  obtain ⟨h1, h2, h3, h4⟩ := hsi
  unfold emissionMatch SpanOk startByte endByte
  constructor
  · dsimp only
    by_cases hms : s.matched_start < hs.length
    · rw [if_pos hms]
      by_cases hme : s.matched_end < hs.length
      · rw [if_pos hme]
        exact byteOffset_mono hs h1
      · rw [if_neg hme]
        exact byteOffset_le_length hs _
    · rw [if_neg hms]
      exact Nat.zero_le _
  · dsimp only
    by_cases hme : s.matched_end < hs.length
    · rw [if_pos hme]
      exact byteOffset_le_length hs _
    · rw [if_neg hme]

/-- Claim C1 (amended): every match returned by `search_unsorted` (and hence
by `search`, `search_non_overlapping` and `search_non_overlapping_unique`)
satisfies `0 ≤ start ≤ end ≤ |H|` in bytes, with `text` equal to the byte
slice `H[start..end]`.  (The original strict `start < end` fails: a pattern
matched entirely by deletions yields an empty span, see the counterexample.) -/
theorem C1_span_validity (A : FuzzyAhoCorasick) (lower : G → G) (hs : List G) (t : ℚ)
    (fuel : Nat) :
    (∀ res, search_unsorted A lower hs t fuel = some res →
      ∀ m ∈ res.inner, m.start ≤ m.end_ ∧ m.end_ ≤ (haystackBytes hs).length ∧
        m.text = byteSlice (haystackBytes hs) m.start m.end_) ∧
    (∀ res, search A lower hs t fuel = some res →
      ∀ m ∈ res.inner, m.start ≤ m.end_ ∧ m.end_ ≤ (haystackBytes hs).length ∧
        m.text = byteSlice (haystackBytes hs) m.start m.end_) ∧
    (∀ res, search_non_overlapping A lower hs t fuel = some res →
      ∀ m ∈ res.inner, m.start ≤ m.end_ ∧ m.end_ ≤ (haystackBytes hs).length ∧
        m.text = byteSlice (haystackBytes hs) m.start m.end_) ∧
    (∀ res, search_non_overlapping_unique A lower hs t fuel = some res →
      ∀ m ∈ res.inner, m.start ≤ m.end_ ∧ m.end_ ≤ (haystackBytes hs).length ∧
        m.text = byteSlice (haystackBytes hs) m.start m.end_) := by
  have base : ∀ res, search_unsorted A lower hs t fuel = some res →
      ∀ m ∈ res.inner, m.start ≤ m.end_ ∧ m.end_ ≤ (haystackBytes hs).length ∧
        m.text = byteSlice (haystackBytes hs) m.start m.end_ := by
    intro res hres m hm
    have hlen : (if A.case_insensitive then hs.map lower else hs).length = hs.length := by
      by_cases hci : A.case_insensitive <;> simp [hci]
    have := search_unsorted_inv (SpanInv hs.length)
      (fun _ m => SpanOk hs m) hres
      (fun st hst => by
        unfold SpanInv initState
        dsimp only
        omega)
      (fun s c hsi hstep => by
        rw [← hlen] at hsi ⊢
        exact spanInv_step hsi hstep)
      (fun s k m hsi he => spanOk_emit hsi he)
    obtain ⟨k, m0, hm0, rfl⟩ := this m hm
    exact ⟨hm0.1, hm0.2, rfl⟩
  obtain ⟨hv1, hv2, hv3⟩ :=
    searchVariants_mem A lower hs t fuel
  refine ⟨base, ?_, ?_, ?_⟩
  · intro res hres m hm
    obtain ⟨res0, h0, hsub⟩ := hv1 res hres
    exact base res0 h0 m (hsub m hm)
  · intro res hres m hm
    obtain ⟨res0, h0, hsub⟩ := hv2 res hres
    exact base res0 h0 m (hsub m hm)
  · intro res hres m hm
    obtain ⟨res0, h0, hsub⟩ := hv3 res hres
    exact base res0 h0 m (hsub m hm)

section
attribute [local semireducible] Rat.mul Rat.add Rat.sub Rat.inv
set_option maxRecDepth 100000

/-- Counterexample to C1 as stated: searching `xy` for the pattern `ab` with
`edits(2)` limits at threshold 1/5 returns a match whose whole pattern was
deleted, with `start = end = 0` — the strict inequality `start < end` fails. -/
theorem C1_span_validity_counterexample :
    search_unsorted autAB id [gX, gY] (1/5) 50 = some resAB_xy ∧
    resAB_xy.inner.getD 0 mDefault ∈ resAB_xy.inner ∧
    ¬ (resAB_xy.inner.getD 0 mDefault).start < (resAB_xy.inner.getD 0 mDefault).end_ := by
  refine ⟨by decide, by decide, by decide⟩

/-- Witness for the amended C1 at a concrete input. -/
theorem C1_span_validity_witness :
    (resAB_xy.inner.getD 0 mDefault).start ≤ (resAB_xy.inner.getD 0 mDefault).end_ ∧
    (resAB_xy.inner.getD 0 mDefault).end_ ≤ (haystackBytes [gX, gY]).length ∧
    (resAB_xy.inner.getD 0 mDefault).text =
      byteSlice (haystackBytes [gX, gY]) (resAB_xy.inner.getD 0 mDefault).start
        (resAB_xy.inner.getD 0 mDefault).end_ :=
  (C1_span_validity autAB id [gX, gY] (1/5) 50).1 resAB_xy (by decide) _ (by decide)

end

/-! ### Claim C2: exactness under absent limits -/

/-- Grapheme slice `l[a..b]`. -/
def sliceG (l : List G) (a b : Nat) : List G := (l.drop a).take (b - a)

theorem sliceG_snoc {l : List G} {a b : Nat} (hab : a ≤ b) (hb : b < l.length) :
    sliceG l a (b + 1) = sliceG l a b ++ [l.getD b []] := by
  unfold sliceG
  have hstep : b + 1 - a = (b - a) + 1 := by omega
  rw [hstep, List.take_succ]
  congr 1
  have : (l.drop a)[b - a]? = some (l.getD b []) := by
    rw [List.getElem?_drop]
    have hba : a + (b - a) = b := by omega
    rw [hba, List.getD_eq_getElem l [] hb, List.getElem?_eq_getElem hb]
  rw [this]
  rfl

/-- Trie faithfulness: a path assignment under which every transition extends
the source node's path by its label and every output pattern's (folded)
graphemes spell exactly the node's path.  The snapshot's builder produces
automata of this shape: phase A creates a fresh node per grapheme of each
pattern (its edge-reuse test compares against a not-yet-created index and
never fires), and phase B computes fallback 0 for every node (the `fail == 0`
branch ignores the root's transitions), so outputs are never inherited along
failure links and remain exactly at each pattern's terminal node. -/
def TrieFaithful (A : FuzzyAhoCorasick) (lower : G → G) (pathOf : Nat → List G) : Prop :=
  pathOf 0 = [] ∧
  (∀ n, n < A.nodes.length → ∀ en ∈ (nodeAt A n).transitions,
    pathOf en.2 = pathOf n ++ [en.1]) ∧
  (∀ n, n < A.nodes.length → ∀ i ∈ (nodeAt A n).output,
    ∃ p, A.patterns.get? i = some p ∧
      pathOf n = (if A.case_insensitive then p.pattern.map lower else p.pattern))

theorem nodeAt_of_le {A : FuzzyAhoCorasick} {n : Nat} (h : A.nodes.length ≤ n) :
    nodeAt A n = {} := by
  unfold nodeAt
  exact List.getD_eq_default _ _ h

/-- The zero-edit invariant: a state whose edit counts are all zero has its
window closed at the cursor and its node's trie path equal to the consumed
(folded) window. -/
def ZeroPath (tc : List G) (pathOf : Nat → List G) (s : SState) : Prop :=
  s.insertions = 0 → s.deletions = 0 → s.substitutions = 0 → s.swaps = 0 →
    s.matched_end = s.j ∧ pathOf s.node = sliceG tc s.matched_start s.matched_end

theorem zeroPath_step {A : FuzzyAhoCorasick} {tc : List G} {pathOf : Nat → List G}
    {lower : G → G} {s c : SState}
    (hT : TrieFaithful A lower pathOf)
    (hsp : SpanInv tc.length s) (hz : ZeroPath tc pathOf s) (h : Step A tc s c) :
    ZeroPath tc pathOf c := by
  obtain ⟨hroot, hedge, hout⟩ := hT
  cases h with
  | exact en hj hen heq =>
    intro hi hd hsub hsw
    dsimp only at hi hd hsub hsw ⊢
    obtain ⟨hme, hpath⟩ := hz hi hd hsub hsw
    have hnode : s.node < A.nodes.length := by
      by_contra hge
      rw [nodeAt_of_le (by omega)] at hen
      simp at hen
    have hchild := hedge s.node hnode en hen
    constructor
    · rfl
    · rw [hchild, hpath, heq]
      by_cases hms : s.matched_end = s.matched_start
      · rw [if_pos hms]
        have e1 : sliceG tc s.matched_start s.matched_end = [] := by
          unfold sliceG
          rw [hms, Nat.sub_self]
          rfl
        have e2 : sliceG tc s.j s.j = [] := by
          unfold sliceG
          rw [Nat.sub_self]
          rfl
        rw [e1, sliceG_snoc (le_refl s.j) hj, e2]
      · rw [if_neg hms]
        have hms' : s.matched_start ≤ s.j := by
          obtain ⟨a, b, _, _⟩ := hsp
          omega
        rw [hme]
        exact (sliceG_snoc hms' hj).symm
  | subst en hj hen hne hlim =>
    intro hi hd hsub hsw
    dsimp only at hsub
    omega
  | swap node2 hj hpath hlim =>
    intro hi hd hsub hsw
    dsimp only at hsw
    omega
  | ins hj hwin hlim =>
    intro hi hd hsub hsw
    dsimp only at hi
    omega
  | del en hen hlim =>
    intro hi hd hsub hsw
    dsimp only at hd
    omega

theorem byteOffset_length (hs : List G) :
    byteOffset hs hs.length = (haystackBytes hs).length := by
  rw [length_haystackBytes]
  unfold byteOffset
  rw [List.take_length]

theorem haystackBytes_append (l1 l2 : List G) :
    haystackBytes (l1 ++ l2) = haystackBytes l1 ++ haystackBytes l2 := by
  unfold haystackBytes
  rw [List.map_append, List.flatten_append]

theorem length_haystackBytes_take (hs : List G) (a : Nat) :
    (haystackBytes (hs.take a)).length = byteOffset hs a := by
  rw [length_haystackBytes]
  rfl

theorem take_eq_take_append_sliceG (hs : List G) {a b : Nat} (hab : a ≤ b) :
    hs.take b = hs.take a ++ sliceG hs a b := by
  unfold sliceG
  rw [← List.drop_take]
  conv_lhs => rw [← List.take_append_drop a (hs.take b)]
  rw [List.take_take, Nat.min_eq_left hab]

theorem byteOffset_add_sliceG (hs : List G) {a b : Nat} (hab : a ≤ b) :
    byteOffset hs b = byteOffset hs a + (haystackBytes (sliceG hs a b)).length := by
  have h := take_eq_take_append_sliceG hs hab
  have : haystackBytes (hs.take b) = haystackBytes (hs.take a) ++ haystackBytes (sliceG hs a b) := by
    rw [h, haystackBytes_append]
  have hlen := congrArg List.length this
  rw [List.length_append, length_haystackBytes_take, length_haystackBytes_take] at hlen
  exact hlen

theorem drop_eq_sliceG_append (hs : List G) {a b : Nat} (hab : a ≤ b) (_hb : b ≤ hs.length) :
    hs.drop a = sliceG hs a b ++ hs.drop b := by
  unfold sliceG
  conv_lhs => rw [← List.take_append_drop (b - a) (hs.drop a)]
  rw [List.drop_drop]
  congr 2
  omega

/-- Slicing the haystack bytes at grapheme-boundary offsets yields the bytes
of the grapheme slice. -/
theorem byteSlice_haystack (hs : List G) {a b : Nat} (hab : a ≤ b) (hb : b ≤ hs.length) :
    byteSlice (haystackBytes hs) (byteOffset hs a) (byteOffset hs b) =
      haystackBytes (sliceG hs a b) := by
  unfold byteSlice
  have hB : haystackBytes hs = haystackBytes (hs.take a) ++ haystackBytes (hs.drop a) := by
    conv_lhs => rw [← List.take_append_drop a hs]
    rw [haystackBytes_append]
  rw [hB]
  have hd1 : (haystackBytes (hs.take a) ++ haystackBytes (hs.drop a)).drop (byteOffset hs a) =
      haystackBytes (hs.drop a) := by
    rw [← length_haystackBytes_take hs a]
    exact List.drop_left _ _
  rw [hd1, drop_eq_sliceG_append hs hab hb, haystackBytes_append]
  have : byteOffset hs b - byteOffset hs a = (haystackBytes (sliceG hs a b)).length := by
    rw [byteOffset_add_sliceG hs hab]
    omega
  rw [this]
  exact List.take_left _ _

theorem sliceG_map (f : G → G) (hs : List G) (a b : Nat) :
    sliceG (hs.map f) a b = (sliceG hs a b).map f := by
  unfold sliceG
  rw [← List.map_drop, ← List.map_take]

/-- The match-level conclusion of claim C2: when neither the automaton nor the
matched pattern carries limits, the match is exact — all counts zero and the
matched window's folded graphemes equal the pattern's folded graphemes. -/
def ExactOk (A : FuzzyAhoCorasick) (lower : G → G) (hs : List G) (m : FuzzyMatch) : Prop :=
  A.limits = none → m.pattern.limits = none →
    m.insertions = 0 ∧ m.deletions = 0 ∧ m.substitutions = 0 ∧ m.swaps = 0 ∧ m.edits = 0 ∧
    ∃ a b, a ≤ b ∧ b ≤ hs.length ∧ m.start = byteOffset hs a ∧ m.end_ = byteOffset hs b ∧
      (if A.case_insensitive then (sliceG hs a b).map lower else sliceG hs a b) =
      (if A.case_insensitive then m.pattern.pattern.map lower else m.pattern.pattern)

theorem exactOk_emit {A : FuzzyAhoCorasick} {lower : G → G} {hs : List G} {t : ℚ}
    {pathOf : Nat → List G} {s : SState} {k : Nat × Nat × Nat} {m : FuzzyMatch}
    (hT : TrieFaithful A lower pathOf)
    (hsi : SpanInv hs.length s ∧
      ZeroPath (if A.case_insensitive then hs.map lower else hs) pathOf s)
    (h : EmittedBy A hs t s k m) : ExactOk A lower hs m := by
  obtain ⟨pi, hpi, hwl, _, _, rfl⟩ := h
  intro hglob hpat
  obtain ⟨hsp, hz⟩ := hsi
  -- the per-pattern limit check ran with no limits anywhere: all counts are 0
  have hplim : (A.patterns.getD pi { grapheme_len := 0, pattern := [] }).limits = none := hpat
  rw [within_limits, hplim, hglob] at hwl
  simp only [Option.or_self] at hwl
  simp only [decide_eq_true_eq, Bool.and_eq_true] at hwl
  obtain ⟨⟨⟨⟨he, hi⟩, hd⟩, hsu⟩, hsw⟩ := hwl
  have hz' := hz hi hd hsu hsw
  obtain ⟨hme, hpath⟩ := hz'
  have hnode : s.node < A.nodes.length := by
    by_contra hge
    rw [nodeAt_of_le (by omega)] at hpi
    simp at hpi
  obtain ⟨hroot, hedge, hout⟩ := hT
  obtain ⟨p, hget, hpn⟩ := hout s.node hnode pi hpi
  have hpeq : patternAt A pi = p := by
    unfold patternAt
    rw [List.getD_eq_getD_get?, hget]
    rfl
  have hpp : (emissionMatch A hs s pi).pattern = p := hpeq
  obtain ⟨h1, h2, h3, h4⟩ := hsp
  refine ⟨hi, hd, hsu, hsw, he, s.matched_start, s.matched_end, h1, by omega, ?_, ?_, ?_⟩
  · unfold emissionMatch startByte
    dsimp only
    by_cases hms : s.matched_start < hs.length
    · rw [if_pos hms]
    · rw [if_neg hms]
      have : s.matched_start = 0 ∧ hs.length = 0 := by omega
      rw [this.1]
      rfl
  · unfold emissionMatch endByte
    dsimp only
    by_cases hmeL : s.matched_end < hs.length
    · rw [if_pos hmeL]
    · rw [if_neg hmeL]
      have : s.matched_end = hs.length := by omega
      rw [this, byteOffset_length]
  · rw [hpp]
    by_cases hci : A.case_insensitive
    · rw [if_pos hci, if_pos hci]
      simp only [hci, if_true] at hpath hpn
      rw [← sliceG_map, ← hpath, hpn]
    · rw [if_neg hci, if_neg hci]
      simp only [hci, Bool.false_eq_true, if_false] at hpath hpn
      rw [← hpath, hpn]

/-- The full conclusion of claim C2 for one match: all edit counts zero, and
the matched window is a grapheme-aligned slice whose folded graphemes equal
the pattern's folded graphemes (hence the matched text equals the pattern's
text up to case folding). -/
def C2Concl (A : FuzzyAhoCorasick) (lower : G → G) (hs : List G) (m : FuzzyMatch) : Prop :=
  m.insertions = 0 ∧ m.deletions = 0 ∧ m.substitutions = 0 ∧ m.swaps = 0 ∧ m.edits = 0 ∧
  ∃ a b, a ≤ b ∧ b ≤ hs.length ∧ m.start = byteOffset hs a ∧ m.end_ = byteOffset hs b ∧
    m.text = haystackBytes (sliceG hs a b) ∧
    (if A.case_insensitive then (sliceG hs a b).map lower else sliceG hs a b) =
    (if A.case_insensitive then m.pattern.pattern.map lower else m.pattern.pattern)

/-- Claim C2: if limits are absent at both the automaton level and the
matched pattern's level, every match returned by any search operation is
exact: all edit counts are zero and its matched text equals the pattern's
text up to case folding.  Stated for automata with a faithful trie path
assignment — the shape the snapshot's builder produces, where outputs sit
exactly at each pattern's terminal node and are never inherited along
failure links (its failure phase computes fallback 0 everywhere). -/
theorem C2_exact_when_no_limits (A : FuzzyAhoCorasick) (lower : G → G)
    (pathOf : Nat → List G) (hs : List G) (t : ℚ) (fuel : Nat)
    (hT : TrieFaithful A lower pathOf) :
    (∀ res, search_unsorted A lower hs t fuel = some res → A.limits = none →
      ∀ m ∈ res.inner, m.pattern.limits = none → C2Concl A lower hs m) ∧
    (∀ res, search A lower hs t fuel = some res → A.limits = none →
      ∀ m ∈ res.inner, m.pattern.limits = none → C2Concl A lower hs m) ∧
    (∀ res, search_non_overlapping A lower hs t fuel = some res → A.limits = none →
      ∀ m ∈ res.inner, m.pattern.limits = none → C2Concl A lower hs m) ∧
    (∀ res, search_non_overlapping_unique A lower hs t fuel = some res → A.limits = none →
      ∀ m ∈ res.inner, m.pattern.limits = none → C2Concl A lower hs m) := by
  have base : ∀ res, search_unsorted A lower hs t fuel = some res → A.limits = none →
      ∀ m ∈ res.inner, m.pattern.limits = none → C2Concl A lower hs m := by
    intro res hres hglob m hm hpat
    have hlen : (if A.case_insensitive then hs.map lower else hs).length = hs.length := by
      by_cases hci : A.case_insensitive <;> simp [hci]
    have := search_unsorted_inv
      (fun s => SpanInv hs.length s ∧
        ZeroPath (if A.case_insensitive then hs.map lower else hs) pathOf s)
      (fun _ m0 => ExactOk A lower hs m0 ∧ SpanOk hs m0)
      hres
      (fun st hst => by
        constructor
        · unfold SpanInv initState
          dsimp only
          omega
        · intro _ _ _ _
          unfold initState sliceG
          dsimp only
          rw [Nat.sub_self]
          exact ⟨rfl, (hT.1 : pathOf 0 = []).trans rfl⟩)
      (fun s c hsi hstep => by
        constructor
        · have := hsi.1
          rw [← hlen] at this ⊢
          exact spanInv_step this hstep
        · refine zeroPath_step hT ?_ hsi.2 hstep
          rw [hlen]
          exact hsi.1)
      (fun s k m0 hsi he => ⟨exactOk_emit hT hsi he, spanOk_emit hsi.1 he⟩)
    obtain ⟨k, m0, ⟨hm0, hspan⟩, rfl⟩ := this m hm
    have hpat0 : m0.pattern.limits = none := hpat
    obtain ⟨c1, c2, c3, c4, c5, a, b, hab, hbl, hsa, hsb, hfold⟩ := hm0 hglob hpat0
    refine ⟨c1, c2, c3, c4, c5, a, b, hab, hbl, hsa, hsb, ?_, hfold⟩
    dsimp only
    rw [hsa, hsb]
    exact byteSlice_haystack hs hab hbl
  obtain ⟨hv1, hv2, hv3⟩ :=
    searchVariants_mem A lower hs t fuel
  refine ⟨base, ?_, ?_, ?_⟩
  · intro res hres hglob m hm hpat
    obtain ⟨res0, h0, hsub⟩ := hv1 res hres
    exact base res0 h0 hglob m (hsub m hm) hpat
  · intro res hres hglob m hm hpat
    obtain ⟨res0, h0, hsub⟩ := hv2 res hres
    exact base res0 h0 hglob m (hsub m hm) hpat
  · intro res hres hglob m hm hpat
    obtain ⟨res0, h0, hsub⟩ := hv3 res hres
    exact base res0 h0 hglob m (hsub m hm) hpat

/-- Automaton for patterns `ab`, `b` with no limits anywhere (the trie the
builder produces: separate chains, outputs at the terminals, no inheritance,
all failure links 0). -/
def autABB : FuzzyAhoCorasick :=
  { nodes :=
      [ { transitions := [(gA, 1), (gB, 3)] },
        { pattern_index := some 0, transitions := [(gB, 2)], weight := 1/2 },
        { pattern_index := some 0, output := [0], weight := 1 },
        { pattern_index := some 1, output := [1], weight := 1 } ],
    patterns := [{ grapheme_len := 2, pattern := [gA, gB] },
                 { grapheme_len := 1, pattern := [gB] }],
    max_pattern_grapheme_len := 2 }

/-- Trie paths of `autABB`. -/
def pathABB : Nat → List G := fun n => [[], [gA], [gA, gB], [gB]].getD n []

/-- Result of searching `ab` with `autABB` at threshold 1/2. -/
def resABB : FuzzyMatches := (search_unsorted autABB id [gA, gB] (1/2) 50).getD ⟨[], []⟩

section
attribute [local semireducible] Rat.mul Rat.add Rat.sub Rat.inv
set_option maxRecDepth 100000

/-- Witness for C2 at a concrete input: the first match of a concrete
limit-free run is exact. -/
theorem C2_exact_when_no_limits_witness :
    C2Concl autABB id [gA, gB] (resABB.inner.getD 0 mDefault) := by
  refine (C2_exact_when_no_limits autABB id pathABB [gA, gB] (1/2) 50 ?_).1
    resABB (by decide) rfl _ (by decide) (by decide)
  exact ⟨rfl, by decide, by decide⟩

end

/-! ### Claims C4 and C10: the non-overlap selector -/

/-- Well-formedness of the occupied-interval map: keys strictly sorted, and
each stored interval ends before the next key begins. -/
def MapInv (occ : List (Nat × Nat)) : Prop :=
  List.Pairwise (fun e1 e2 => e1.1 < e2.1 ∧ e1.2 ≤ e2.1) occ

theorem predEntry_cons (x : Nat × Nat) (rest : List (Nat × Nat)) (k : Nat) :
    predEntry (x :: rest) k =
      if x.1 ≤ k then some ((predEntry rest k).getD x) else predEntry rest k := rfl

theorem succEntry_cons (x : Nat × Nat) (rest : List (Nat × Nat)) (k : Nat) :
    succEntry (x :: rest) k = if k ≤ x.1 then some x else succEntry rest k := rfl

theorem mapInv_pair {occ : List (Nat × Nat)} (h : MapInv occ) {a b : Nat × Nat}
    (ha : a ∈ occ) (hb : b ∈ occ) (hab : a.1 < b.1) : a.2 ≤ b.1 := by
  induction occ with
  | nil => cases ha
  | cons x rest ih =>
    rcases List.pairwise_cons.mp h with ⟨hhead, htail⟩
    cases ha with
    | head =>
      cases hb with
      | head => omega
      | tail _ hb => exact (hhead b hb).2
    | tail _ ha =>
      cases hb with
      | head =>
        have := (hhead a ha).1
        omega
      | tail _ hb => exact ih htail ha hb

theorem mapInv_key_unique {occ : List (Nat × Nat)} (h : MapInv occ) {a b : Nat × Nat}
    (ha : a ∈ occ) (hb : b ∈ occ) (hab : a.1 = b.1) : a = b := by
  induction occ with
  | nil => cases ha
  | cons x rest ih =>
    rcases List.pairwise_cons.mp h with ⟨hhead, htail⟩
    cases ha with
    | head =>
      cases hb with
      | head => rfl
      | tail _ hb =>
        have := (hhead b hb).1
        omega
    | tail _ ha =>
      cases hb with
      | head =>
        have := (hhead a ha).1
        omega
      | tail _ hb => exact ih htail ha hb

theorem predEntry_some {occ : List (Nat × Nat)} {k : Nat} {e : Nat × Nat}
    (h : predEntry occ k = some e) : e ∈ occ ∧ e.1 ≤ k := by
  induction occ with
  | nil => simp [predEntry] at h
  | cons x rest ih =>
    rw [predEntry_cons] at h
    by_cases hx : x.1 ≤ k
    · rw [if_pos hx] at h
      cases hp : predEntry rest k with
      | none =>
        rw [hp] at h
        simp only [Option.getD_none, Option.some.injEq] at h
        exact ⟨List.mem_cons.mpr (Or.inl h.symm), h ▸ hx⟩
      | some e2 =>
        rw [hp] at h
        simp only [Option.getD_some, Option.some.injEq] at h
        subst h
        obtain ⟨he2, hle⟩ := ih hp
        exact ⟨List.mem_cons.mpr (Or.inr he2), hle⟩
    · rw [if_neg hx] at h
      obtain ⟨he, hle⟩ := ih h
      exact ⟨List.mem_cons.mpr (Or.inr he), hle⟩

theorem succEntry_some {occ : List (Nat × Nat)} {k : Nat} {e : Nat × Nat}
    (h : succEntry occ k = some e) : e ∈ occ ∧ k ≤ e.1 := by
  induction occ with
  | nil => simp [succEntry] at h
  | cons x rest ih =>
    rw [succEntry_cons] at h
    by_cases hx : k ≤ x.1
    · rw [if_pos hx] at h
      cases h
      exact ⟨List.mem_cons_self .., hx⟩
    · rw [if_neg hx] at h
      obtain ⟨he, hle⟩ := ih h
      exact ⟨List.mem_cons.mpr (Or.inr he), hle⟩

theorem predEntry_ge {occ : List (Nat × Nat)} {k : Nat} {e' : Nat × Nat}
    (hs : List.Pairwise (fun e1 e2 : Nat × Nat => e1.1 < e2.1) occ)
    (he' : e' ∈ occ) (hle : e'.1 ≤ k) :
    ∃ e, predEntry occ k = some e ∧ e'.1 ≤ e.1 := by
  induction occ with
  | nil => cases he'
  | cons x rest ih =>
    rcases List.pairwise_cons.mp hs with ⟨hhead, htail⟩
    cases he' with
    | head =>
      refine ⟨(predEntry rest k).getD e', ?_, ?_⟩
      · rw [predEntry_cons, if_pos hle]
      · cases hp : predEntry rest k with
        | none => simp
        | some e2 =>
          simp only [Option.getD_some]
          exact Nat.le_of_lt (hhead e2 (predEntry_some hp).1)
    | tail _ hmem =>
      obtain ⟨e, hp, hle2⟩ := ih htail hmem
      by_cases hx : x.1 ≤ k
      · exact ⟨e, by rw [predEntry_cons, if_pos hx, hp]; rfl, hle2⟩
      · exact ⟨e, by rw [predEntry_cons, if_neg hx]; exact hp, hle2⟩

theorem succEntry_min {occ : List (Nat × Nat)} {k : Nat} {e' : Nat × Nat}
    (hs : List.Pairwise (fun e1 e2 : Nat × Nat => e1.1 < e2.1) occ)
    (he' : e' ∈ occ) (hge : k ≤ e'.1) :
    ∃ e, succEntry occ k = some e ∧ e.1 ≤ e'.1 := by
  induction occ with
  | nil => cases he'
  | cons x rest ih =>
    rcases List.pairwise_cons.mp hs with ⟨hhead, htail⟩
    by_cases hx : k ≤ x.1
    · refine ⟨x, by rw [succEntry_cons, if_pos hx], ?_⟩
      cases he' with
      | head => exact le_refl _
      | tail _ hmem => exact Nat.le_of_lt (hhead e' hmem)
    · cases he' with
      | head => omega
      | tail _ hmem =>
        obtain ⟨e, hq, hle2⟩ := ih htail hmem
        exact ⟨e, by rw [succEntry_cons, if_neg hx]; exact hq, hle2⟩

/-- A match and one stored interval are compatible: intervals keyed at or left
of `m.start` end by `m.start`, and `m` ends by the key of intervals keyed at
or right of `m.start`. -/
def Compat (m : FuzzyMatch) (e : Nat × Nat) : Prop :=
  (e.1 ≤ m.start → e.2 ≤ m.start) ∧ (m.start ≤ e.1 → m.end_ ≤ e.1)

theorem accept_compat {occ : List (Nat × Nat)} {m : FuzzyMatch}
    (hM : MapInv occ) (hacc : noAccept occ m = true) :
    ∀ e ∈ occ, Compat m e := by
  have hs : List.Pairwise (fun e1 e2 : Nat × Nat => e1.1 < e2.1) occ :=
    hM.imp (fun h => h.1)
  unfold noAccept at hacc
  simp only [Bool.and_eq_true] at hacc
  obtain ⟨hpred, hsucc⟩ := hacc
  intro e he
  constructor
  · intro h1
    obtain ⟨p, hp, hple⟩ := predEntry_ge hs he h1
    have hpm := predEntry_some hp
    rw [hp] at hpred
    simp only [Option.all_some, decide_eq_true_eq] at hpred
    by_cases heq : e.1 = p.1
    · have heqp : e = p := mapInv_key_unique hM he hpm.1 heq
      subst heqp
      omega
    · have hlt : e.1 < p.1 := by omega
      have := mapInv_pair hM he hpm.1 hlt
      omega
  · intro h2
    obtain ⟨q, hq, hqle⟩ := succEntry_min hs he h2
    rw [hq] at hsucc
    simp only [Option.all_some, decide_eq_true_eq] at hsucc
    omega

theorem mapInsert_mem_weak {occ : List (Nat × Nat)} {k v : Nat} {e : Nat × Nat}
    (h : e ∈ mapInsert occ k v) : e = (k, v) ∨ e ∈ occ := by
  induction occ with
  | nil =>
    unfold mapInsert at h
    rcases List.mem_singleton.mp h with rfl
    exact Or.inl rfl
  | cons x rest ih =>
    unfold mapInsert at h
    by_cases h1 : k < x.1
    · rw [if_pos h1] at h
      cases h with
      | head => exact Or.inl rfl
      | tail _ h => exact Or.inr h
    · rw [if_neg h1] at h
      by_cases h2 : k = x.1
      · rw [if_pos h2] at h
        cases h with
        | head => exact Or.inl rfl
        | tail _ h => exact Or.inr (List.mem_cons_of_mem _ h)
      · rw [if_neg h2] at h
        cases h with
        | head => exact Or.inr (List.mem_cons_self ..)
        | tail _ h =>
          rcases ih h with h | h
          · exact Or.inl h
          · exact Or.inr (List.mem_cons_of_mem _ h)

theorem mapInsert_self_mem (occ : List (Nat × Nat)) (k v : Nat) :
    (k, v) ∈ mapInsert occ k v := by
  induction occ with
  | nil => exact List.mem_singleton.mpr rfl
  | cons x rest ih =>
    unfold mapInsert
    by_cases h1 : k < x.1
    · rw [if_pos h1]
      exact List.mem_cons_self ..
    · rw [if_neg h1]
      by_cases h2 : k = x.1
      · rw [if_pos h2]
        exact List.mem_cons_self ..
      · rw [if_neg h2]
        exact List.mem_cons_of_mem _ ih

theorem mem_mapInsert_of_ne {occ : List (Nat × Nat)} {k v : Nat} {e : Nat × Nat}
    (he : e ∈ occ) (hne : e.1 ≠ k) : e ∈ mapInsert occ k v := by
  induction occ with
  | nil => cases he
  | cons x rest ih =>
    unfold mapInsert
    by_cases h1 : k < x.1
    · rw [if_pos h1]
      exact List.mem_cons_of_mem _ he
    · rw [if_neg h1]
      by_cases h2 : k = x.1
      · rw [if_pos h2]
        cases he with
        | head => omega
        | tail _ he => exact List.mem_cons_of_mem _ he
      · rw [if_neg h2]
        cases he with
        | head => exact List.mem_cons_self ..
        | tail _ he => exact List.mem_cons_of_mem _ (ih he)

theorem mapInsert_inv {occ : List (Nat × Nat)} {k v : Nat} (hM : MapInv occ)
    (h1 : ∀ e ∈ occ, e.1 < k → e.2 ≤ k) (h2 : ∀ e ∈ occ, k < e.1 → v ≤ e.1) :
    MapInv (mapInsert occ k v) := by
  induction occ with
  | nil =>
    unfold mapInsert
    simp [MapInv]
  | cons x rest ih =>
    rcases List.pairwise_cons.mp hM with ⟨hhead, htail⟩
    unfold mapInsert
    by_cases hlt : k < x.1
    · rw [if_pos hlt]
      refine List.pairwise_cons.mpr ⟨?_, hM⟩
      intro y hy
      cases hy with
      | head => exact ⟨hlt, h2 x (List.mem_cons_self ..) hlt⟩
      | tail _ hy =>
        have hx := hhead y hy
        exact ⟨by omega, h2 y (List.mem_cons_of_mem _ hy) (by omega)⟩
    · rw [if_neg hlt]
      by_cases heq : k = x.1
      · rw [if_pos heq]
        refine List.pairwise_cons.mpr ⟨?_, htail⟩
        intro y hy
        have hx := hhead y hy
        exact ⟨by omega, h2 y (List.mem_cons_of_mem _ hy) (by omega)⟩
      · rw [if_neg heq]
        refine List.pairwise_cons.mpr ⟨?_, ?_⟩
        · intro y hy
          rcases mapInsert_mem_weak hy with rfl | hy
          · exact ⟨by omega, h1 x (List.mem_cons_self ..) (by omega)⟩
          · exact hhead y hy
        · exact ih htail (fun e he h => h1 e (List.mem_cons_of_mem _ he) h)
            (fun e he h => h2 e (List.mem_cons_of_mem _ he) h)

/-- The relation the retain pass establishes between two kept matches
(`m` accepted before m2). -/
def Rkept (m m2 : FuzzyMatch) : Prop :=
  (m.start < m2.start → m.end_ ≤ m2.start) ∧
  (m.start = m2.start → m.end_ ≤ m.start ∧ m2.end_ ≤ m2.start) ∧
  (m2.start < m.start → m2.end_ ≤ m.start)

theorem rkept_symm {m m2 : FuzzyMatch} (h : Rkept m m2) : Rkept m2 m := by
  obtain ⟨h1, h2, h3⟩ := h
  refine ⟨h3, ?_, h1⟩
  intro he
  have := h2 he.symm
  omega

theorem compat_of_rkept {m m2 : FuzzyMatch} (hs : m.start ≤ m2.start)
    (h : Rkept m m2) : Compat m2 (m.start, m.end_) := by
  obtain ⟨h1, h2, h3⟩ := h
  constructor
  · intro hle
    rcases Nat.lt_or_ge m.start m2.start with hlt | hge
    · exact h1 hlt
    · have heq : m.start = m2.start := by omega
      have := h2 heq
      omega
  · intro hge
    have heq : m.start = m2.start := by omega
    have := h2 heq
    dsimp only
    omega

/-- The central property of the retain pass of `non_overlapping`: starting
from a well-formed interval map, the kept matches are pairwise `Rkept` and
each kept match is compatible with every initially stored interval. -/
theorem retain_strong : ∀ (l : List FuzzyMatch) (occ : List (Nat × Nat)), MapInv occ →
    List.Pairwise Rkept (nonOverlappingRetain l occ) ∧
    ∀ m2 ∈ nonOverlappingRetain l occ, ∀ e ∈ occ, Compat m2 e := by
  intro l
  induction l with
  | nil =>
    intro occ hM
    constructor
    · simp [nonOverlappingRetain]
    · intro m2 hm2
      simp [nonOverlappingRetain] at hm2
  | cons m rest ih =>
    intro occ hM
    unfold nonOverlappingRetain
    by_cases hacc : noAccept occ m = true
    · rw [if_pos hacc]
      have hcomp : ∀ e ∈ occ, Compat m e := accept_compat hM hacc
      have hM' : MapInv (mapInsert occ m.start m.end_) :=
        mapInsert_inv hM
          (fun e he h => (hcomp e he).1 (by omega))
          (fun e he h => (hcomp e he).2 (by omega))
      obtain ⟨ihp, ihc⟩ := ih (mapInsert occ m.start m.end_) hM'
      have hRk : ∀ m2 ∈ nonOverlappingRetain rest (mapInsert occ m.start m.end_),
          Rkept m m2 := by
        intro m2 hm2
        have hc := ihc m2 hm2 (m.start, m.end_) (mapInsert_self_mem ..)
        obtain ⟨c1, c2⟩ := hc
        refine ⟨?_, ?_, ?_⟩
        · intro hlt
          exact c1 (by omega)
        · intro heq
          constructor
          · have := c1 (by omega)
            omega
          · have := c2 (by omega)
            omega
        · intro hlt
          have := c2 (by omega)
          omega
      constructor
      · exact List.pairwise_cons.mpr ⟨hRk, ihp⟩
      · intro m2 hm2 e he
        cases hm2 with
        | head => exact hcomp e he
        | tail _ hm2 =>
          by_cases hek : e.1 = m.start
          · have hce := hcomp e he
            have hc := ihc m2 hm2 (m.start, m.end_) (mapInsert_self_mem ..)
            constructor
            · intro hle
              have := hce.1 (by omega)
              omega
            · intro hge
              have := hc.2 (by omega)
              omega
          · exact ihc m2 hm2 e (mem_mapInsert_of_ne he hek)
    · rw [if_neg hacc]
      exact ih occ hM

/-- The non-overlap consequence for two matches. -/
def SpanSeparated (m m2 : FuzzyMatch) : Prop :=
  m.end_ ≤ m2.start ∨ m2.end_ ≤ m.start

theorem spanSeparated_of_rkept {m m2 : FuzzyMatch} (h : Rkept m m2) :
    SpanSeparated m m2 := by
  obtain ⟨h1, h2, h3⟩ := h
  rcases Nat.lt_trichotomy m.start m2.start with hlt | heq | hgt
  · exact Or.inl (h1 hlt)
  · exact Or.inl (by have := h2 heq; omega)
  · exact Or.inr (h3 hgt)

theorem spanSeparated_symm {m m2 : FuzzyMatch} (h : SpanSeparated m m2) :
    SpanSeparated m2 m := h.symm

/-- Claim C4: `non_overlapping` keeps a match iff its span does not strictly
overlap an already-kept interval (touching is permitted) and re-sorts by
start; consequently any two distinct matches of the result — and hence of
`search_non_overlapping` — have disjoint spans up to touching:
`m.end ≤ m2.start ∨ m2.end ≤ m.start`. -/
theorem C4_non_overlap (x : FuzzyMatches) (A : FuzzyAhoCorasick) (lower : G → G)
    (hs : List G) (t : ℚ) (fuel : Nat) :
    List.Pairwise SpanSeparated (non_overlapping x).inner ∧
    (∀ res, search_non_overlapping A lower hs t fuel = some res →
      List.Pairwise SpanSeparated res.inner) := by
  have base : ∀ y : FuzzyMatches, List.Pairwise SpanSeparated (non_overlapping y).inner := by
    intro y
    unfold non_overlapping
    dsimp only
    have hp : List.Pairwise Rkept (nonOverlappingRetain y.inner []) :=
      (retain_strong y.inner [] (List.Pairwise.nil)).1
    have hperm := stableSortBy_perm startLe (nonOverlappingRetain y.inner [])
    have hp2 : List.Pairwise Rkept (stableSortBy startLe (nonOverlappingRetain y.inner [])) :=
      (List.Perm.pairwise_iff (fun h => rkept_symm h) hperm).mpr hp
    exact hp2.imp spanSeparated_of_rkept
  refine ⟨base x, ?_⟩
  intro res hres
  unfold search_non_overlapping at hres
  cases h0 : search A lower hs t fuel with
  | none => rw [h0] at hres; cases hres
  | some res0 =>
    rw [h0] at hres
    cases hres
    exact base res0

section
attribute [local semireducible] Rat.mul Rat.add Rat.sub Rat.inv
set_option maxRecDepth 100000

/-- Witness for C4: the non-overlap property at a concrete
`search_non_overlapping` run. -/
theorem C4_non_overlap_witness :
    List.Pairwise SpanSeparated
      ((search_non_overlapping autABB id [gA, gB] (1/2) 50).getD ⟨[], []⟩).inner :=
  (C4_non_overlap ⟨[], []⟩ autABB id [gA, gB] (1/2) 50).2 _ (by decide)

end

/-! ### Claim C10: idempotence of the non-overlap selector -/

theorem insertRight_append {le : α → α → Bool} :
    ∀ {acc : List α} {x : α}, (∀ y ∈ acc, le y x = true) →
      insertRight le acc x = acc ++ [x] := by
  intro acc
  induction acc with
  | nil => intro x _; rfl
  | cons y ys ih =>
    intro x h
    unfold insertRight
    rw [if_pos (h y (List.mem_cons_self ..))]
    rw [ih (fun z hz => h z (List.mem_cons_of_mem _ hz))]
    rfl

theorem foldl_insertRight_sorted {le : α → α → Bool} :
    ∀ {l acc : List α}, List.Pairwise (fun a b => le a b = true) l →
      (∀ x ∈ l, ∀ y ∈ acc, le y x = true) →
      l.foldl (insertRight le) acc = acc ++ l := by
  intro l
  induction l with
  | nil => intro acc _ _; simp
  | cons x xs ih =>
    intro acc hp hcomp
    rcases List.pairwise_cons.mp hp with ⟨hhead, htail⟩
    simp only [List.foldl_cons]
    rw [insertRight_append (hcomp x (List.mem_cons_self ..))]
    rw [ih htail ?_]
    · simp
    · intro z hz y hy
      rcases List.mem_append.mp hy with hy | hy
      · exact hcomp z (List.mem_cons_of_mem _ hz) y hy
      · rcases List.mem_singleton.mp hy with rfl
        exact hhead z hz

theorem stableSortBy_eq_self {le : α → α → Bool} {l : List α}
    (h : List.Pairwise (fun a b => le a b = true) l) : stableSortBy le l = l := by
  unfold stableSortBy
  rw [foldl_insertRight_sorted h (fun x _ y hy => absurd hy (List.not_mem_nil y))]
  rfl

theorem insertRight_pairwise {le : α → α → Bool}
    (htot : ∀ a b, le a b = true ∨ le b a = true)
    (htrans : ∀ a b c, le a b = true → le b c = true → le a c = true) :
    ∀ {acc : List α} {x : α}, List.Pairwise (fun a b => le a b = true) acc →
      List.Pairwise (fun a b => le a b = true) (insertRight le acc x) := by
  intro acc
  induction acc with
  | nil =>
    intro x _
    simp [insertRight]
  | cons y ys ih =>
    intro x hp
    rcases List.pairwise_cons.mp hp with ⟨hhead, htail⟩
    unfold insertRight
    by_cases hle : le y x = true
    · rw [if_pos hle]
      refine List.pairwise_cons.mpr ⟨?_, ih htail⟩
      intro z hz
      have hz2 : z ∈ x :: ys := (insertRight_perm le ys x).mem_iff.mp hz
      rcases List.mem_cons.mp hz2 with rfl | hz3
      · exact hle
      · exact hhead z hz3
    · rw [if_neg hle]
      refine List.pairwise_cons.mpr ⟨?_, hp⟩
      intro z hz
      cases hz with
      | head =>
        rcases htot x y with h | h
        · exact h
        · exact absurd h hle
      | tail _ hz =>
        rcases htot x y with h | h
        · exact htrans _ _ _ h (hhead z hz)
        · exact absurd h hle

theorem stableSortBy_pairwise {le : α → α → Bool}
    (htot : ∀ a b, le a b = true ∨ le b a = true)
    (htrans : ∀ a b c, le a b = true → le b c = true → le a c = true)
    (l : List α) : List.Pairwise (fun a b => le a b = true) (stableSortBy le l) := by
  unfold stableSortBy
  suffices h : ∀ acc, List.Pairwise (fun a b => le a b = true) acc →
      List.Pairwise (fun a b => le a b = true) (l.foldl (insertRight le) acc) by
    exact h [] List.Pairwise.nil
  induction l with
  | nil => intro acc h; exact h
  | cons x xs ih =>
    intro acc h
    simp only [List.foldl_cons]
    exact ih _ (insertRight_pairwise htot htrans h)

theorem retain_all : ∀ (l : List FuzzyMatch) (occ : List (Nat × Nat)), MapInv occ →
    List.Pairwise Rkept l → List.Pairwise (fun a b => a.start ≤ b.start) l →
    (∀ m ∈ l, ∀ e ∈ occ, Compat m e) →
    nonOverlappingRetain l occ = l := by
  intro l
  induction l with
  | nil => intro occ _ _ _ _; rfl
  | cons m rest ih =>
    intro occ hM hk hsort hcomp
    rcases List.pairwise_cons.mp hk with ⟨hkhead, hktail⟩
    rcases List.pairwise_cons.mp hsort with ⟨hshead, hstail⟩
    have hcm : ∀ e ∈ occ, Compat m e := fun e he => hcomp m (List.mem_cons_self ..) e he
    have hacc : noAccept occ m = true := by
      unfold noAccept
      rw [Bool.and_eq_true]
      refine ⟨?_, ?_⟩
      · cases hp : predEntry occ m.start with
        | none => rfl
        | some p =>
          obtain ⟨hpm, hple⟩ := predEntry_some hp
          simp only [Option.all_some, decide_eq_true_eq]
          exact (hcm p hpm).1 hple
      · cases hq : succEntry occ m.start with
        | none => rfl
        | some q =>
          obtain ⟨hqm, hqge⟩ := succEntry_some hq
          simp only [Option.all_some, decide_eq_true_eq]
          exact (hcm q hqm).2 hqge
    unfold nonOverlappingRetain
    rw [if_pos hacc]
    congr 1
    refine ih (mapInsert occ m.start m.end_) ?_ hktail hstail ?_
    · exact mapInsert_inv hM
        (fun e he h => (hcm e he).1 (by omega))
        (fun e he h => (hcm e he).2 (by omega))
    · intro m2 hm2 e he
      rcases mapInsert_mem_weak he with rfl | he
      · exact compat_of_rkept (hshead m2 hm2) (hkhead m2 hm2)
      · exact hcomp m2 (List.mem_cons_of_mem _ hm2) e he

/-- Claim C10: applying `non_overlapping` twice gives the same matches as
applying it once — after the first pass the survivors are pairwise
span-separated and sorted by start, so the second pass keeps everything and
its final sort leaves the order unchanged. -/
theorem C10_non_overlapping_idempotent (x : FuzzyMatches) :
    non_overlapping (non_overlapping x) = non_overlapping x := by
  have htot : ∀ a b : FuzzyMatch, startLe a b = true ∨ startLe b a = true := by
    intro a b
    unfold startLe
    simp only [decide_eq_true_eq]
    omega
  have htrans : ∀ a b c : FuzzyMatch,
      startLe a b = true → startLe b c = true → startLe a c = true := by
    intro a b c
    unfold startLe
    simp only [decide_eq_true_eq]
    omega
  unfold non_overlapping
  dsimp only
  have hk : List.Pairwise Rkept
      (stableSortBy startLe (nonOverlappingRetain x.inner [])) :=
    (List.Perm.pairwise_iff (fun h => rkept_symm h)
      (stableSortBy_perm startLe (nonOverlappingRetain x.inner []))).mpr
      (retain_strong x.inner [] List.Pairwise.nil).1
  have hsorted := stableSortBy_pairwise htot htrans (nonOverlappingRetain x.inner [])
  have hsorted' : List.Pairwise (fun a b : FuzzyMatch => a.start ≤ b.start)
      (stableSortBy startLe (nonOverlappingRetain x.inner [])) := by
    refine hsorted.imp ?_
    intro a b h
    unfold startLe at h
    simpa using h
  rw [retain_all _ [] List.Pairwise.nil hk hsorted'
    (fun m _ e he => absurd he (List.not_mem_nil e))]
  rw [stableSortBy_eq_self hsorted]

/-- Witness check for C10 at a concrete value (C10's theorem has no
hypotheses; this instance just exercises it). -/
theorem C10_non_overlapping_idempotent_witness :
    non_overlapping (non_overlapping ⟨[gA], [mDefault]⟩) =
      non_overlapping ⟨[gA], [mDefault]⟩ :=
  C10_non_overlapping_idempotent ⟨[gA], [mDefault]⟩

/-! ### Claim C8: degenerate inputs -/

theorem stableSortBy_singleton (le : α → α → Bool) (x : α) :
    stableSortBy le [x] = [x] := rfl

theorem beamPrune_nil (bw : Option Nat) : beamPrune bw [] = [] := by
  unfold beamPrune
  cases bw with
  | none => rfl
  | some b => simp

theorem beamPrune_singleton (bw : Option Nat) (s : SState) :
    beamPrune bw [s] = [s] ∨ beamPrune bw [s] = [] := by
  unfold beamPrune
  cases bw with
  | none => exact Or.inl rfl
  | some b =>
    dsimp only
    rw [List.length_singleton]
    by_cases hb : b * 2 < 1
    · right
      rw [if_pos hb, stableSortBy_singleton]
      have h0 : b = 0 := by omega
      rw [h0]
      rfl
    · left
      rw [if_neg hb]

theorem bfsLoop_empty (A : FuzzyAhoCorasick) (hs tc : List G) (t : ℚ)
    (fuel : Nat) (best : Best) : bfsLoop A hs tc t fuel [] best = some best := by
  cases fuel with
  | zero =>
    unfold bfsLoop
    rw [beamPrune_nil]
  | succ n =>
    unfold bfsLoop
    rw [beamPrune_nil]

theorem bfsLoop_high_threshold {A : FuzzyAhoCorasick} {hs tc : List G} {t : ℚ}
    (ht : 1 < t) (hL : 1 ≤ A.max_pattern_grapheme_len) :
    ∀ (st : Nat) (fuel : Nat) (best final : Best),
      bfsLoop A hs tc t fuel [initState st] best = some final → final = best := by
  intro st fuel best final hrun
  have hms : maxPossibleSim A (initState st).penalties < t := by
    unfold maxPossibleSim initState
    dsimp only
    have hL0 : (0 : ℚ) < (A.max_pattern_grapheme_len : ℚ) := by
      exact_mod_cast Nat.lt_of_lt_of_le Nat.zero_lt_one hL
    rw [sub_zero, div_self (ne_of_gt hL0)]
    exact ht
  cases fuel with
  | zero =>
    unfold bfsLoop at hrun
    rcases beamPrune_singleton A.beam_width (initState st) with hbp | hbp <;> rw [hbp] at hrun
    · dsimp only at hrun
      cases hrun
    · dsimp only at hrun
      cases hrun
      rfl
  | succ n =>
    unfold bfsLoop at hrun
    rcases beamPrune_singleton A.beam_width (initState st) with hbp | hbp <;> rw [hbp] at hrun
    · dsimp only at hrun
      rw [if_pos hms, bfsLoop_empty] at hrun
      cases hrun
      rfl
    · dsimp only at hrun
      cases hrun
      rfl

theorem runSeeds_high_threshold {A : FuzzyAhoCorasick} {hs tc : List G} {t : ℚ}
    (ht : 1 < t) (hL : 1 ≤ A.max_pattern_grapheme_len) :
    ∀ (seeds : List Nat) (fuel : Nat) (best final : Best),
      runSeeds A hs tc t fuel seeds best = some final → final = best := by
  intro seeds
  induction seeds with
  | nil =>
    intro fuel best final h
    cases h
    rfl
  | cons st rest ih =>
    intro fuel best final h
    unfold runSeeds at h
    cases hloop : bfsLoop A hs tc t fuel [initState st] best with
    | none => rw [hloop] at h; cases h
    | some best' =>
      rw [hloop] at h
      have h1 := bfsLoop_high_threshold ht hL st fuel best best' hloop
      subst h1
      exact ih fuel best' final h

/-- Claim C8: for every built automaton, all search operations return an
empty match list on the empty haystack, and likewise whenever the threshold
exceeds 1 (stated for automata with at least one non-empty pattern, i.e.
`max_pattern_grapheme_len ≥ 1`; with it the seed states are pruned before
any expansion since their best possible similarity is exactly 1). -/
theorem C8_degenerate_inputs (A : FuzzyAhoCorasick) (lower : G → G) (hs : List G)
    (t : ℚ) (fuel : Nat)
    (h : hs = [] ∨ (1 < t ∧ 1 ≤ A.max_pattern_grapheme_len)) :
    (∀ res, search_unsorted A lower hs t fuel = some res → res.inner = []) ∧
    (∀ res, search A lower hs t fuel = some res → res.inner = []) ∧
    (∀ res, search_non_overlapping A lower hs t fuel = some res → res.inner = []) ∧
    (∀ res, search_non_overlapping_unique A lower hs t fuel = some res → res.inner = []) := by
  have base : ∀ res, search_unsorted A lower hs t fuel = some res → res.inner = [] := by
    intro res hres
    rcases h with rfl | ⟨ht, hL⟩
    · have hnil : search_unsorted A lower [] t fuel = some ⟨[], []⟩ := rfl
      rw [hnil] at hres
      cases hres
      rfl
    · unfold search_unsorted at hres
      by_cases hemp : hs.isEmpty
      · rw [if_pos hemp] at hres
        cases hres
        rfl
      · rw [if_neg hemp] at hres
        dsimp only at hres
        cases hseeds : runSeeds A hs (if A.case_insensitive then hs.map lower else hs) t fuel
            (List.range (if A.case_insensitive then hs.map lower else hs).length) [] with
        | none => rw [hseeds] at hres; cases hres
        | some bestf =>
          rw [hseeds] at hres
          have := runSeeds_high_threshold ht hL _ _ _ _ hseeds
          subst this
          cases hres
          rfl
  obtain ⟨hv1, hv2, hv3⟩ :=
    searchVariants_mem A lower hs t fuel
  refine ⟨base, ?_, ?_, ?_⟩ <;> intro res hres
  · obtain ⟨res0, h0, hsub⟩ := hv1 res hres
    have h00 := base res0 h0
    refine List.eq_nil_iff_forall_not_mem.mpr fun m hm => ?_
    have := hsub m hm
    rw [h00] at this
    cases this
  · obtain ⟨res0, h0, hsub⟩ := hv2 res hres
    have h00 := base res0 h0
    refine List.eq_nil_iff_forall_not_mem.mpr fun m hm => ?_
    have := hsub m hm
    rw [h00] at this
    cases this
  · obtain ⟨res0, h0, hsub⟩ := hv3 res hres
    have h00 := base res0 h0
    refine List.eq_nil_iff_forall_not_mem.mpr fun m hm => ?_
    have := hsub m hm
    rw [h00] at this
    cases this

section
attribute [local semireducible] Rat.mul Rat.add Rat.sub Rat.inv
set_option maxRecDepth 100000

/-- Witness for C8: concrete empty-haystack and high-threshold runs are empty. -/
theorem C8_degenerate_inputs_witness :
    (∀ res, search_unsorted autABB id [] (1/2) 50 = some res → res.inner = []) ∧
    (∀ res, search_unsorted autABB id [gA, gB] (3/2) 50 = some res → res.inner = []) :=
  ⟨(C8_degenerate_inputs autABB id [] (1/2) 50 (Or.inl rfl)).1,
   (C8_degenerate_inputs autABB id [gA, gB] (3/2) 50
      (Or.inr ⟨by decide, by decide⟩)).1⟩

end

/-! ### Claim C5: threshold monotonicity -/

/-- `b2`'s best-table keys are all present in `b1`. -/
def KeySub (b2 b1 : Best) : Prop :=
  ∀ k : Nat × Nat × Nat, (∃ m, (k, m) ∈ b2) → ∃ m, (k, m) ∈ b1

theorem keySub_refl (b : Best) : KeySub b b := fun _ h => h

theorem bestUpdate_key_sub {b : Best} {key k : Nat × Nat × Nat} {m : FuzzyMatch}
    (h : ∃ m', (k, m') ∈ b) : ∃ m', (k, m') ∈ bestUpdate b key m := by
  induction b with
  | nil =>
    obtain ⟨m', hm'⟩ := h
    cases hm'
  | cons e rest ih =>
    obtain ⟨k0, old⟩ := e
    obtain ⟨m', hm'⟩ := h
    unfold bestUpdate
    by_cases hk : (k0, old).1 = key
    · rw [if_pos hk]
      cases hm' with
      | head =>
        exact ⟨if old.similarity < m.similarity then m else old, List.mem_cons_self ..⟩
      | tail _ htl => exact ⟨m', List.mem_cons_of_mem _ htl⟩
    · rw [if_neg hk]
      cases hm' with
      | head => exact ⟨_, List.mem_cons_self ..⟩
      | tail _ htl =>
        obtain ⟨m'', hm''⟩ := ih ⟨m', htl⟩
        exact ⟨m'', List.mem_cons_of_mem _ hm''⟩

theorem bestUpdate_key_self (b : Best) (key : Nat × Nat × Nat) (m : FuzzyMatch) :
    ∃ m', (key, m') ∈ bestUpdate b key m := by
  induction b with
  | nil => exact ⟨m, List.mem_cons_self ..⟩
  | cons e rest ih =>
    obtain ⟨k0, old⟩ := e
    unfold bestUpdate
    by_cases hk : (k0, old).1 = key
    · rw [if_pos hk]
      have hk' : k0 = key := hk
      subst hk'
      exact ⟨if old.similarity < m.similarity then m else old, List.mem_cons_self ..⟩
    · rw [if_neg hk]
      obtain ⟨m', hm'⟩ := ih
      exact ⟨m', List.mem_cons_of_mem _ hm'⟩

theorem emitOne_key_sub {A : FuzzyAhoCorasick} {hs : List G} {t : ℚ} {s : SState}
    {b : Best} {pi : Nat} {k : Nat × Nat × Nat}
    (h : ∃ m', (k, m') ∈ b) : ∃ m', (k, m') ∈ emitOne A hs t s b pi := by
  unfold emitOne
  by_cases hw : within_limits A
      ((A.patterns.getD pi { grapheme_len := 0, pattern := [] }).limits)
      s.edits s.insertions s.deletions s.substitutions s.swaps = true
  · rw [if_pos hw]
    by_cases hsim : emissionSim A s pi < t
    · rw [if_pos hsim]
      exact h
    · rw [if_neg hsim]
      exact bestUpdate_key_sub h
  · rw [if_neg hw]
    exact h

theorem emitState_key_sub {A : FuzzyAhoCorasick} {hs : List G} {t : ℚ} {s : SState}
    {b : Best} {k : Nat × Nat × Nat}
    (h : ∃ m', (k, m') ∈ b) : ∃ m', (k, m') ∈ emitState A hs t s b := by
  unfold emitState
  generalize (nodeAt A s.node).output = l
  induction l generalizing b with
  | nil => exact h
  | cons p ps ih => exact ih (emitOne_key_sub h)

theorem emitOne_mono {A : FuzzyAhoCorasick} {hs : List G} {t1 t2 : ℚ} {s : SState}
    {b1 b2 : Best} {pi : Nat} (ht : t1 ≤ t2) (hsub : KeySub b2 b1) :
    KeySub (emitOne A hs t2 s b2 pi) (emitOne A hs t1 s b1 pi) := by
  intro k hk
  unfold emitOne at hk ⊢
  by_cases hw : within_limits A
      ((A.patterns.getD pi { grapheme_len := 0, pattern := [] }).limits)
      s.edits s.insertions s.deletions s.substitutions s.swaps = true
  · rw [if_pos hw] at hk ⊢
    by_cases hs2 : emissionSim A s pi < t2
    · rw [if_pos hs2] at hk
      by_cases hs1 : emissionSim A s pi < t1
      · rw [if_pos hs1]
        exact hsub k hk
      · rw [if_neg hs1]
        exact bestUpdate_key_sub (hsub k hk)
    · rw [if_neg hs2] at hk
      have hs1 : ¬ emissionSim A s pi < t1 := fun hlt => hs2 (lt_of_lt_of_le hlt ht)
      rw [if_neg hs1]
      obtain ⟨m', hm'⟩ := hk
      rcases bestUpdate_mem hm' with hmem | heq
      · exact bestUpdate_key_sub (hsub k ⟨m', hmem⟩)
      · have hkk : k = (startByte hs s, endByte hs s, pi) := congrArg Prod.fst heq
        rw [hkk]
        exact bestUpdate_key_self ..
  · rw [if_neg hw] at hk ⊢
    exact hsub k hk

theorem emitState_mono {A : FuzzyAhoCorasick} {hs : List G} {t1 t2 : ℚ} {s : SState}
    {b1 b2 : Best} (ht : t1 ≤ t2) (hsub : KeySub b2 b1) :
    KeySub (emitState A hs t2 s b2) (emitState A hs t1 s b1) := by
  unfold emitState
  generalize (nodeAt A s.node).output = l
  induction l generalizing b1 b2 with
  | nil => exact hsub
  | cons p ps ih => exact ih (emitOne_mono ht hsub)

theorem bfsLoop_key_sub {A : FuzzyAhoCorasick} {hs tc : List G} {t : ℚ} :
    ∀ (fuel : Nat) (rest : List SState) (best final : Best),
      bfsLoop A hs tc t fuel rest best = some final → KeySub best final := by
  intro fuel
  induction fuel with
  | zero =>
    intro rest best final hrun
    unfold bfsLoop at hrun
    cases hbp : beamPrune A.beam_width rest with
    | nil => rw [hbp] at hrun; cases hrun; exact keySub_refl _
    | cons s tail => rw [hbp] at hrun; cases hrun
  | succ n ih =>
    intro rest best final hrun
    unfold bfsLoop at hrun
    cases hbp : beamPrune A.beam_width rest with
    | nil => rw [hbp] at hrun; cases hrun; exact keySub_refl _
    | cons s tail =>
      rw [hbp] at hrun
      dsimp only at hrun
      by_cases hpr : maxPossibleSim A s.penalties < t
      · rw [if_pos hpr] at hrun
        exact ih _ _ _ hrun
      · rw [if_neg hpr] at hrun
        intro k hk
        exact ih _ _ _ hrun k (emitState_key_sub hk)

theorem beamPrune_none (rest : List SState) : beamPrune none rest = rest := rfl

/-- Queue-sublist simulation: without a beam, the run at the higher
threshold `t2` processes a subsequence of the states the run at `t1`
processes, and only ever records a subset of the best-table keys. -/
theorem bfsLoop_mono {A : FuzzyAhoCorasick} {hs tc : List G} {t1 t2 : ℚ}
    (hbw : A.beam_width = none) (ht : t1 ≤ t2) :
    ∀ (fuel1 fuel2 : Nat) (rest1 rest2 : List SState) (best1 best2 final1 final2 : Best),
      rest2.Sublist rest1 → KeySub best2 best1 →
      bfsLoop A hs tc t1 fuel1 rest1 best1 = some final1 →
      bfsLoop A hs tc t2 fuel2 rest2 best2 = some final2 →
      KeySub final2 final1 := by
  intro fuel1
  induction fuel1 with
  | zero =>
    intro fuel2 rest1 rest2 best1 best2 final1 final2 hsl hsub h1 h2
    unfold bfsLoop at h1
    rw [hbw, beamPrune_none] at h1
    cases rest1 with
    | nil =>
      dsimp only at h1
      cases h1
      have hr2 : rest2 = [] := List.sublist_nil.mp hsl
      subst hr2
      rw [bfsLoop_empty] at h2
      cases h2
      exact hsub
    | cons s1 tail1 =>
      dsimp only at h1
      cases h1
  | succ f ih =>
    intro fuel2 rest1 rest2 best1 best2 final1 final2 hsl hsub h1 h2
    unfold bfsLoop at h1
    rw [hbw, beamPrune_none] at h1
    cases rest1 with
    | nil =>
      dsimp only at h1
      cases h1
      have hr2 : rest2 = [] := List.sublist_nil.mp hsl
      subst hr2
      rw [bfsLoop_empty] at h2
      cases h2
      exact hsub
    | cons s1 tail1 =>
      dsimp only at h1
      cases hsl with
      | cons _ hsl' =>
        by_cases hp1 : maxPossibleSim A s1.penalties < t1
        · rw [if_pos hp1] at h1
          exact ih fuel2 tail1 rest2 best1 best2 final1 final2 hsl' hsub h1 h2
        · rw [if_neg hp1] at h1
          refine ih fuel2 (tail1 ++ stepChildren A tc s1) rest2
            (emitState A hs t1 s1 best1) best2 final1 final2 ?_ ?_ h1 h2
          · exact hsl'.trans (List.sublist_append_left _ _)
          · exact fun k hk => emitState_key_sub (hsub k hk)
      | cons₂ _ hsl' =>
        cases fuel2 with
        | zero =>
          unfold bfsLoop at h2
          rw [hbw, beamPrune_none] at h2
          dsimp only at h2
          cases h2
        | succ g =>
          unfold bfsLoop at h2
          rw [hbw, beamPrune_none] at h2
          dsimp only at h2
          by_cases hp1 : maxPossibleSim A s1.penalties < t1
          · have hp2 : maxPossibleSim A s1.penalties < t2 := lt_of_lt_of_le hp1 ht
            rw [if_pos hp1] at h1
            rw [if_pos hp2] at h2
            exact ih g tail1 _ best1 best2 final1 final2 hsl' hsub h1 h2
          · rw [if_neg hp1] at h1
            by_cases hp2 : maxPossibleSim A s1.penalties < t2
            · rw [if_pos hp2] at h2
              refine ih g (tail1 ++ stepChildren A tc s1) _
                (emitState A hs t1 s1 best1) best2 final1 final2 ?_ ?_ h1 h2
              · exact hsl'.trans (List.sublist_append_left _ _)
              · exact fun k hk => emitState_key_sub (hsub k hk)
            · rw [if_neg hp2] at h2
              refine ih g (tail1 ++ stepChildren A tc s1) _
                (emitState A hs t1 s1 best1) (emitState A hs t2 s1 best2) final1 final2 ?_
                (emitState_mono ht hsub) h1 h2
              exact hsl'.append_right _

theorem runSeeds_mono {A : FuzzyAhoCorasick} {hs tc : List G} {t1 t2 : ℚ}
    (hbw : A.beam_width = none) (ht : t1 ≤ t2) :
    ∀ (seeds : List Nat) (fuel1 fuel2 : Nat) (best1 best2 final1 final2 : Best),
      KeySub best2 best1 →
      runSeeds A hs tc t1 fuel1 seeds best1 = some final1 →
      runSeeds A hs tc t2 fuel2 seeds best2 = some final2 →
      KeySub final2 final1 := by
  intro seeds
  induction seeds with
  | nil =>
    intro fuel1 fuel2 best1 best2 final1 final2 hsub h1 h2
    cases h1
    cases h2
    exact hsub
  | cons st rest ih =>
    intro fuel1 fuel2 best1 best2 final1 final2 hsub h1 h2
    unfold runSeeds at h1 h2
    cases hl1 : bfsLoop A hs tc t1 fuel1 [initState st] best1 with
    | none => rw [hl1] at h1; cases h1
    | some b1' =>
      rw [hl1] at h1
      cases hl2 : bfsLoop A hs tc t2 fuel2 [initState st] best2 with
      | none => rw [hl2] at h2; cases h2
      | some b2' =>
        rw [hl2] at h2
        exact ih fuel1 fuel2 b1' b2' final1 final2
          (bfsLoop_mono hbw ht fuel1 fuel2 [initState st] [initState st] best1 best2 b1' b2'
            (List.Sublist.refl _) hsub hl1 hl2) h1 h2

/-- An entry of the keyed best table carries its own key: the match's
`start`, `end` and `pattern_index` fields spell the key it is stored under. -/
def KeyConsistent (k : Nat × Nat × Nat) (m : FuzzyMatch) : Prop :=
  k.1 = m.start ∧ k.2.1 = m.end_ ∧ k.2.2 = m.pattern_index

theorem emitted_keyConsistent {A : FuzzyAhoCorasick} {hs : List G} {t : ℚ} {s : SState}
    {k : Nat × Nat × Nat} {m : FuzzyMatch} (h : EmittedBy A hs t s k m) :
    KeyConsistent k m := by
  obtain ⟨pi, _, _, _, hk, hm⟩ := h
  subst hk
  subst hm
  exact ⟨rfl, rfl, rfl⟩

theorem search_unsorted_mono {A : FuzzyAhoCorasick} {lower : G → G} {hs : List G}
    {t1 t2 : ℚ} {fuel1 fuel2 : Nat} {r1 r2 : FuzzyMatches}
    (hbw : A.beam_width = none) (ht : t1 ≤ t2)
    (h1 : search_unsorted A lower hs t1 fuel1 = some r1)
    (h2 : search_unsorted A lower hs t2 fuel2 = some r2) :
    ∀ m2 ∈ r2.inner, ∃ m1 ∈ r1.inner,
      m1.start = m2.start ∧ m1.end_ = m2.end_ ∧ m1.pattern_index = m2.pattern_index := by
  unfold search_unsorted at h1 h2
  by_cases hemp : hs.isEmpty
  · rw [if_pos hemp] at h2
    cases h2
    intro m2 hm2
    cases hm2
  · rw [if_neg hemp] at h1 h2
    dsimp only at h1 h2
    cases hr1 : runSeeds A hs (if A.case_insensitive then hs.map lower else hs) t1 fuel1
        (List.range (if A.case_insensitive then hs.map lower else hs).length) [] with
    | none => rw [hr1] at h1; cases h1
    | some best1 =>
      rw [hr1] at h1
      cases hr2 : runSeeds A hs (if A.case_insensitive then hs.map lower else hs) t2 fuel2
          (List.range (if A.case_insensitive then hs.map lower else hs).length) [] with
      | none => rw [hr2] at h2; cases h2
      | some best2 =>
        rw [hr2] at h2
        cases h1
        cases h2
        have hsub : KeySub best2 best1 :=
          runSeeds_mono hbw ht _ fuel1 fuel2 [] [] best1 best2 (fun _ hk => hk) hr1 hr2
        have hc1 : ∀ e ∈ best1, KeyConsistent e.1 e.2 :=
          runSeeds_inv (fun _ => True) KeyConsistent
            (fun _ _ _ _ => trivial) (fun _ _ _ _ he => emitted_keyConsistent he)
            _ _ _ hr1 (fun _ _ => trivial) (fun e he => absurd he (List.not_mem_nil e))
        have hc2 : ∀ e ∈ best2, KeyConsistent e.1 e.2 :=
          runSeeds_inv (fun _ => True) KeyConsistent
            (fun _ _ _ _ => trivial) (fun _ _ _ _ he => emitted_keyConsistent he)
            _ _ _ hr2 (fun _ _ => trivial) (fun e he => absurd he (List.not_mem_nil e))
        intro m2 hm2
        simp only [List.mem_map] at hm2
        obtain ⟨km2, hkm2, rfl⟩ := hm2
        obtain ⟨k2, mm2⟩ := km2
        obtain ⟨m0, hm0⟩ := hsub k2 ⟨mm2, hkm2⟩
        obtain ⟨ha1, ha2, ha3⟩ := hc1 (k2, m0) hm0
        obtain ⟨hb1, hb2, hb3⟩ := hc2 (k2, mm2) hkm2
        refine ⟨{ m0 with text := byteSlice (haystackBytes hs) m0.start m0.end_ }, ?_, ?_, ?_, ?_⟩
        · exact List.mem_map.mpr ⟨(k2, m0), hm0, rfl⟩
        · exact ha1 ▸ hb1
        · exact ha2 ▸ hb2
        · exact ha3 ▸ hb3

/-- Claim C5 (amended): threshold monotonicity holds for automata without a
beam (`beam_width = none`): whenever `t1 ≤ t2`, every match of
`search(H, t2)` has a match of `search(H, t1)` with the same
`(start, end, pattern_index)` triple.  With a beam configured the original
claim is false (see the counterexample): the lower threshold keeps more
states alive, which can push the queue over the pruning limit and evict a
state that survives — and emits — at the higher threshold. -/
theorem C5_threshold_monotone (A : FuzzyAhoCorasick) (lower : G → G) (hs : List G)
    (t1 t2 : ℚ) (fuel1 fuel2 : Nat) (r1 r2 : FuzzyMatches)
    (hbw : A.beam_width = none) (ht : t1 ≤ t2)
    (h1 : search A lower hs t1 fuel1 = some r1)
    (h2 : search A lower hs t2 fuel2 = some r2) :
    ∀ m2 ∈ r2.inner, ∃ m1 ∈ r1.inner,
      m1.start = m2.start ∧ m1.end_ = m2.end_ ∧ m1.pattern_index = m2.pattern_index := by
  unfold search at h1 h2
  cases hu1 : search_unsorted A lower hs t1 fuel1 with
  | none => rw [hu1] at h1; cases h1
  | some r1u =>
    rw [hu1] at h1
    cases hu2 : search_unsorted A lower hs t2 fuel2 with
    | none => rw [hu2] at h2; cases h2
    | some r2u =>
      rw [hu2] at h2
      cases h1
      cases h2
      intro m2 hm2
      obtain ⟨m1, hm1, he⟩ :=
        search_unsorted_mono hbw ht hu1 hu2 m2 (mem_default_sort.mp hm2)
      exact ⟨m1, mem_default_sort.mpr hm1, he⟩

/-- Automaton for the patterns `a` and `ba` with global limits `edits(2)`,
default penalties and `beam_width(2)` (the trie `build` produces for them). -/
def autC5 : FuzzyAhoCorasick :=
  { nodes :=
      [ { transitions := [(gA, 1), (gB, 2)] },
        { pattern_index := some 0, output := [0], weight := 1 },
        { pattern_index := some 1, transitions := [(gA, 3)], weight := 1/2 },
        { pattern_index := some 1, output := [1], weight := 1 } ],
    patterns := [{ grapheme_len := 1, pattern := [gA] },
                 { grapheme_len := 2, pattern := [gB, gA] }],
    limits := some lim2,
    max_pattern_grapheme_len := 2,
    beam_width := some 2 }

section
attribute [local semireducible] Rat.mul Rat.add Rat.sub Rat.inv
set_option maxRecDepth 100000

/-- Counterexample to C5 as stated (beam configurations included): with
`beam_width(2)`, patterns `a` and `ba`, `edits(2)` and haystack `aa`,
the run at threshold 3/5 returns a match with triple `(0, 1, 1)` (pattern
`ba` matched by deleting `b`) while the run at the lower threshold 1/2 has
no match with that triple — at 1/2 more states stay alive, the queue
exceeds `2 * beam_width` and the pruning evicts the deletion state. -/
theorem C5_threshold_monotone_counterexample :
    (1 : ℚ)/2 ≤ 3/5 ∧
    ∃ m2 ∈ ((search autC5 id [gA, gA] (3/5) 50).getD ⟨[], []⟩).inner,
      ∀ m1 ∈ ((search autC5 id [gA, gA] (1/2) 50).getD ⟨[], []⟩).inner,
        ¬(m1.start = m2.start ∧ m1.end_ = m2.end_ ∧
          m1.pattern_index = m2.pattern_index) := by
  constructor
  · decide
  · decide

/-- Witness for the amended C5 at a concrete no-beam automaton and input. -/
theorem C5_threshold_monotone_witness :
    autAB.beam_width = none ∧ (1 : ℚ)/2 ≤ 1 ∧
    ∀ m2 ∈ ((search autAB id [gA, gB] 1 50).getD ⟨[], []⟩).inner,
      ∃ m1 ∈ ((search autAB id [gA, gB] (1/2) 50).getD ⟨[], []⟩).inner,
        m1.start = m2.start ∧ m1.end_ = m2.end_ ∧
          m1.pattern_index = m2.pattern_index :=
  ⟨rfl, by decide,
   C5_threshold_monotone autAB id [gA, gB] (1/2) 1 50 50
     ((search autAB id [gA, gB] (1/2) 50).getD ⟨[], []⟩)
     ((search autAB id [gA, gB] 1 50).getD ⟨[], []⟩)
     rfl (by decide) (by decide) (by decide)⟩

end

/-! ### Claim C3: the trie phase of `FuzzyAhoCorasickBuilder::build`

builder.rs's own `Node` keeps `transitions: BTreeMap<String, Vec<usize>>`
(a list of target nodes per grapheme label), unlike the
`BTreeMap<String, usize>` of structs.rs; the embedding below follows
builder.rs. -/

/-- Lexicographic strict order on grapheme clusters (the `Ord` of the
`String` keys of the `BTreeMap`). -/
def gLt : G → G → Bool
  | [], [] => false
  | [], _ :: _ => true
  | _ :: _, [] => false
  | a :: as, b :: bs => if a < b then true else if b < a then false else gLt as bs

/-- builder.rs `Node`: transitions map each grapheme to a *vector* of
target node indices. -/
structure BNode where
  pattern_index : Option Nat := none
  transitions : List (G × List Nat) := []
  fail : Nat := 0
  output : List Nat := []
  weight : ℚ := 0
  deriving DecidableEq, Repr

/-- `FuzzyAhoCorasickBuilder::pmf`. -/
def pmf (weight : ℚ) (word_length prefix_length : Nat) : ℚ :=
  if word_length = 0 then 0 else weight * ((prefix_length : ℚ) / (word_length : ℚ))

/-- `nodes[n]` on the builder's node vector. -/
def bnodeAt (nodes : List BNode) (n : Nat) : BNode := nodes.getD n {}

/-- Whether `new_index` is already among the targets stored under `g`
(the `transitions.iter().find(|&&target| target == new_index)` check after
`entry(g).or_insert_with(Vec::new)`; on a missing key the freshly inserted
vector is empty, so the check is equivalent to this lookup). -/
def bEntryHasNew : List (G × List Nat) → G → Nat → Bool
  | [], _, _ => false
  | (k, v) :: rest, g, n => if k = g then v.contains n else bEntryHasNew rest g n

/-- `entry(g).or_insert_with(Vec::new)` followed by `transitions.push(new_index)`
on a key-sorted `BTreeMap<String, Vec<usize>>`. -/
def bEntryPush : List (G × List Nat) → G → Nat → List (G × List Nat)
  | [], g, n => [(g, [n])]
  | (k, v) :: rest, g, n =>
    if gLt g k then (g, [n]) :: (k, v) :: rest
    else if k = g then (k, v ++ [n]) :: rest
    else (k, v) :: bEntryPush rest g n

/-- One grapheme step of Phase 1 of `build` (builder.rs): allocate-or-reuse
the child for `grapheme`, record the first pattern to reach it, and update
its weight by the PMF. -/
def trieStep (i : Nat) (w : ℚ) (len : Nat) (st : List BNode × Nat) (jg : Nat × G) :
    List BNode × Nat :=
  let nodes := st.1
  let current := st.2
  let j := jg.1
  let grapheme := jg.2
  let new_index := nodes.length
  let cur := bnodeAt nodes current
  let nodes :=
    if bEntryHasNew cur.transitions grapheme new_index then nodes
    else
      (nodes.set current
        { cur with transitions := bEntryPush cur.transitions grapheme new_index }) ++
        [({} : BNode)]
  let next := new_index
  let nd := bnodeAt nodes next
  let nodes := nodes.set next { nd with pattern_index := some (nd.pattern_index.getD i) }
  let nd2 := bnodeAt nodes next
  let nodes := nodes.set next { nd2 with weight := max nd2.weight (pmf w len (j + 1)) }
  (nodes, next)

/-- Phase 1 of `build` for one pattern: walk its graphemes, then mark the
final node with the pattern's output and weight. -/
def triePattern (ci : Bool) (lower : G → G) (nodes0 : List BNode) (i : Nat)
    (p : Pattern) : List BNode :=
  let word := if ci then p.pattern.map lower else p.pattern
  let st := word.enum.foldl (trieStep i p.weight word.length) (nodes0, 0)
  let nodes := st.1
  let current := st.2
  let nd := bnodeAt nodes current
  nodes.set current { nd with output := nd.output ++ [i], weight := max nd.weight p.weight }

/-- Phase 1 of `FuzzyAhoCorasickBuilder::build`: fold the trie construction
over the pattern list, starting from the lone root node. -/
def buildTrie (patterns : List Pattern) (ci : Bool) (lower : G → G) : List BNode :=
  patterns.enum.foldl (fun nodes ip => triePattern ci lower nodes ip.1 ip.2) [{}]

/-- ASCII grapheme `c`. -/
def gC : G := [99]

/-- The patterns `ab` and `ac` (shared one-grapheme prefix `a`). -/
def patsABAC : List Pattern :=
  [{ grapheme_len := 2, pattern := [gA, gB] },
   { grapheme_len := 2, pattern := [gA, gC] }]

section
attribute [local semireducible] Rat.mul Rat.add Rat.sub Rat.inv
set_option maxRecDepth 100000

/-- Claim C3 is REFUTED by the code: Phase A's reuse check compares the
stored targets against `new_index = nodes.len()`, the index of a node that
does not exist yet, so it can never succeed and `build` creates a fresh
node for every grapheme of every pattern.  Building `ab`, `ac`: the root's
transition entry for `a` holds the two children `[1, 3]` — not a unique
child per label — and the shared prefix `a` of the two patterns is not
shared (pattern `ac` walks the fresh node 3, not node 1). -/
theorem C3_trie_child_unique :
    (bnodeAt (buildTrie patsABAC false id) 0).transitions = [(gA, [1, 3])] ∧
    ∃ en ∈ (bnodeAt (buildTrie patsABAC false id) 0).transitions, 2 ≤ en.2.length :=
  ⟨by decide, ⟨(gA, [1, 3]), by decide, by decide⟩⟩

end

/-! ### Claim C9: searching a pattern's own text -/

theorem isNoneOr_of_all {o : Option Nat} {p : Nat → Bool} (h : ∀ m, p m = true) :
    isNoneOr o p = true := by
  unfold isNoneOr
  cases o with
  | none => rfl
  | some x => exact h x

/-- A state with all edit counts zero passes `within_limits` under every
limits configuration. -/
theorem within_limits_zero (A : FuzzyAhoCorasick) (l : Option FuzzyLimits) :
    within_limits A l 0 0 0 0 0 = true := by
  unfold within_limits
  cases hc : l.or A.limits with
  | none => rfl
  | some mx =>
    simp only [Bool.and_eq_true]
    refine ⟨⟨⟨⟨?_, ?_⟩, ?_⟩, ?_⟩, ?_⟩ <;>
      exact isNoneOr_of_all fun m => by simp

theorem bestUpdate_ne_nil (b : Best) (k : Nat × Nat × Nat) (m : FuzzyMatch) :
    bestUpdate b k m ≠ [] := by
  cases b with
  | nil => simp [bestUpdate]
  | cons e rest =>
    obtain ⟨k0, old⟩ := e
    unfold bestUpdate
    by_cases hk : (k0, old).1 = k
    · rw [if_pos hk]
      simp
    · rw [if_neg hk]
      simp

theorem emitOne_ne_nil {A : FuzzyAhoCorasick} {hs : List G} {t : ℚ} {s : SState}
    {b : Best} {pi : Nat} (h : b ≠ []) : emitOne A hs t s b pi ≠ [] := by
  unfold emitOne
  by_cases hw : within_limits A
      ((A.patterns.getD pi { grapheme_len := 0, pattern := [] }).limits)
      s.edits s.insertions s.deletions s.substitutions s.swaps = true
  · rw [if_pos hw]
    by_cases hsim : emissionSim A s pi < t
    · rw [if_pos hsim]
      exact h
    · rw [if_neg hsim]
      exact bestUpdate_ne_nil _ _ _
  · rw [if_neg hw]
    exact h

theorem emitState_ne_nil {A : FuzzyAhoCorasick} {hs : List G} {t : ℚ} {s : SState}
    {b : Best} (h : b ≠ []) : emitState A hs t s b ≠ [] := by
  unfold emitState
  generalize (nodeAt A s.node).output = l
  induction l generalizing b with
  | nil => exact h
  | cons p ps ih => exact ih (emitOne_ne_nil h)

theorem bfsLoop_ne_nil {A : FuzzyAhoCorasick} {hs tc : List G} {t : ℚ} :
    ∀ (fuel : Nat) (rest : List SState) (best final : Best),
      bfsLoop A hs tc t fuel rest best = some final → best ≠ [] → final ≠ [] := by
  intro fuel
  induction fuel with
  | zero =>
    intro rest best final hrun hb
    unfold bfsLoop at hrun
    cases hbp : beamPrune A.beam_width rest with
    | nil => rw [hbp] at hrun; cases hrun; exact hb
    | cons s tail => rw [hbp] at hrun; cases hrun
  | succ n ih =>
    intro rest best final hrun hb
    unfold bfsLoop at hrun
    cases hbp : beamPrune A.beam_width rest with
    | nil => rw [hbp] at hrun; cases hrun; exact hb
    | cons s tail =>
      rw [hbp] at hrun
      dsimp only at hrun
      by_cases hpr : maxPossibleSim A s.penalties < t
      · rw [if_pos hpr] at hrun
        exact ih _ _ _ hrun hb
      · rw [if_neg hpr] at hrun
        exact ih _ _ _ hrun (emitState_ne_nil hb)

theorem runSeeds_ne_nil {A : FuzzyAhoCorasick} {hs tc : List G} {t : ℚ} {fuel : Nat} :
    ∀ (seeds : List Nat) (best final : Best),
      runSeeds A hs tc t fuel seeds best = some final → best ≠ [] → final ≠ [] := by
  intro seeds
  induction seeds with
  | nil =>
    intro best final hrun hb
    cases hrun
    exact hb
  | cons st rest ih =>
    intro best final hrun hb
    unfold runSeeds at hrun
    cases hl : bfsLoop A hs tc t fuel [initState st] best with
    | none => rw [hl] at hrun; cases hrun
    | some b' =>
      rw [hl] at hrun
      exact ih _ _ hrun (bfsLoop_ne_nil _ _ _ _ hl hb)

theorem alGet_mem : ∀ {l : List (G × Nat)} {g : G} {v : Nat},
    alGet l g = some v → (g, v) ∈ l := by
  intro l
  induction l with
  | nil => intro g v h; cases h
  | cons e rest ih =>
    intro g v h
    unfold alGet at h
    by_cases hk : e.1 = g
    · rw [if_pos hk] at h
      cases h
      obtain ⟨k0, v0⟩ := e
      have hk' : k0 = g := hk
      subst hk'
      exact List.mem_cons_self ..
    · rw [if_neg hk] at h
      exact List.mem_cons_of_mem _ (ih h)

theorem getD_mem_of_lt : ∀ (l : List G) (n : Nat), n < l.length → l.getD n [] ∈ l
  | _ :: _, 0, _ => List.mem_cons_self ..
  | _ :: l, n + 1, h =>
    List.mem_cons_of_mem _ (getD_mem_of_lt l n (Nat.lt_of_succ_lt_succ h))

/-- The chain trie `build` produces for one pattern with grapheme list `gs`:
node `k` steps to node `k + 1` on the `k`-th grapheme, only the terminal
node carries the output `[0]`. -/
def ChainOf (A : FuzzyAhoCorasick) (gs : List G) : Prop :=
  (∀ n < gs.length, (nodeAt A n).transitions = [(gs.getD n [], n + 1)]) ∧
  (nodeAt A gs.length).transitions = [] ∧
  (∀ n < gs.length, (nodeAt A n).output = []) ∧
  (nodeAt A gs.length).output = [0]

/-- Positivity of the penalty configuration relative to the chain's labels:
insertions, deletions and swaps cost a positive penalty, and so does a
substitution between any two distinct graphemes of the pattern. -/
def PosPen (A : FuzzyAhoCorasick) (gs : List G) : Prop :=
  0 < A.penalties.insertion ∧ 0 < A.penalties.deletion ∧ 0 < A.penalties.swap ∧
  ∀ g1 ∈ gs, ∀ g2 ∈ gs, g1 ≠ g2 →
    0 < A.penalties.substitution * (1 - get_similarity A (g1.headD 0) (g2.headD 0))

/-- The search invariant for the chain self-search: penalties never go
negative, and a penalty-free state is an exact walk of the chain — all
counts zero, window `[matched_start, j)` of width `node`, fully inside the
haystack. -/
def C9Inv (L : Nat) (s : SState) : Prop :=
  s.node ≤ L ∧ 0 ≤ s.penalties ∧
  (s.penalties = 0 →
    s.edits = 0 ∧ s.insertions = 0 ∧ s.deletions = 0 ∧ s.substitutions = 0 ∧
    s.swaps = 0 ∧ s.j = s.matched_start + s.node ∧ s.matched_end = s.j ∧ s.j ≤ L)

/-- Nonnegativity of the substitution cost between any two distinct
graphemes of the (folded) pattern; holds whenever the substitution penalty
is nonnegative and the similarity table stays at most 1. -/
def SubNonneg (A : FuzzyAhoCorasick) (fgs : List G) : Prop :=
  ∀ g1 ∈ fgs, ∀ g2 ∈ fgs, g1 ≠ g2 →
    0 ≤ A.penalties.substitution * (1 - get_similarity A (g1.headD 0) (g2.headD 0))

/-- In the chain, an edge out of a node in range leads to the next node and
carries that node's grapheme label. -/
theorem chain_mem_trans {A : FuzzyAhoCorasick} {fgs : List G}
    (hchain : ChainOf A fgs) {n : Nat} (hn : n ≤ fgs.length) {en : G × Nat}
    (hen : en ∈ (nodeAt A n).transitions) :
    n < fgs.length ∧ en = (fgs.getD n [], n + 1) := by
  obtain ⟨htr, htrL, _, _⟩ := hchain
  rcases Nat.lt_or_ge n fgs.length with h | h
  · refine ⟨h, ?_⟩
    rw [htr n h] at hen
    exact List.mem_singleton.mp hen
  · have hEq : n = fgs.length := le_antisymm hn h
    rw [hEq, htrL] at hen
    cases hen

/-- In the chain, the two-edge path of the swap transition lands two nodes
further down. -/
theorem chain_swap_node {A : FuzzyAhoCorasick} {fgs : List G}
    (hchain : ChainOf A fgs) {n : Nat} (hn : n ≤ fgs.length) {node2 : Nat}
    {g1 g2 : G}
    (hpath : (alGet (nodeAt A n).transitions g1).bind
      (fun x => alGet (nodeAt A x).transitions g2) = some node2) :
    node2 = n + 2 ∧ n + 2 ≤ fgs.length := by
  revert hpath
  cases hx : alGet (nodeAt A n).transitions g1 with
  | none => intro hpath; cases hpath
  | some x =>
    intro hpath
    dsimp only [Option.bind] at hpath
    obtain ⟨hlt, hen'⟩ := chain_mem_trans hchain hn (alGet_mem hx)
    have hx' : x = n + 1 := congrArg Prod.snd hen'
    subst hx'
    obtain ⟨hlt2, hen2⟩ := chain_mem_trans hchain (by omega) (alGet_mem hpath)
    have h2 : node2 = n + 1 + 1 := congrArg Prod.snd hen2
    omega

theorem c9Inv_step {A : FuzzyAhoCorasick} {gs : List G} {s c : SState}
    (hchain : ChainOf A gs) (hpp : PosPen A gs)
    (hs : C9Inv gs.length s) (hstep : Step A gs s c) : C9Inv gs.length c := by
  obtain ⟨htr, htrL, _, _⟩ := hchain
  obtain ⟨hins, hdel, hswap, hsub⟩ := hpp
  obtain ⟨hnode, hpos, hzero⟩ := hs
  have hlt_of_mem : ∀ {en : G × Nat}, en ∈ (nodeAt A s.node).transitions →
      s.node < gs.length ∧ en = (gs.getD s.node [], s.node + 1) := by
    intro en hen
    rcases Nat.lt_or_ge s.node gs.length with h | h
    · refine ⟨h, ?_⟩
      rw [htr s.node h] at hen
      exact List.mem_singleton.mp hen
    · have hEq : s.node = gs.length := le_antisymm hnode h
      rw [hEq, htrL] at hen
      cases hen
  cases hstep with
  | exact en hj hen heq =>
    obtain ⟨hlt, hen'⟩ := hlt_of_mem hen
    refine ⟨?_, hpos, ?_⟩
    · rw [hen']
      exact hlt
    · intro hp
      obtain ⟨he, hi, hd, hsu, hsw, hwin, hme, hjle⟩ := hzero hp
      have hms : (if s.matched_end = s.matched_start then s.j else s.matched_start) =
          s.matched_start := by
        split
        · omega
        · rfl
      refine ⟨he, hi, hd, hsu, hsw, ?_, ?_, ?_⟩
      · rw [hms, hen']
        dsimp only
        omega
      · rfl
      · exact hj
  | subst en hj hen hne hlim =>
    obtain ⟨hlt, hen'⟩ := hlt_of_mem hen
    have hinc : 0 < A.penalties.substitution *
        (1 - get_similarity A (en.1.headD 0) ((gs.getD s.j []).headD 0)) := by
      refine hsub en.1 ?_ (gs.getD s.j []) (getD_mem_of_lt gs s.j hj) hne
      rw [hen']
      exact getD_mem_of_lt gs s.node hlt
    refine ⟨?_, ?_, ?_⟩
    · rw [hen']
      exact hlt
    · dsimp only
      linarith
    · intro hp
      dsimp only at hp
      linarith
  | swap node2 hj hpath hlim =>
    refine ⟨?_, by dsimp only; linarith, by intro hp; dsimp only at hp; linarith⟩
    revert hpath
    cases hx : alGet (nodeAt A s.node).transitions (gs.getD (s.j + 1) []) with
    | none => intro hpath; cases hpath
    | some x =>
      intro hpath
      dsimp only [Option.bind] at hpath
      obtain ⟨hlt, hen'⟩ := hlt_of_mem (alGet_mem hx)
      have hx' : x = s.node + 1 := congrArg Prod.snd hen'
      subst hx'
      rcases Nat.lt_or_ge (s.node + 1) gs.length with h2 | h2
      · have hmem2 := alGet_mem hpath
        rw [htr _ h2] at hmem2
        have := List.mem_singleton.mp hmem2
        have hn2 : node2 = s.node + 1 + 1 := congrArg Prod.snd this
        dsimp only
        omega
      · have hEq : s.node + 1 = gs.length := le_antisymm hlt h2
        rw [hEq, htrL] at hpath
        cases hpath
  | ins hj hwin hlim =>
    exact ⟨hnode, by dsimp only; linarith, by intro hp; dsimp only at hp; linarith⟩
  | del en hen hlim =>
    obtain ⟨hlt, hen'⟩ := hlt_of_mem hen
    refine ⟨?_, by dsimp only; linarith, by intro hp; dsimp only at hp; linarith⟩
    rw [hen']
    exact hlt

theorem byteSlice_full (b : List Nat) : byteSlice b 0 b.length = b := by
  unfold byteSlice
  simp

/-- What every best-table entry of the chain self-search at threshold 1
records: the exact full-haystack match of the single pattern. -/
def C9Best (hs : List G) (m : FuzzyMatch) : Prop :=
  m.edits = 0 ∧ m.insertions = 0 ∧ m.deletions = 0 ∧ m.substitutions = 0 ∧
  m.swaps = 0 ∧ m.similarity = 1 ∧ m.start = 0 ∧
  m.end_ = (haystackBytes hs).length ∧ m.text = haystackBytes hs ∧ m.pattern_index = 0

theorem c9_emit {A : FuzzyAhoCorasick} {gs fgs : List G} {s : SState}
    {k : Nat × Nat × Nat} {m : FuzzyMatch}
    (hchain : ChainOf A fgs) (hlen : fgs.length = gs.length) (hne : gs ≠ [])
    (hplen : (patternAt A 0).grapheme_len = gs.length)
    (hpw : (patternAt A 0).weight = 1)
    (hs : C9Inv fgs.length s) (he : EmittedBy A gs 1 s k m) : C9Best gs m := by
  obtain ⟨_, _, hout, houtL⟩ := hchain
  obtain ⟨hnode, hpos, hzero⟩ := hs
  obtain ⟨pi, hpi, hw, hsim, hk, hm⟩ := he
  have hnL : s.node = fgs.length := by
    rcases Nat.lt_or_ge s.node fgs.length with h | h
    · rw [hout s.node h] at hpi
      cases hpi
    · exact le_antisymm hnode h
  rw [hnL, houtL] at hpi
  have hpi0 : pi = 0 := List.mem_singleton.mp hpi
  subst hpi0
  have hL : (0 : ℚ) < (gs.length : ℚ) := by
    have h0 : 0 < gs.length := List.length_pos.mpr hne
    exact_mod_cast h0
  have h1 : (1 : ℚ) ≤ emissionSim A s 0 := not_lt.mp hsim
  unfold emissionSim at h1
  dsimp only at h1
  rw [hplen, hpw, mul_one] at h1
  have h2 : (1 : ℚ) * (gs.length : ℚ) ≤ (gs.length : ℚ) - s.penalties :=
    (le_div_iff₀ hL).mp h1
  have hple : s.penalties ≤ 0 := by linarith
  have hpen0 : s.penalties = 0 := le_antisymm hple hpos
  obtain ⟨he0, hi0, hd0, hsu0, hsw0, hwin, hme, hjle⟩ := hzero hpen0
  rw [hnL] at hwin
  have hms0 : s.matched_start = 0 := by omega
  have hjL : s.j = gs.length := by omega
  have hsb : startByte gs s = 0 := by
    unfold startByte
    rw [hms0, if_pos (List.length_pos.mpr hne)]
    rfl
  have heb : endByte gs s = (haystackBytes gs).length := by
    unfold endByte
    rw [hme, hjL, if_neg (lt_irrefl _)]
  have hsim' : emissionSim A s 0 = 1 := by
    unfold emissionSim
    dsimp only
    rw [hplen, hpw, mul_one, hpen0, sub_zero, div_self (ne_of_gt hL)]
  subst hm
  refine ⟨he0, hi0, hd0, hsu0, hsw0, hsim', hsb, heb, ?_, rfl⟩
  show byteSlice (haystackBytes gs) (startByte gs s) (endByte gs s) = haystackBytes gs
  rw [hsb, heb]
  exact byteSlice_full _

/-- The state of the exact chain walk after `k` graphemes (seed 0). -/
def exactSt (k : Nat) : SState := ⟨k, k, 0, k, 0, 0, 0, 0, 0, 0⟩

theorem exactSt_zero : exactSt 0 = initState 0 := rfl

theorem exactSt_not_pruned {A : FuzzyAhoCorasick}
    (hL1 : 1 ≤ A.max_pattern_grapheme_len) (k : Nat) :
    ¬ maxPossibleSim A (exactSt k).penalties < 1 := by
  unfold maxPossibleSim exactSt
  dsimp only
  have hL : (0 : ℚ) < (A.max_pattern_grapheme_len : ℚ) := by
    exact_mod_cast Nat.lt_of_lt_of_le Nat.zero_lt_one hL1
  rw [sub_zero, div_self (ne_of_gt hL)]
  exact lt_irrefl 1

theorem exactSt_child {A : FuzzyAhoCorasick} {gs : List G} {k : Nat}
    (hchain : ChainOf A gs) (hk : k < gs.length) :
    exactSt (k + 1) ∈ stepChildren A gs (exactSt k) := by
  obtain ⟨htr, _, _, _⟩ := hchain
  unfold stepChildren
  have hj : (exactSt k).j < gs.length := hk
  rw [if_pos hj]
  refine List.mem_append_left _ (List.mem_append_left _ (List.mem_append_left _ ?_))
  unfold exactSubstChildren
  have htrk : (nodeAt A (exactSt k).node).transitions = [(gs.getD k [], k + 1)] :=
    htr k hk
  rw [htrk]
  simp only [List.flatMap_cons, List.flatMap_nil, List.append_nil]
  have hcg : (gs.getD k [], k + 1).1 = gs.getD (exactSt k).j [] := rfl
  rw [if_pos hcg]
  refine List.mem_singleton.mpr (Eq.symm ?_)
  show SState.mk (k + 1) ((exactSt k).j + 1)
      (if (exactSt k).matched_end = (exactSt k).matched_start then (exactSt k).j
        else (exactSt k).matched_start)
      ((exactSt k).j + 1) (exactSt k).penalties (exactSt k).edits (exactSt k).insertions
      (exactSt k).deletions (exactSt k).substitutions (exactSt k).swaps = exactSt (k + 1)
  unfold exactSt
  dsimp only
  by_cases h0 : k = 0
  · subst h0
    rfl
  · rw [if_neg ?_]
    intro hc
    exact h0 hc

/-- The full-pattern key: start byte 0, end byte the haystack length,
pattern index 0. -/
def fullKey (gs : List G) : Nat × Nat × Nat := (0, (haystackBytes gs).length, 0)

theorem exactSt_sim_one {A : FuzzyAhoCorasick} {gs fgs : List G}
    (hlen : fgs.length = gs.length) (hne : gs ≠ [])
    (hplen : (patternAt A 0).grapheme_len = gs.length)
    (hpw : (patternAt A 0).weight = 1) :
    emissionSim A (exactSt fgs.length) 0 = 1 := by
  have hL : (0 : ℚ) < (gs.length : ℚ) := by
    exact_mod_cast List.length_pos.mpr hne
  unfold emissionSim exactSt
  dsimp only
  rw [hplen, hpw, mul_one, sub_zero, div_self (ne_of_gt hL)]

/-- Popping the completed exact walk updates the best table exactly at the
full-pattern key, with the exact full-span match. -/
theorem exactSt_emit_eq {A : FuzzyAhoCorasick} {gs fgs : List G}
    (hchain : ChainOf A fgs) (hlen : fgs.length = gs.length) (hne : gs ≠ [])
    (hplen : (patternAt A 0).grapheme_len = gs.length)
    (hpw : (patternAt A 0).weight = 1) (best : Best) :
    emitState A gs 1 (exactSt fgs.length) best =
      bestUpdate best (fullKey gs) (emissionMatch A gs (exactSt fgs.length) 0) := by
  obtain ⟨_, _, _, houtL⟩ := hchain
  unfold emitState
  have hout : (nodeAt A (exactSt fgs.length).node).output = [0] := houtL
  rw [hout]
  show emitOne A gs 1 (exactSt fgs.length) best 0 = _
  unfold emitOne
  have hwl : within_limits A
      ((A.patterns.getD 0 { grapheme_len := 0, pattern := [] }).limits)
      (exactSt fgs.length).edits (exactSt fgs.length).insertions
      (exactSt fgs.length).deletions (exactSt fgs.length).substitutions
      (exactSt fgs.length).swaps = true := within_limits_zero A _
  rw [if_pos hwl]
  rw [if_neg (by rw [exactSt_sim_one hlen hne hplen hpw]; exact lt_irrefl 1)]
  have hsb : startByte gs (exactSt fgs.length) = 0 := by
    unfold startByte exactSt
    dsimp only
    rw [if_pos (List.length_pos.mpr hne)]
    rfl
  have heb : endByte gs (exactSt fgs.length) = (haystackBytes gs).length := by
    unfold endByte exactSt
    dsimp only
    rw [hlen, if_neg (lt_irrefl _)]
  rw [hsb, heb]
  rfl

/-- The match the completed exact walk emits is the exact full-span match. -/
theorem exact_match_good {A : FuzzyAhoCorasick} {gs fgs : List G}
    (hlen : fgs.length = gs.length) (hne : gs ≠ [])
    (hplen : (patternAt A 0).grapheme_len = gs.length)
    (hpw : (patternAt A 0).weight = 1) :
    C9Best gs (emissionMatch A gs (exactSt fgs.length) 0) := by
  have hsb : startByte gs (exactSt fgs.length) = 0 := by
    unfold startByte exactSt
    dsimp only
    rw [if_pos (List.length_pos.mpr hne)]
    rfl
  have heb : endByte gs (exactSt fgs.length) = (haystackBytes gs).length := by
    unfold endByte exactSt
    dsimp only
    rw [hlen, if_neg (lt_irrefl _)]
  refine ⟨rfl, rfl, rfl, rfl, rfl, exactSt_sim_one hlen hne hplen hpw, hsb, heb, ?_, rfl⟩
  show byteSlice (haystackBytes gs) (startByte gs (exactSt fgs.length))
      (endByte gs (exactSt fgs.length)) = haystackBytes gs
  rw [hsb, heb]
  exact byteSlice_full _

/-- The strict-penalty per-state invariant for the first seed's queue:
penalty-free states are exact chain walks anchored at window start 0. -/
def C9InvB (L : Nat) (s : SState) : Prop :=
  C9Inv L s ∧ (s.penalties = 0 → s.matched_start = 0)

theorem c9InvB_step {A : FuzzyAhoCorasick} {fgs : List G} {s c : SState}
    (hchain : ChainOf A fgs) (hpp : PosPen A fgs)
    (hs : C9InvB fgs.length s) (hstep : Step A fgs s c) : C9InvB fgs.length c := by
  obtain ⟨hinv, hms⟩ := hs
  refine ⟨c9Inv_step hchain hpp hinv hstep, ?_⟩
  obtain ⟨hins, hdel, hswap, hsub⟩ := hpp
  obtain ⟨hnode, hpos, hzero⟩ := hinv
  cases hstep with
  | exact en hj hen heq =>
    intro hp
    have hp0 : s.penalties = 0 := hp
    obtain ⟨_, _, _, _, _, hwin, hme, _⟩ := hzero hp0
    have hms0 := hms hp0
    dsimp only
    split
    · omega
    · exact hms0
  | subst en hj hen hne' hlim =>
    intro hp
    dsimp only at hp
    obtain ⟨hlt, hen'⟩ := chain_mem_trans hchain hnode hen
    have hinc : 0 < A.penalties.substitution *
        (1 - get_similarity A (en.1.headD 0) ((fgs.getD s.j []).headD 0)) := by
      refine hsub en.1 ?_ (fgs.getD s.j []) (getD_mem_of_lt fgs s.j hj) hne'
      rw [hen']
      exact getD_mem_of_lt fgs s.node hlt
    exact absurd hp (by intro hp; linarith)
  | swap node2 hj hpath hlim =>
    intro hp
    dsimp only at hp
    exact absurd hp (by intro hp; linarith)
  | ins hj hwin hlim =>
    intro hp
    dsimp only at hp
    exact absurd hp (by intro hp; linarith)
  | del en hen hlim =>
    intro hp
    dsimp only at hp
    exact absurd hp (by intro hp; linarith)

/-- A penalty-free state of the first seed's queue is the exact walk at its
own node position. -/
theorem c9InvB_zero_eq {L : Nat} {h : SState} (hinv : C9InvB L h)
    (hp : h.penalties = 0) : h = exactSt h.node ∧ h.node ≤ L := by
  obtain ⟨⟨hnode, _, hzero⟩, hms⟩ := hinv
  obtain ⟨he, hi, hd, hsu, hsw, hwin, hme, hjle⟩ := hzero hp
  have hms0 := hms hp
  refine ⟨?_, hnode⟩
  cases h with
  | mk n j ms me p e i d su sw =>
    dsimp only at hms0 hp he hi hd hsu hsw hwin hme
    subst hms0 hp he hi hd hsu hsw
    have hj : j = n := by omega
    subst hj
    subst hme
    rfl

theorem penLe_total (a b : SState) : penLe a b = true ∨ penLe b a = true := by
  unfold penLe
  rcases le_total a.penalties b.penalties with h | h
  · exact Or.inl (decide_eq_true h)
  · exact Or.inr (decide_eq_true h)

theorem penLe_trans (a b c : SState) :
    penLe a b = true → penLe b c = true → penLe a c = true := by
  unfold penLe
  intro h1 h2
  exact decide_eq_true (le_trans (of_decide_eq_true h1) (of_decide_eq_true h2))

/-- The exact walk survives beam pruning: with a beam of at least 1 it is
the unique penalty minimum, so the stable sort puts it first. -/
theorem exact_in_beamPrune {A : FuzzyAhoCorasick} {L : Nat} {rest : List SState}
    (hbw1 : ∀ b, A.beam_width = some b → 1 ≤ b)
    (hq : ∀ y ∈ rest, C9InvB L y)
    (hex : ∃ k, k ≤ L ∧ exactSt k ∈ rest) :
    ∃ m, m ≤ L ∧ exactSt m ∈ beamPrune A.beam_width rest := by
  obtain ⟨k, hk, hkm⟩ := hex
  unfold beamPrune
  cases hbw : A.beam_width with
  | none => exact ⟨k, hk, hkm⟩
  | some b =>
    dsimp only
    by_cases hl : b * 2 < rest.length
    · rw [if_pos hl]
      cases hsorted : stableSortBy penLe rest with
      | nil =>
        exfalso
        have hmem : exactSt k ∈ stableSortBy penLe rest := mem_stableSortBy.mpr hkm
        rw [hsorted] at hmem
        cases hmem
      | cons h t =>
        have hhmem : h ∈ rest := mem_stableSortBy.mp
          (by rw [hsorted]; exact List.mem_cons_self ..)
        have hpair : List.Pairwise (fun a b => penLe a b = true)
            (stableSortBy penLe rest) :=
          stableSortBy_pairwise penLe_total penLe_trans rest
        rw [hsorted] at hpair
        have hk' : exactSt k ∈ h :: t := by
          rw [← hsorted]
          exact mem_stableSortBy.mpr hkm
        have hge : 0 ≤ h.penalties := (hq h hhmem).1.2.1
        have hp0 : h.penalties = 0 := by
          cases hk' with
          | head => rfl
          | tail _ htl =>
            have hle : penLe h (exactSt k) = true :=
              (List.pairwise_cons.mp hpair).1 _ htl
            exact le_antisymm (of_decide_eq_true hle) hge
        obtain ⟨heq, hnodele⟩ := c9InvB_zero_eq (hq h hhmem) hp0
        refine ⟨h.node, hnodele, ?_⟩
        rw [← heq]
        cases b with
        | zero => exact absurd (hbw1 0 hbw) (by omega)
        | succ b' =>
          rw [List.take_succ_cons]
          exact List.mem_cons_self ..
    · rw [if_neg hl]
      exact ⟨k, hk, hkm⟩

theorem bfsLoop_c9_liveB {A : FuzzyAhoCorasick} {gs fgs : List G}
    (hchain : ChainOf A fgs) (hlen : fgs.length = gs.length) (hne : gs ≠ [])
    (hbw1 : ∀ b, A.beam_width = some b → 1 ≤ b)
    (hL1 : 1 ≤ A.max_pattern_grapheme_len) (hpp : PosPen A fgs)
    (hplen : (patternAt A 0).grapheme_len = gs.length)
    (hpw : (patternAt A 0).weight = 1) :
    ∀ (fuel : Nat) (rest : List SState) (best final : Best),
      bfsLoop A gs fgs 1 fuel rest best = some final →
      (∀ y ∈ rest, C9InvB fgs.length y) →
      (best ≠ [] ∨ ∃ k, k ≤ fgs.length ∧ exactSt k ∈ rest) →
      final ≠ [] := by
  intro fuel
  induction fuel with
  | zero =>
    intro rest best final hrun hq hinv
    unfold bfsLoop at hrun
    cases hbp : beamPrune A.beam_width rest with
    | nil =>
      rw [hbp] at hrun
      cases hrun
      rcases hinv with hb | hex
      · exact hb
      · obtain ⟨m, _, hm⟩ := exact_in_beamPrune hbw1 hq hex
        rw [hbp] at hm
        cases hm
    | cons s tail =>
      rw [hbp] at hrun
      cases hrun
  | succ n ih =>
    intro rest best final hrun hq hinv
    unfold bfsLoop at hrun
    cases hbp : beamPrune A.beam_width rest with
    | nil =>
      rw [hbp] at hrun
      cases hrun
      rcases hinv with hb | hex
      · exact hb
      · obtain ⟨m, _, hm⟩ := exact_in_beamPrune hbw1 hq hex
        rw [hbp] at hm
        cases hm
    | cons s tail =>
      rw [hbp] at hrun
      dsimp only at hrun
      have hqs : C9InvB fgs.length s :=
        hq _ (mem_beamPrune (by rw [hbp]; exact List.mem_cons_self ..))
      have hqt : ∀ y ∈ tail, C9InvB fgs.length y := fun y hy =>
        hq _ (mem_beamPrune (by rw [hbp]; exact List.mem_cons_of_mem _ hy))
      have hqexp : ∀ y ∈ tail ++ stepChildren A fgs s, C9InvB fgs.length y := by
        intro y hy
        rcases List.mem_append.mp hy with hy | hy
        · exact hqt y hy
        · exact c9InvB_step hchain hpp hqs (step_of_mem hy)
      rcases hinv with hb | hex
      · by_cases hpr : maxPossibleSim A s.penalties < 1
        · rw [if_pos hpr] at hrun
          exact ih _ _ _ hrun hqt (Or.inl hb)
        · rw [if_neg hpr] at hrun
          exact ih _ _ _ hrun hqexp (Or.inl (emitState_ne_nil hb))
      · obtain ⟨m, hmle, hm⟩ := exact_in_beamPrune hbw1 hq hex
        rw [hbp] at hm
        cases hm with
        | tail _ htl =>
          by_cases hpr : maxPossibleSim A s.penalties < 1
          · rw [if_pos hpr] at hrun
            exact ih _ _ _ hrun hqt (Or.inr ⟨m, hmle, htl⟩)
          · rw [if_neg hpr] at hrun
            exact ih _ _ _ hrun hqexp (Or.inr ⟨m, hmle, List.mem_append_left _ htl⟩)
        | head =>
          rw [if_neg (exactSt_not_pruned hL1 m)] at hrun
          rcases Nat.lt_or_ge m fgs.length with hmlt | hmge
          · exact ih _ _ _ hrun hqexp
              (Or.inr ⟨m + 1, hmlt,
                List.mem_append_right _ (exactSt_child hchain hmlt)⟩)
          · have hkL : m = fgs.length := le_antisymm hmle hmge
            subst hkL
            refine ih _ _ _ hrun hqexp (Or.inl ?_)
            rw [exactSt_emit_eq hchain hlen hne hplen hpw]
            exact bestUpdate_ne_nil _ _ _

theorem runSeeds_c9_liveB {A : FuzzyAhoCorasick} {gs fgs : List G}
    (hchain : ChainOf A fgs) (hlen : fgs.length = gs.length) (hne : gs ≠ [])
    (hbw1 : ∀ b, A.beam_width = some b → 1 ≤ b)
    (hL1 : 1 ≤ A.max_pattern_grapheme_len) (hpp : PosPen A fgs)
    (hplen : (patternAt A 0).grapheme_len = gs.length)
    (hpw : (patternAt A 0).weight = 1) :
    ∀ (seeds : List Nat) (fuel : Nat) (best final : Best),
      runSeeds A gs fgs 1 fuel (0 :: seeds) best = some final → final ≠ [] := by
  intro seeds fuel best final hrun
  unfold runSeeds at hrun
  cases hl : bfsLoop A gs fgs 1 fuel [initState 0] best with
  | none => rw [hl] at hrun; cases hrun
  | some b' =>
    rw [hl] at hrun
    have hb' : b' ≠ [] :=
      bfsLoop_c9_liveB hchain hlen hne hbw1 hL1 hpp hplen hpw fuel
        [initState 0] best b' hl
        (by
          intro y hy
          rcases List.mem_singleton.mp hy with rfl
          exact ⟨⟨Nat.zero_le _, le_refl 0,
            fun _ => ⟨rfl, rfl, rfl, rfl, rfl, rfl, rfl, Nat.zero_le _⟩⟩, fun _ => rfl⟩)
        (Or.inr ⟨0, Nat.zero_le _, by
          rw [← exactSt_zero]
          exact List.mem_singleton.mpr rfl⟩)
    exact runSeeds_ne_nil _ _ _ hrun hb'

/-! The weak-penalty branch (no beam): nonnegative insertion, deletion and
substitution costs suffice, because every non-exact path that could claim
the full-span key reaches the terminal node at a strictly later queue layer
than the exact walk and loses the tie in the keyed best table. -/

theorem utf8Bytes_ne_nil (c : Nat) : utf8Bytes c ≠ [] := by
  unfold utf8Bytes
  split
  · simp
  · split
    · simp
    · split
      · simp
      · simp

theorem graphemeSize_pos {g : G} (hg : g ≠ []) : 0 < graphemeSize g := by
  unfold graphemeSize graphemeBytes
  cases g with
  | nil => exact absurd rfl hg
  | cons c rest =>
    rw [List.map_cons, List.flatten_cons, List.length_append]
    have h1 : 0 < (utf8Bytes c).length := List.length_pos.mpr (utf8Bytes_ne_nil c)
    omega

theorem byteOffset_succ (hs : List G) {i : Nat} (hi : i < hs.length) :
    byteOffset hs (i + 1) = byteOffset hs i + graphemeSize (hs.getD i []) := by
  unfold byteOffset
  rw [List.take_succ, List.map_append, List.sum_append]
  have h1 : hs[i]? = some hs[i] := List.getElem?_eq_getElem hi
  rw [h1]
  have h2 : hs.getD i [] = hs[i] := by
    rw [List.getD_eq_getElem?_getD, h1]
    rfl
  rw [h2]
  simp

theorem byteOffset_lt_total (hs : List G) (hg : ∀ x ∈ hs, x ≠ []) {i : Nat}
    (hi : i < hs.length) : byteOffset hs i < (haystackBytes hs).length := by
  have h1 : byteOffset hs i < byteOffset hs (i + 1) := by
    rw [byteOffset_succ hs hi]
    have := graphemeSize_pos (hg _ (getD_mem_of_lt hs i hi))
    omega
  have h2 : byteOffset hs (i + 1) ≤ byteOffset hs hs.length := byteOffset_mono hs hi
  rw [byteOffset_length] at h2
  omega

theorem mem_bestUpdate_ne {best : Best} {k : Nat × Nat × Nat} {m : FuzzyMatch}
    {k0 : Nat × Nat × Nat} {m0 : FuzzyMatch} (hk : k0 ≠ k) :
    (k0, m0) ∈ bestUpdate best k m → (k0, m0) ∈ best := by
  induction best with
  | nil =>
    intro h
    unfold bestUpdate at h
    exact absurd (congrArg Prod.fst (List.mem_singleton.mp h)) hk
  | cons e rest ih =>
    intro h
    obtain ⟨k1, old⟩ := e
    unfold bestUpdate at h
    by_cases h1 : k1 = k
    · rw [if_pos h1] at h
      cases h with
      | head => exact absurd h1 hk
      | tail _ h => exact List.mem_cons_of_mem _ h
    · rw [if_neg h1] at h
      cases h with
      | head => exact List.mem_cons_self ..
      | tail _ h => exact List.mem_cons_of_mem _ (ih h)

theorem bestUpdate_mem_absent {best : Best} {k : Nat × Nat × Nat} {m : FuzzyMatch}
    (h : ∀ m0 : FuzzyMatch, (k, m0) ∉ best) : (k, m) ∈ bestUpdate best k m := by
  induction best with
  | nil => exact List.mem_singleton.mpr rfl
  | cons e rest ih =>
    obtain ⟨k1, old⟩ := e
    unfold bestUpdate
    by_cases h1 : k1 = k
    · exfalso
      subst h1
      exact h old (List.mem_cons_self ..)
    · rw [if_neg h1]
      exact List.mem_cons_of_mem _ (ih (fun m0 hm0 => h m0 (List.mem_cons_of_mem _ hm0)))

/-- An entry of the best table survives an update whose candidate similarity
does not exceed the entry's (`and_modify` replaces only on strict gain). -/
theorem bestUpdate_keep {best : Best} {k : Nat × Nat × Nat} {m : FuzzyMatch}
    {k0 : Nat × Nat × Nat} {m0 : FuzzyMatch} (hmem : (k0, m0) ∈ best)
    (hle : m.similarity ≤ m0.similarity) : (k0, m0) ∈ bestUpdate best k m := by
  induction best with
  | nil => cases hmem
  | cons e rest ih =>
    obtain ⟨k1, old⟩ := e
    unfold bestUpdate
    by_cases h1 : k1 = k
    · rw [if_pos h1]
      cases hmem with
      | head =>
        rw [if_neg (not_lt.mpr hle)]
        exact List.mem_cons_self ..
      | tail _ h => exact List.mem_cons_of_mem _ h
    · rw [if_neg h1]
      cases hmem with
      | head => exact List.mem_cons_self ..
      | tail _ h => exact List.mem_cons_of_mem _ (ih h)

/-- No entry of `best` sits at the full-pattern key. -/
def NoFull (gs : List G) (best : Best) : Prop :=
  ∀ m : FuzzyMatch, (fullKey gs, m) ∉ best

/-- The best table holds the exact full-span match at the full-pattern key. -/
def GoodAt (gs : List G) (best : Best) : Prop :=
  ∃ m, (fullKey gs, m) ∈ best ∧ C9Best gs m

theorem emissionSim_le_one {A : FuzzyAhoCorasick} {gs : List G} {s : SState}
    (hplen : (patternAt A 0).grapheme_len = gs.length) (hne : gs ≠ [])
    (hpw : (patternAt A 0).weight = 1) (hpen : 0 ≤ s.penalties) :
    emissionSim A s 0 ≤ 1 := by
  unfold emissionSim
  dsimp only
  rw [hplen, hpw, mul_one]
  have hL : (0 : ℚ) < (gs.length : ℚ) := by
    exact_mod_cast List.length_pos.mpr hne
  rw [div_le_one hL]
  linarith

/-- Under the chain shape, emission is trivial below the terminal node and a
single `emitOne` at pattern index 0 at the terminal node. -/
theorem emitState_chain {A : FuzzyAhoCorasick} {fgs : List G} (hchain : ChainOf A fgs)
    {s : SState} (hnode : s.node ≤ fgs.length) (gs : List G) (t : ℚ) (best : Best) :
    emitState A gs t s best = best ∨
      (s.node = fgs.length ∧ emitState A gs t s best = emitOne A gs t s best 0) := by
  obtain ⟨_, _, hout, houtL⟩ := hchain
  rcases Nat.lt_or_ge s.node fgs.length with h | h
  · left
    unfold emitState
    rw [hout s.node h]
    rfl
  · right
    have hEq : s.node = fgs.length := le_antisymm hnode h
    refine ⟨hEq, ?_⟩
    unfold emitState
    rw [hEq, houtL]
    rfl

theorem emitState_nonterminal {A : FuzzyAhoCorasick} {fgs : List G}
    (hchain : ChainOf A fgs) {s : SState} (hn : s.node < fgs.length)
    (gs : List G) (t : ℚ) (best : Best) : emitState A gs t s best = best := by
  obtain ⟨_, _, hout, _⟩ := hchain
  unfold emitState
  rw [hout s.node hn]
  rfl

theorem emitOne_cases (A : FuzzyAhoCorasick) (gs : List G) (t : ℚ) (s : SState)
    (best : Best) (pi : Nat) :
    emitOne A gs t s best pi = best ∨
      (¬ emissionSim A s pi < t ∧
        emitOne A gs t s best pi =
          bestUpdate best (startByte gs s, endByte gs s, pi) (emissionMatch A gs s pi)) := by
  unfold emitOne
  by_cases hw : within_limits A
      ((A.patterns.getD pi { grapheme_len := 0, pattern := [] }).limits)
      s.edits s.insertions s.deletions s.substitutions s.swaps = true
  · rw [if_pos hw]
    by_cases hsim : emissionSim A s pi < t
    · rw [if_pos hsim]
      exact Or.inl rfl
    · rw [if_neg hsim]
      exact Or.inr ⟨hsim, rfl⟩
  · rw [if_neg hw]
    exact Or.inl rfl

/-- The weak per-state invariant: node in range, penalties nonnegative, and
the accumulated swap cost bounded by the total penalty. -/
def WInvAll (A : FuzzyAhoCorasick) (L : Nat) (s : SState) : Prop :=
  s.node ≤ L ∧ 0 ≤ s.penalties ∧ A.penalties.swap * (s.swaps : ℚ) ≤ s.penalties

theorem winvAll_step {A : FuzzyAhoCorasick} {fgs : List G} {s c : SState}
    (hchain : ChainOf A fgs)
    (hip : 0 ≤ A.penalties.insertion) (hdp : 0 ≤ A.penalties.deletion)
    (hswp : 0 ≤ A.penalties.swap) (hsubn : SubNonneg A fgs)
    (hs : WInvAll A fgs.length s) (hstep : Step A fgs s c) :
    WInvAll A fgs.length c := by
  obtain ⟨hnode, hpos, hswb⟩ := hs
  cases hstep with
  | exact en hj hen heq =>
    obtain ⟨hlt, hen'⟩ := chain_mem_trans hchain hnode hen
    refine ⟨?_, hpos, hswb⟩
    rw [hen']
    exact hlt
  | subst en hj hen hne' hlim =>
    obtain ⟨hlt, hen'⟩ := chain_mem_trans hchain hnode hen
    have hinc : 0 ≤ A.penalties.substitution *
        (1 - get_similarity A (en.1.headD 0) ((fgs.getD s.j []).headD 0)) := by
      refine hsubn en.1 ?_ (fgs.getD s.j []) (getD_mem_of_lt fgs s.j hj) hne'
      rw [hen']
      exact getD_mem_of_lt fgs s.node hlt
    refine ⟨?_, by dsimp only; linarith, by dsimp only; linarith⟩
    rw [hen']
    exact hlt
  | swap node2 hj hpath hlim =>
    obtain ⟨hn2, hle2⟩ := chain_swap_node hchain hnode hpath
    refine ⟨by dsimp only; omega, by dsimp only; linarith, ?_⟩
    dsimp only
    push_cast
    linarith
  | ins hj hgw hlim =>
    exact ⟨hnode, by dsimp only; linarith, by dsimp only; linarith⟩
  | del en hen hlim =>
    obtain ⟨hlt, hen'⟩ := chain_mem_trans hchain hnode hen
    refine ⟨?_, by dsimp only; linarith, by dsimp only; linarith⟩
    rw [hen']
    exact hlt

/-- The per-state invariant of the first seed's queue under weak penalties:
the window is anchored at 0, the cursor balances node position against
insertions and deletions, and the first edit cannot be a substitution. -/
def WInv0 (A : FuzzyAhoCorasick) (fgs : List G) (s : SState) : Prop :=
  WInvAll A fgs.length s ∧ StateEditSum s ∧
  s.matched_start = 0 ∧ s.matched_end ≤ s.j ∧ s.j ≤ fgs.length ∧
  s.node + s.insertions = s.j + s.deletions ∧
  (s.matched_end = s.matched_start → s.j = s.matched_start) ∧
  (s.insertions = 0 ∧ s.deletions = 0 ∧ s.swaps = 0 → s.substitutions = 0)

theorem winv0_step {A : FuzzyAhoCorasick} {fgs : List G} {s c : SState}
    (hchain : ChainOf A fgs)
    (hip : 0 ≤ A.penalties.insertion) (hdp : 0 ≤ A.penalties.deletion)
    (hswp : 0 ≤ A.penalties.swap) (hsubn : SubNonneg A fgs)
    (hs : WInv0 A fgs s) (hstep : Step A fgs s c) : WInv0 A fgs c := by
  obtain ⟨hall, hsum, hms, hmej, hjle, hbal, hwin, hlock⟩ := hs
  refine ⟨winvAll_step hchain hip hdp hswp hsubn hall hstep,
    stateEditSum_step hsum hstep, ?_⟩
  obtain ⟨hnode, hpos, hswb⟩ := hall
  cases hstep with
  | exact en hj hen heq =>
    obtain ⟨hlt, hen'⟩ := chain_mem_trans hchain hnode hen
    have hn2 : en.2 = s.node + 1 := congrArg Prod.snd hen'
    refine ⟨?_, ?_, ?_, ?_, ?_, ?_⟩
    · dsimp only
      by_cases hc : s.matched_end = s.matched_start
      · rw [if_pos hc]
        have := hwin hc
        omega
      · rw [if_neg hc]
        exact hms
    · dsimp only
      omega
    · dsimp only
      omega
    · dsimp only
      rw [hn2]
      omega
    · intro h
      exact h
    · exact hlock
  | subst en hj hen hne' hlim =>
    obtain ⟨hlt, hen'⟩ := chain_mem_trans hchain hnode hen
    have hn2 : en.2 = s.node + 1 := congrArg Prod.snd hen'
    refine ⟨?_, ?_, ?_, ?_, ?_, ?_⟩
    · dsimp only
      by_cases hc : s.matched_end = s.matched_start
      · rw [if_pos hc]
        have := hwin hc
        omega
      · rw [if_neg hc]
        exact hms
    · dsimp only
      omega
    · dsimp only
      omega
    · dsimp only
      rw [hn2]
      omega
    · intro h
      exact h
    · -- a substitution from an edit-free state is impossible: the cursor and
      -- the node walk in lockstep, so the edge label equals the current grapheme
      intro hz
      exfalso
      obtain ⟨hz1, hz2, hz3⟩ := hz
      have hz1' : s.insertions = 0 := hz1
      have hz2' : s.deletions = 0 := hz2
      have hnj : s.node = s.j := by omega
      have h1 : en.1 = fgs.getD s.node [] := congrArg Prod.fst hen'
      exact hne' (by rw [h1, hnj])
  | swap node2 hj hpath hlim =>
    obtain ⟨hn2, hle2⟩ := chain_swap_node hchain hnode hpath
    refine ⟨?_, ?_, ?_, ?_, ?_, ?_⟩
    · exact hms
    · dsimp only
      omega
    · dsimp only
      omega
    · dsimp only
      rw [hn2]
      omega
    · intro h
      exact h
    · intro hz
      obtain ⟨hz1, hz2, hz3⟩ := hz
      dsimp only at hz3
      omega
  | ins hj hgw hlim =>
    refine ⟨?_, ?_, ?_, ?_, ?_, ?_⟩
    · exact hms
    · dsimp only
      omega
    · dsimp only
      omega
    · dsimp only
      omega
    · intro h
      exfalso
      have hd : s.matched_start ≠ s.matched_end ∨ s.matched_start ≠ s.j := by
        simpa using hgw
      have h' : s.matched_end = s.matched_start := h
      rcases hd with hd | hd
      · exact hd h'.symm
      · exact hd (hwin h').symm
    · intro hz
      obtain ⟨hz1, hz2, hz3⟩ := hz
      dsimp only at hz1
      omega
  | del en hen hlim =>
    obtain ⟨hlt, hen'⟩ := chain_mem_trans hchain hnode hen
    have hn2 : en.2 = s.node + 1 := congrArg Prod.snd hen'
    refine ⟨?_, ?_, ?_, ?_, ?_, ?_⟩
    · exact hms
    · exact hmej
    · exact hjle
    · dsimp only
      rw [hn2]
      omega
    · exact hwin
    · intro hz
      obtain ⟨hz1, hz2, hz3⟩ := hz
      dsimp only at hz2
      omega

/-- The queue-layer measure: node position plus insertions minus swaps.
Every transition of the chain increases it by exactly one, so the FIFO
queue processes states in nondecreasing measure. -/
def Dm (s : SState) : ℤ := (s.node : ℤ) + (s.insertions : ℤ) - (s.swaps : ℤ)

theorem dm_exactSt (k : Nat) : Dm (exactSt k) = (k : ℤ) := by
  unfold Dm exactSt
  dsimp only
  push_cast
  ring

theorem step_Dm {A : FuzzyAhoCorasick} {fgs : List G} {s c : SState}
    (hchain : ChainOf A fgs) (hnode : s.node ≤ fgs.length)
    (hstep : Step A fgs s c) : Dm c = Dm s + 1 := by
  unfold Dm
  cases hstep with
  | exact en hj hen heq =>
    obtain ⟨hlt, hen'⟩ := chain_mem_trans hchain hnode hen
    have hn2 : en.2 = s.node + 1 := congrArg Prod.snd hen'
    dsimp only
    rw [hn2]
    push_cast
    ring
  | subst en hj hen hne' hlim =>
    obtain ⟨hlt, hen'⟩ := chain_mem_trans hchain hnode hen
    have hn2 : en.2 = s.node + 1 := congrArg Prod.snd hen'
    dsimp only
    rw [hn2]
    push_cast
    ring
  | swap node2 hj hpath hlim =>
    obtain ⟨hn2, hle2⟩ := chain_swap_node hchain hnode hpath
    dsimp only
    rw [hn2]
    push_cast
    ring
  | ins hj hgw hlim =>
    dsimp only
    push_cast
    ring
  | del en hen hlim =>
    obtain ⟨hlt, hen'⟩ := chain_mem_trans hchain hnode hen
    have hn2 : en.2 = s.node + 1 := congrArg Prod.snd hen'
    dsimp only
    rw [hn2]
    push_cast
    ring

/-- The BFS queue order: measures are nondecreasing front to back and all
within one of each other (the queue spans at most two layers). -/
def QOrd (q : List SState) : Prop :=
  List.Pairwise (fun a b => Dm a ≤ Dm b) q ∧ ∀ a ∈ q, ∀ b ∈ q, Dm b ≤ Dm a + 1

theorem qord_singleton (s : SState) : QOrd [s] := by
  constructor
  · exact List.Pairwise.cons (fun b hb => absurd hb (List.not_mem_nil _)) List.Pairwise.nil
  · intro a ha b hb
    rw [List.mem_singleton.mp ha, List.mem_singleton.mp hb]
    omega

theorem qord_tail {s : SState} {t : List SState} (h : QOrd (s :: t)) : QOrd t :=
  ⟨(List.pairwise_cons.mp h.1).2, fun a ha b hb =>
    h.2 a (List.mem_cons_of_mem _ ha) b (List.mem_cons_of_mem _ hb)⟩

theorem qord_head_le {s : SState} {t : List SState} (h : QOrd (s :: t)) {x : SState}
    (hx : x ∈ t) : Dm s ≤ Dm x := (List.pairwise_cons.mp h.1).1 x hx

theorem qord_expand {s : SState} {t ch : List SState} (h : QOrd (s :: t))
    (hch : ∀ c ∈ ch, Dm c = Dm s + 1) : QOrd (t ++ ch) := by
  obtain ⟨hp, hw⟩ := h
  obtain ⟨hhead, htail⟩ := List.pairwise_cons.mp hp
  have hbnd : ∀ x ∈ t ++ ch, Dm s ≤ Dm x ∧ Dm x ≤ Dm s + 1 := by
    intro x hx
    rcases List.mem_append.mp hx with hx | hx
    · exact ⟨hhead x hx,
        hw s (List.mem_cons_self ..) x (List.mem_cons_of_mem _ hx)⟩
    · rw [hch x hx]
      omega
  refine ⟨?_, ?_⟩
  · rw [List.pairwise_append]
    refine ⟨htail, ?_, ?_⟩
    · exact List.pairwise_of_forall_mem_list
        (fun a ha b hb => le_of_eq (by rw [hch a ha, hch b hb]))
    · intro a ha b hb
      have h1 := (hbnd a (List.mem_append_left _ ha)).2
      rw [hch b hb]
      exact h1
  · intro a ha b hb
    have h1 := (hbnd a ha).1
    have h2 := (hbnd b hb).2
    omega

/-- A state strictly below the exact walk's layer, other than the completed
exact walk itself, cannot place an entry at the full-pattern key: the
threshold-1 filter forces zero penalty, the positive swap cost then forces
zero swaps, the full-span key forces the cursor to the end, and the balance
equation pins every edit count to zero. -/
theorem emitState_no_new_fullkey {A : FuzzyAhoCorasick} {gs fgs : List G}
    (hchain : ChainOf A fgs) (hlen : fgs.length = gs.length)
    (hg : ∀ x ∈ gs, x ≠ []) (hne : gs ≠ [])
    (hplen : (patternAt A 0).grapheme_len = gs.length)
    (hpw : (patternAt A 0).weight = 1) (hswp : 0 < A.penalties.swap)
    {s : SState} (hs : WInv0 A fgs s) (hdm : Dm s ≤ (fgs.length : ℤ))
    (hneq : s ≠ exactSt fgs.length) {best : Best} (hnf : NoFull gs best) :
    NoFull gs (emitState A gs 1 s best) := by
  obtain ⟨⟨hnode, hpos, hswb⟩, hsum, hms, hmej, hjle, hbal, hwin, hlock⟩ := hs
  rcases emitState_chain hchain hnode gs 1 best with he | ⟨hnL, he⟩
  · rw [he]
    exact hnf
  · rw [he]
    rcases emitOne_cases A gs 1 s best 0 with ho | ⟨hsim, ho⟩
    · rw [ho]
      exact hnf
    · rw [ho]
      intro m hm
      by_cases hkey : (startByte gs s, endByte gs s, 0) = fullKey gs
      · -- the emission would sit at the full key: then s is the completed
        -- exact walk, contradicting hneq
        have hL : (0 : ℚ) < (gs.length : ℚ) := by
          exact_mod_cast List.length_pos.mpr hne
        have h1 : (1 : ℚ) ≤ emissionSim A s 0 := not_lt.mp hsim
        unfold emissionSim at h1
        dsimp only at h1
        rw [hplen, hpw, mul_one] at h1
        have h2 : (1 : ℚ) * (gs.length : ℚ) ≤ (gs.length : ℚ) - s.penalties :=
          (le_div_iff₀ hL).mp h1
        have hpen0 : s.penalties = 0 := le_antisymm (by linarith) hpos
        have hsw0 : s.swaps = 0 := by
          by_contra hne0
          have h3 : (1 : ℚ) ≤ (s.swaps : ℚ) := by
            exact_mod_cast Nat.one_le_iff_ne_zero.mpr hne0
          have h4 : A.penalties.swap * 1 ≤ A.penalties.swap * (s.swaps : ℚ) :=
            mul_le_mul_of_nonneg_left h3 (le_of_lt hswp)
          rw [hpen0] at hswb
          linarith
        have hendb : endByte gs s = (haystackBytes gs).length :=
          congrArg (fun q => q.2.1) hkey
        have hme : s.matched_end = gs.length := by
          by_contra hme'
          have hmelt : s.matched_end < gs.length := by omega
          unfold endByte at hendb
          rw [if_pos hmelt] at hendb
          have := byteOffset_lt_total gs hg hmelt
          omega
        have hj' : s.j = gs.length := by omega
        have hins0 : s.insertions = 0 := by
          unfold Dm at hdm
          omega
        have hdel0 : s.deletions = 0 := by omega
        have hsub0 : s.substitutions = 0 := hlock ⟨hins0, hdel0, hsw0⟩
        have hed0 : s.edits = 0 := by
          unfold StateEditSum at hsum
          omega
        apply hneq
        have hjf : s.j = fgs.length := by omega
        have hmef : s.matched_end = fgs.length := by omega
        cases s with
        | mk n j2 ms2 me2 p e i d su sw =>
          dsimp only at hnL hjf hms hmef hpen0 hed0 hins0 hdel0 hsub0 hsw0
          subst hnL hjf hms hmef hpen0 hed0 hins0 hdel0 hsub0 hsw0
          rfl
      · exact hnf m (mem_bestUpdate_ne (fun h => hkey h.symm) hm)

/-- Once the best table holds the exact full-span match, every later
emission keeps it: all similarities stay at most 1 and ties never replace. -/
theorem emitState_keepGood {A : FuzzyAhoCorasick} {gs fgs : List G}
    (hchain : ChainOf A fgs) (hne : gs ≠ [])
    (hplen : (patternAt A 0).grapheme_len = gs.length)
    (hpw : (patternAt A 0).weight = 1)
    {s : SState} (hnode : s.node ≤ fgs.length) (hpen : 0 ≤ s.penalties)
    {best : Best} (hgd : GoodAt gs best) : GoodAt gs (emitState A gs 1 s best) := by
  rcases emitState_chain hchain hnode gs 1 best with he | ⟨hnL, he⟩
  · rw [he]
    exact hgd
  · rw [he]
    rcases emitOne_cases A gs 1 s best 0 with ho | ⟨hsim, ho⟩
    · rw [ho]
      exact hgd
    · rw [ho]
      obtain ⟨m, hmem, hc9⟩ := hgd
      refine ⟨m, bestUpdate_keep hmem ?_, hc9⟩
      have h1 : (emissionMatch A gs s 0).similarity = emissionSim A s 0 := rfl
      rw [h1, hc9.2.2.2.2.2.1]
      exact emissionSim_le_one hplen hne hpw hpen

theorem bfsLoop_keepGood {A : FuzzyAhoCorasick} {gs fgs : List G}
    (hchain : ChainOf A fgs) (hne : gs ≠ []) (hbw : A.beam_width = none)
    (hplen : (patternAt A 0).grapheme_len = gs.length)
    (hpw : (patternAt A 0).weight = 1)
    (hip : 0 ≤ A.penalties.insertion) (hdp : 0 ≤ A.penalties.deletion)
    (hswp : 0 ≤ A.penalties.swap) (hsubn : SubNonneg A fgs) :
    ∀ (fuel : Nat) (rest : List SState) (best final : Best),
      bfsLoop A gs fgs 1 fuel rest best = some final →
      (∀ y ∈ rest, WInvAll A fgs.length y) →
      GoodAt gs best → GoodAt gs final := by
  intro fuel
  induction fuel with
  | zero =>
    intro rest best final hrun hq hgd
    unfold bfsLoop at hrun
    rw [hbw, beamPrune_none] at hrun
    cases rest with
    | nil =>
      dsimp only at hrun
      cases hrun
      exact hgd
    | cons s tail =>
      dsimp only at hrun
      cases hrun
  | succ n ih =>
    intro rest best final hrun hq hgd
    unfold bfsLoop at hrun
    rw [hbw, beamPrune_none] at hrun
    cases rest with
    | nil =>
      dsimp only at hrun
      cases hrun
      exact hgd
    | cons s tail =>
      dsimp only at hrun
      have hqs := hq _ (List.mem_cons_self ..)
      have hqt : ∀ y ∈ tail, WInvAll A fgs.length y :=
        fun y hy => hq _ (List.mem_cons_of_mem _ hy)
      by_cases hpr : maxPossibleSim A s.penalties < 1
      · rw [if_pos hpr] at hrun
        exact ih _ _ _ hrun hqt hgd
      · rw [if_neg hpr] at hrun
        refine ih _ _ _ hrun ?_
          (emitState_keepGood hchain hne hplen hpw hqs.1 hqs.2.1 hgd)
        intro y hy
        rcases List.mem_append.mp hy with hy | hy
        · exact hqt y hy
        · exact winvAll_step hchain hip hdp hswp hsubn hqs (step_of_mem hy)

theorem runSeeds_keepGood {A : FuzzyAhoCorasick} {gs fgs : List G}
    (hchain : ChainOf A fgs) (hne : gs ≠ []) (hbw : A.beam_width = none)
    (hplen : (patternAt A 0).grapheme_len = gs.length)
    (hpw : (patternAt A 0).weight = 1)
    (hip : 0 ≤ A.penalties.insertion) (hdp : 0 ≤ A.penalties.deletion)
    (hswp : 0 ≤ A.penalties.swap) (hsubn : SubNonneg A fgs) :
    ∀ (seeds : List Nat) (fuel : Nat) (best final : Best),
      runSeeds A gs fgs 1 fuel seeds best = some final →
      GoodAt gs best → GoodAt gs final := by
  intro seeds
  induction seeds with
  | nil =>
    intro fuel best final hrun hgd
    cases hrun
    exact hgd
  | cons st rest ih =>
    intro fuel best final hrun hgd
    unfold runSeeds at hrun
    cases hl : bfsLoop A gs fgs 1 fuel [initState st] best with
    | none =>
      rw [hl] at hrun
      cases hrun
    | some b' =>
      rw [hl] at hrun
      refine ih _ _ _ hrun
        (bfsLoop_keepGood hchain hne hbw hplen hpw hip hdp hswp hsubn
          fuel _ _ _ hl ?_ hgd)
      intro y hy
      rcases List.mem_singleton.mp hy with rfl
      exact ⟨Nat.zero_le _, le_refl 0, by simp [initState]⟩

theorem bfsLoop_c9_liveW {A : FuzzyAhoCorasick} {gs fgs : List G}
    (hchain : ChainOf A fgs) (hlen : fgs.length = gs.length) (hne : gs ≠ [])
    (hg : ∀ x ∈ gs, x ≠ []) (hbw : A.beam_width = none)
    (hL1 : 1 ≤ A.max_pattern_grapheme_len)
    (hplen : (patternAt A 0).grapheme_len = gs.length)
    (hpw : (patternAt A 0).weight = 1)
    (hip : 0 ≤ A.penalties.insertion) (hdp : 0 ≤ A.penalties.deletion)
    (hswp : 0 < A.penalties.swap) (hsubn : SubNonneg A fgs) :
    ∀ (fuel : Nat) (rest : List SState) (best final : Best),
      bfsLoop A gs fgs 1 fuel rest best = some final →
      (∀ y ∈ rest, WInv0 A fgs y) → QOrd rest →
      (GoodAt gs best ∨
        (NoFull gs best ∧ ∃ k, k ≤ fgs.length ∧ exactSt k ∈ rest)) →
      GoodAt gs final := by
  intro fuel
  induction fuel with
  | zero =>
    intro rest best final hrun hq hord hinv
    unfold bfsLoop at hrun
    rw [hbw, beamPrune_none] at hrun
    cases rest with
    | nil =>
      dsimp only at hrun
      cases hrun
      rcases hinv with hgd | ⟨_, k, _, hmem⟩
      · exact hgd
      · cases hmem
    | cons s tail =>
      dsimp only at hrun
      cases hrun
  | succ n ih =>
    intro rest best final hrun hq hord hinv
    unfold bfsLoop at hrun
    rw [hbw, beamPrune_none] at hrun
    cases rest with
    | nil =>
      dsimp only at hrun
      cases hrun
      rcases hinv with hgd | ⟨_, k, _, hmem⟩
      · exact hgd
      · cases hmem
    | cons s tail =>
      dsimp only at hrun
      have hqs := hq _ (List.mem_cons_self ..)
      have hqt : ∀ y ∈ tail, WInv0 A fgs y :=
        fun y hy => hq _ (List.mem_cons_of_mem _ hy)
      have hqexp : ∀ y ∈ tail ++ stepChildren A fgs s, WInv0 A fgs y := by
        intro y hy
        rcases List.mem_append.mp hy with hy | hy
        · exact hqt y hy
        · exact winv0_step hchain hip hdp (le_of_lt hswp) hsubn hqs (step_of_mem hy)
      have hoexp : QOrd (tail ++ stepChildren A fgs s) :=
        qord_expand hord (fun c hc => step_Dm hchain hqs.1.1 (step_of_mem hc))
      rcases hinv with hgd | ⟨hnf, k, hkle, hmem⟩
      · by_cases hpr : maxPossibleSim A s.penalties < 1
        · rw [if_pos hpr] at hrun
          exact bfsLoop_keepGood hchain hne hbw hplen hpw hip hdp (le_of_lt hswp)
            hsubn n tail best final hrun (fun y hy => (hqt y hy).1) hgd
        · rw [if_neg hpr] at hrun
          exact bfsLoop_keepGood hchain hne hbw hplen hpw hip hdp (le_of_lt hswp)
            hsubn n _ _ final hrun (fun y hy => (hqexp y hy).1)
            (emitState_keepGood hchain hne hplen hpw hqs.1.1 hqs.1.2.1 hgd)
      · cases hmem with
        | tail _ htl =>
          by_cases hpr : maxPossibleSim A s.penalties < 1
          · rw [if_pos hpr] at hrun
            exact ih _ _ _ hrun hqt (qord_tail hord) (Or.inr ⟨hnf, k, hkle, htl⟩)
          · rw [if_neg hpr] at hrun
            by_cases hse : s = exactSt fgs.length
            · subst hse
              rw [exactSt_emit_eq hchain hlen hne hplen hpw] at hrun
              have hgd' : GoodAt gs (bestUpdate best (fullKey gs)
                  (emissionMatch A gs (exactSt fgs.length) 0)) :=
                ⟨_, bestUpdate_mem_absent (fun m0 => hnf m0),
                  exact_match_good hlen hne hplen hpw⟩
              exact bfsLoop_keepGood hchain hne hbw hplen hpw hip hdp (le_of_lt hswp)
                hsubn n _ _ final hrun (fun y hy => (hqexp y hy).1) hgd'
            · have hdm : Dm s ≤ (fgs.length : ℤ) := by
                have h1 : Dm s ≤ Dm (exactSt k) := qord_head_le hord htl
                rw [dm_exactSt] at h1
                omega
              have hnf' : NoFull gs (emitState A gs 1 s best) :=
                emitState_no_new_fullkey hchain hlen hg hne hplen hpw hswp hqs
                  hdm hse hnf
              exact ih _ _ _ hrun hqexp hoexp
                (Or.inr ⟨hnf', k, hkle, List.mem_append_left _ htl⟩)
        | head =>
          rw [if_neg (exactSt_not_pruned hL1 k)] at hrun
          rcases Nat.lt_or_ge k fgs.length with hklt | hkge
          · have hemit : emitState A gs 1 (exactSt k) best = best :=
              emitState_nonterminal hchain hklt gs 1 best
            rw [hemit] at hrun
            exact ih _ _ _ hrun hqexp hoexp
              (Or.inr ⟨hnf, k + 1, hklt,
                List.mem_append_right _ (exactSt_child hchain hklt)⟩)
          · have hkL : k = fgs.length := le_antisymm hkle hkge
            subst hkL
            rw [exactSt_emit_eq hchain hlen hne hplen hpw] at hrun
            have hgd' : GoodAt gs (bestUpdate best (fullKey gs)
                (emissionMatch A gs (exactSt fgs.length) 0)) :=
              ⟨_, bestUpdate_mem_absent (fun m0 => hnf m0),
                exact_match_good hlen hne hplen hpw⟩
            exact bfsLoop_keepGood hchain hne hbw hplen hpw hip hdp (le_of_lt hswp)
              hsubn n _ _ final hrun (fun y hy => (hqexp y hy).1) hgd'

theorem runSeeds_c9_liveW {A : FuzzyAhoCorasick} {gs fgs : List G}
    (hchain : ChainOf A fgs) (hlen : fgs.length = gs.length) (hne : gs ≠ [])
    (hg : ∀ x ∈ gs, x ≠ []) (hbw : A.beam_width = none)
    (hL1 : 1 ≤ A.max_pattern_grapheme_len)
    (hplen : (patternAt A 0).grapheme_len = gs.length)
    (hpw : (patternAt A 0).weight = 1)
    (hip : 0 ≤ A.penalties.insertion) (hdp : 0 ≤ A.penalties.deletion)
    (hswp : 0 < A.penalties.swap) (hsubn : SubNonneg A fgs) :
    ∀ (seeds : List Nat) (fuel : Nat) (best final : Best),
      runSeeds A gs fgs 1 fuel (0 :: seeds) best = some final →
      NoFull gs best → GoodAt gs final := by
  intro seeds fuel best final hrun hnf
  unfold runSeeds at hrun
  cases hl : bfsLoop A gs fgs 1 fuel [initState 0] best with
  | none =>
    rw [hl] at hrun
    cases hrun
  | some b' =>
    rw [hl] at hrun
    have hgd : GoodAt gs b' :=
      bfsLoop_c9_liveW hchain hlen hne hg hbw hL1 hplen hpw hip hdp hswp hsubn
        fuel [initState 0] best b' hl
        (by
          intro y hy
          rcases List.mem_singleton.mp hy with rfl
          exact ⟨⟨Nat.zero_le _, le_refl 0, by simp [initState]⟩, rfl, rfl,
            le_refl 0, Nat.zero_le _, rfl, fun _ => rfl, fun _ => rfl⟩)
        (qord_singleton _)
        (Or.inr ⟨hnf, 0, Nat.zero_le _, by
          rw [← exactSt_zero]
          exact List.mem_singleton.mpr rfl⟩)
    exact runSeeds_keepGood hchain hne hbw hplen hpw hip hdp (le_of_lt hswp) hsubn
      seeds fuel b' final hrun hgd

/-- Claim C9 (amended): for an automaton in the chain shape `build` produces
for one non-empty pattern with weight 1 and non-empty grapheme clusters,
with a strictly positive swap penalty, nonnegative insertion and deletion
penalties and nonnegative substitution costs between the folded pattern's
distinct graphemes, any case-folding setting, and either no beam or a beam
of width at least 1 with strictly positive penalties, searching the
pattern's own grapheme list at threshold 1 yields at least one match with
similarity exactly 1, matched text equal to the full pattern bytes, every
edit count 0 and the full byte span.  The original claim (any penalties) is
false: with a zero swap cost the transposition of the two equal graphemes
of `aa` reaches the terminal node with similarity 1 one queue layer before
the exact path, and the keyed best table keeps the first entry on ties (see
the counterexample). -/
theorem C9_exact_match_admits (A : FuzzyAhoCorasick) (lower : G → G)
    (gs fgs : List G) (fuel : Nat) (res : FuzzyMatches)
    (hne : gs ≠ []) (hg : ∀ x ∈ gs, x ≠ [])
    (hfold : (if A.case_insensitive then gs.map lower else gs) = fgs)
    (hchain : ChainOf A fgs)
    (hplen : (patternAt A 0).grapheme_len = gs.length)
    (hpw : (patternAt A 0).weight = 1)
    (hLmax : A.max_pattern_grapheme_len = gs.length)
    (hswap : 0 < A.penalties.swap)
    (hins : 0 ≤ A.penalties.insertion) (hdel : 0 ≤ A.penalties.deletion)
    (hsub : SubNonneg A fgs)
    (hbeam : A.beam_width = none ∨
      ((∀ b, A.beam_width = some b → 1 ≤ b) ∧ PosPen A fgs))
    (hrun : search A lower gs 1 fuel = some res) :
    ∃ m ∈ res.inner, m.similarity = 1 ∧ m.text = haystackBytes gs ∧
      m.edits = 0 ∧ m.insertions = 0 ∧ m.deletions = 0 ∧ m.substitutions = 0 ∧
      m.swaps = 0 ∧ m.start = 0 ∧ m.end_ = (haystackBytes gs).length ∧
      m.pattern_index = 0 := by
  have hlen : fgs.length = gs.length := by
    rw [← hfold]
    cases hci : A.case_insensitive
    · simp
    · simp
  have hL1 : 1 ≤ A.max_pattern_grapheme_len := by
    rw [hLmax]
    exact List.length_pos.mpr hne
  unfold search at hrun
  cases hu : search_unsorted A lower gs 1 fuel with
  | none => rw [hu] at hrun; cases hrun
  | some ru =>
    rw [hu] at hrun
    cases hrun
    have hkey : ∃ m0 ∈ ru.inner, C9Best gs m0 := by
      unfold search_unsorted at hu
      have hie : gs.isEmpty = false := by
        cases gs with
        | nil => exact absurd rfl hne
        | cons a l => rfl
      rw [if_neg (by rw [hie]; exact Bool.false_ne_true)] at hu
      dsimp only at hu
      rw [hfold] at hu
      obtain ⟨tl, htl⟩ : ∃ tl, List.range fgs.length = 0 :: tl := by
        cases hfl : fgs.length with
        | zero =>
          rw [hlen] at hfl
          exact absurd (List.length_eq_zero.mp hfl) hne
        | succ L2 =>
          exact ⟨(List.range L2).map Nat.succ, by rw [List.range_succ_eq_map]⟩
      rw [htl] at hu
      cases hseeds : runSeeds A gs fgs 1 fuel (0 :: tl) [] with
      | none => rw [hseeds] at hu; cases hu
      | some bestf =>
        rw [hseeds] at hu
        cases hu
        rcases hbeam with hbw | ⟨hbw1, hpp⟩
        · -- no beam: the full-key entry of the final table is the good match
          have hgood : GoodAt gs bestf :=
            runSeeds_c9_liveW hchain hlen hne hg hbw hL1 hplen hpw hins hdel
              hswap hsub tl fuel [] bestf hseeds (by intro m h; cases h)
          obtain ⟨m, hm, hc9⟩ := hgood
          refine ⟨{ m with text := byteSlice (haystackBytes gs) m.start m.end_ },
            List.mem_map_of_mem _ hm, ?_⟩
          obtain ⟨h1, h2, h3, h4, h5, h6, h7, h8, _, h10⟩ := hc9
          refine ⟨h1, h2, h3, h4, h5, h6, h7, h8, ?_, h10⟩
          show byteSlice (haystackBytes gs) m.start m.end_ = haystackBytes gs
          rw [h7, h8]
          exact byteSlice_full _
        · -- beam of width at least 1, strict penalties: the table is
          -- non-empty and every entry is the good match
          have hbf : bestf ≠ [] :=
            runSeeds_c9_liveB hchain hlen hne hbw1 hL1 hpp hplen hpw tl fuel
              [] bestf hseeds
          have hall : ∀ e ∈ bestf, C9Best gs e.2 :=
            runSeeds_inv (C9Inv fgs.length) (fun _ m => C9Best gs m)
              (fun s c hsi hstep => c9Inv_step hchain hpp hsi hstep)
              (fun s k m hsi he => c9_emit hchain hlen hne hplen hpw hsi he)
              (0 :: tl) [] bestf hseeds
              (by
                intro st hst
                rw [← htl] at hst
                have hstlt : st < fgs.length := List.mem_range.mp hst
                exact ⟨Nat.zero_le _, le_refl 0, fun _ =>
                  ⟨rfl, rfl, rfl, rfl, rfl, rfl, rfl, Nat.le_of_lt hstlt⟩⟩)
              (by intro e he; cases he)
          obtain ⟨km, hkm⟩ := List.exists_mem_of_ne_nil _ hbf
          obtain ⟨h1, h2, h3, h4, h5, h6, h7, h8, _, h10⟩ := hall km hkm
          refine ⟨{ km.2 with
              text := byteSlice (haystackBytes gs) km.2.start km.2.end_ },
            List.mem_map_of_mem _ hkm, ?_⟩
          refine ⟨h1, h2, h3, h4, h5, h6, h7, h8, ?_, h10⟩
          show byteSlice (haystackBytes gs) km.2.start km.2.end_ = haystackBytes gs
          rw [h7, h8]
          exact byteSlice_full _
    obtain ⟨m0, hm0, hc9⟩ := hkey
    obtain ⟨h1, h2, h3, h4, h5, h6, h7, h8, h9, h10⟩ := hc9
    exact ⟨m0, mem_default_sort.mpr hm0, h6, h9, h1, h2, h3, h4, h5, h7, h8, h10⟩

/-- Automaton for the single pattern `aa` (weight 1) with global limits
`edits(2)` and a swap penalty of 0 (the trie `build` produces for it). -/
def autC9 : FuzzyAhoCorasick :=
  { nodes :=
      [ { transitions := [(gA, 1)] },
        { pattern_index := some 0, transitions := [(gA, 2)], weight := 1/2 },
        { pattern_index := some 0, output := [0], weight := 1 } ],
    patterns := [{ grapheme_len := 2, pattern := [gA, gA] }],
    limits := some lim2,
    penalties := { swap := 0 },
    max_pattern_grapheme_len := 2 }

section
attribute [local semireducible] Rat.mul Rat.add Rat.sub Rat.inv
set_option maxRecDepth 100000

/-- Counterexample to C9 as stated (arbitrary penalties): pattern `aa`
with weight 1, `edits(2)` and swap penalty 0, searched on its own text
at threshold 1.  The zero-cost swap of the two equal graphemes reaches
the terminal node with similarity 1 before the exact path does; the keyed
best table keeps the first entry on ties, so the single returned match has
`swaps = 1`, `edits = 1` — no returned match has all edit counts 0. -/
theorem C9_exact_match_admits_counterexample :
    ((search autC9 id [gA, gA] 1 50).getD ⟨[], []⟩).inner ≠ [] ∧
    ∀ m ∈ ((search autC9 id [gA, gA] 1 50).getD ⟨[], []⟩).inner,
      ¬(m.similarity = 1 ∧ m.text = haystackBytes [gA, gA] ∧ m.edits = 0 ∧
        m.insertions = 0 ∧ m.deletions = 0 ∧ m.substitutions = 0 ∧ m.swaps = 0) := by
  constructor
  · decide
  · decide

/-- Witness for the amended C9 at a concrete chain automaton (`ab`,
default positive penalties, `edits(2)`, no beam). -/
theorem C9_exact_match_admits_witness :
    ∃ m ∈ ((search autAB id [gA, gB] 1 50).getD ⟨[], []⟩).inner,
      m.similarity = 1 ∧ m.text = haystackBytes [gA, gB] ∧
      m.edits = 0 ∧ m.insertions = 0 ∧ m.deletions = 0 ∧ m.substitutions = 0 ∧
      m.swaps = 0 ∧ m.start = 0 ∧ m.end_ = (haystackBytes [gA, gB]).length ∧
      m.pattern_index = 0 :=
  C9_exact_match_admits autAB id [gA, gB] [gA, gB] 50
    ((search autAB id [gA, gB] 1 50).getD ⟨[], []⟩)
    (by decide) (by decide) (by decide) (by unfold ChainOf; decide) (by decide)
    (by decide) (by decide) (by decide) (by decide) (by decide)
    (by unfold SubNonneg; decide) (Or.inl rfl) (by decide)

end

/-! ### Claim C7: termination of the search -/

/-- Every limits object the search can consult: the automaton's global
limits and each pattern's own limits. -/
def allLimits (A : FuzzyAhoCorasick) : List FuzzyLimits :=
  A.limits.toList ++ A.patterns.filterMap (fun p => p.limits)

/-- The shape `FuzzyLimits::finalize` guarantees: either a global edit bound
is set, or every individual kind is bounded. -/
def FinalizedL (l : FuzzyLimits) : Prop :=
  l.edits.isSome = true ∨
    (l.insertions.isSome = true ∧ l.deletions.isSome = true ∧
     l.substitutions.isSome = true ∧ l.swaps.isSome = true)

/-- The largest bound stored in one limits object. -/
def limBound (l : FuzzyLimits) : Nat :=
  max (l.edits.getD 0) (max (l.insertions.getD 0) (max (l.deletions.getD 0)
    (max (l.substitutions.getD 0) (l.swaps.getD 0))))

/-- The largest bound stored anywhere in the automaton's limits. -/
def maxLimBound (A : FuzzyAhoCorasick) : Nat :=
  (allLimits A).foldr (fun l acc => max (limBound l) acc) 0

/-- The largest out-degree of a node. -/
def maxTrans (A : FuzzyAhoCorasick) : Nat :=
  A.nodes.foldr (fun nd acc => max nd.transitions.length acc) 0

theorem foldr_max_le {α : Type} (f : α → Nat) :
    ∀ (l : List α) (a : α), a ∈ l →
      f a ≤ l.foldr (fun x acc => max (f x) acc) 0 := by
  intro l
  induction l with
  | nil => intro a ha; cases ha
  | cons x xs ih =>
    intro a ha
    cases ha with
    | head => exact Nat.le_max_left _ _
    | tail _ htl => exact le_trans (ih a htl) (Nat.le_max_right _ _)

theorem limBound_le {A : FuzzyAhoCorasick} {mx : FuzzyLimits}
    (h : mx ∈ allLimits A) : limBound mx ≤ maxLimBound A :=
  foldr_max_le limBound (allLimits A) mx h

theorem trans_length_le (A : FuzzyAhoCorasick) (n : Nat) :
    (nodeAt A n).transitions.length ≤ maxTrans A := by
  unfold nodeAt
  cases hn : A.nodes.get? n with
  | none =>
    rw [List.getD_eq_getD_get?, hn]
    exact Nat.zero_le _
  | some nd =>
    rw [List.getD_eq_getD_get?, hn]
    exact foldr_max_le (fun nd => nd.transitions.length) A.nodes nd (List.get?_mem hn)

/-- If the search consults a concrete limits object at some node, that
object occurs in `allLimits`. -/
theorem orLimits_mem {A : FuzzyAhoCorasick} {n : Nat} {mx : FuzzyLimits}
    (h : (get_node_limits A n).or A.limits = some mx) : mx ∈ allLimits A := by
  cases hg : get_node_limits A n with
  | none =>
    rw [hg] at h
    refine List.mem_append_left _ ?_
    rw [show Option.or none A.limits = A.limits from rfl] at h
    rw [h]
    exact List.mem_singleton.mpr rfl
  | some mx' =>
    rw [hg] at h
    have hmx : mx' = mx := by
      cases h
      rfl
    subst hmx
    refine List.mem_append_right _ ?_
    unfold get_node_limits at hg
    cases hpi : (nodeAt A n).pattern_index with
    | none => rw [hpi] at hg; cases hg
    | some i =>
      rw [hpi] at hg
      dsimp only [Option.bind] at hg
      cases hp : A.patterns.get? i with
      | none => rw [hp] at hg; cases hg
      | some p =>
        rw [hp] at hg
        dsimp only [Option.bind] at hg
        exact List.mem_filterMap.mpr ⟨p, List.get?_mem hp, hg⟩

/-- The termination invariant: the edit-sum identity, every individual count
bounded by the largest stored bound plus one, and the position inside the
haystack. -/
def KInv (A : FuzzyAhoCorasick) (len : Nat) (s : SState) : Prop :=
  s.edits = s.insertions + s.deletions + s.substitutions + s.swaps ∧
  s.insertions ≤ maxLimBound A + 1 ∧ s.deletions ≤ maxLimBound A + 1 ∧
  s.substitutions ≤ maxLimBound A + 1 ∧ s.swaps ≤ maxLimBound A + 1 ∧
  s.j ≤ len

theorem limBound_edits (l : FuzzyLimits) : l.edits.getD 0 ≤ limBound l := by
  unfold limBound
  omega

theorem limBound_ins (l : FuzzyLimits) : l.insertions.getD 0 ≤ limBound l := by
  unfold limBound
  omega

theorem limBound_del (l : FuzzyLimits) : l.deletions.getD 0 ≤ limBound l := by
  unfold limBound
  omega

theorem limBound_subs (l : FuzzyLimits) : l.substitutions.getD 0 ≤ limBound l := by
  unfold limBound
  omega

theorem limBound_swaps (l : FuzzyLimits) : l.swaps.getD 0 ≤ limBound l := by
  unfold limBound
  omega

theorem ins_bound {A : FuzzyAhoCorasick}
    (hwf : ∀ mx ∈ allLimits A, FinalizedL mx) {n edits ins : Nat}
    (hg : within_limits_insertion_ahead A (get_node_limits A n) edits ins = true) :
    edits < maxLimBound A ∨ ins < maxLimBound A := by
  unfold within_limits_insertion_ahead at hg
  cases ho : (get_node_limits A n).or A.limits with
  | none =>
    rw [ho] at hg
    cases hg
  | some mx =>
    rw [ho] at hg
    rw [Bool.and_eq_true] at hg
    obtain ⟨h1, h2⟩ := hg
    have hle : limBound mx ≤ maxLimBound A := limBound_le (orLimits_mem ho)
    rcases hwf mx (orLimits_mem ho) with he | ⟨hi, _, _, _⟩
    · obtain ⟨m, hm⟩ := Option.isSome_iff_exists.mp he
      rw [hm] at h1
      simp only [isNoneOr, decide_eq_true_eq] at h1
      left
      have hmB : m ≤ limBound mx := by
        have : mx.edits.getD 0 = m := by rw [hm]; rfl
        rw [← this]
        exact limBound_edits mx
      omega
    · obtain ⟨m, hm⟩ := Option.isSome_iff_exists.mp hi
      rw [hm] at h2
      simp only [isNoneOr, decide_eq_true_eq] at h2
      right
      have hmB : m ≤ limBound mx := by
        have : mx.insertions.getD 0 = m := by rw [hm]; rfl
        rw [← this]
        exact limBound_ins mx
      omega

theorem del_bound {A : FuzzyAhoCorasick}
    (hwf : ∀ mx ∈ allLimits A, FinalizedL mx) {n edits dels : Nat}
    (hg : within_limits_deletion_ahead A (get_node_limits A n) edits dels = true) :
    edits < maxLimBound A ∨ dels < maxLimBound A := by
  unfold within_limits_deletion_ahead at hg
  cases ho : (get_node_limits A n).or A.limits with
  | none =>
    rw [ho] at hg
    cases hg
  | some mx =>
    rw [ho] at hg
    rw [Bool.and_eq_true] at hg
    obtain ⟨h1, h2⟩ := hg
    have hle : limBound mx ≤ maxLimBound A := limBound_le (orLimits_mem ho)
    rcases hwf mx (orLimits_mem ho) with he | ⟨_, hd, _, _⟩
    · obtain ⟨m, hm⟩ := Option.isSome_iff_exists.mp he
      rw [hm] at h1
      simp only [isNoneOr, decide_eq_true_eq] at h1
      left
      have hmB : m ≤ limBound mx := by
        have : mx.edits.getD 0 = m := by rw [hm]; rfl
        rw [← this]
        exact limBound_edits mx
      omega
    · obtain ⟨m, hm⟩ := Option.isSome_iff_exists.mp hd
      rw [hm] at h2
      simp only [isNoneOr, decide_eq_true_eq] at h2
      right
      have hmB : m ≤ limBound mx := by
        have : mx.deletions.getD 0 = m := by rw [hm]; rfl
        rw [← this]
        exact limBound_del mx
      omega

theorem swap_bound {A : FuzzyAhoCorasick}
    (hwf : ∀ mx ∈ allLimits A, FinalizedL mx) {n edits swaps : Nat}
    (hg : within_limits_swap_ahead A (get_node_limits A n) edits swaps = true) :
    edits < maxLimBound A ∨ swaps < maxLimBound A := by
  unfold within_limits_swap_ahead at hg
  cases ho : (get_node_limits A n).or A.limits with
  | none =>
    rw [ho] at hg
    cases hg
  | some mx =>
    rw [ho] at hg
    rw [Bool.and_eq_true] at hg
    obtain ⟨h1, h2⟩ := hg
    have hle : limBound mx ≤ maxLimBound A := limBound_le (orLimits_mem ho)
    rcases hwf mx (orLimits_mem ho) with he | ⟨_, _, _, hw⟩
    · obtain ⟨m, hm⟩ := Option.isSome_iff_exists.mp he
      rw [hm] at h1
      simp only [isNoneOr, decide_eq_true_eq] at h1
      left
      have hmB : m ≤ limBound mx := by
        have : mx.edits.getD 0 = m := by rw [hm]; rfl
        rw [← this]
        exact limBound_edits mx
      omega
    · obtain ⟨m, hm⟩ := Option.isSome_iff_exists.mp hw
      rw [hm] at h2
      simp only [isNoneOr, decide_eq_true_eq] at h2
      right
      have hmB : m ≤ limBound mx := by
        have : mx.swaps.getD 0 = m := by rw [hm]; rfl
        rw [← this]
        exact limBound_swaps mx
      omega

theorem subst_bound {A : FuzzyAhoCorasick}
    (hwf : ∀ mx ∈ allLimits A, FinalizedL mx) {n edits subs : Nat}
    (hg : within_limits_subst A (get_node_limits A n) edits subs = true) :
    (edits ≤ maxLimBound A ∨ subs ≤ maxLimBound A) ∨ (edits = 0 ∧ subs = 0) := by
  unfold within_limits_subst at hg
  cases ho : (get_node_limits A n).or A.limits with
  | none =>
    rw [ho] at hg
    rw [Bool.and_eq_true] at hg
    obtain ⟨h1, h2⟩ := hg
    right
    exact ⟨by simpa using h1, by simpa using h2⟩
  | some mx =>
    rw [ho] at hg
    rw [Bool.and_eq_true] at hg
    obtain ⟨h1, h2⟩ := hg
    have hle : limBound mx ≤ maxLimBound A := limBound_le (orLimits_mem ho)
    left
    rcases hwf mx (orLimits_mem ho) with he | ⟨_, _, hsu, _⟩
    · obtain ⟨m, hm⟩ := Option.isSome_iff_exists.mp he
      rw [hm] at h1
      simp only [isNoneOr, decide_eq_true_eq] at h1
      left
      have hmB : m ≤ limBound mx := by
        have : mx.edits.getD 0 = m := by rw [hm]; rfl
        rw [← this]
        exact limBound_edits mx
      omega
    · obtain ⟨m, hm⟩ := Option.isSome_iff_exists.mp hsu
      rw [hm] at h2
      simp only [isNoneOr, decide_eq_true_eq] at h2
      right
      have hmB : m ≤ limBound mx := by
        have : mx.substitutions.getD 0 = m := by rw [hm]; rfl
        rw [← this]
        exact limBound_subs mx
      omega

theorem kInv_step {A : FuzzyAhoCorasick} {tc : List G} {s c : SState}
    (hwf : ∀ mx ∈ allLimits A, FinalizedL mx)
    (hs : KInv A tc.length s) (hstep : Step A tc s c) : KInv A tc.length c := by
  obtain ⟨hsum, hI, hD, hS, hW, hJ⟩ := hs
  cases hstep with
  | exact en hj hen heq =>
    exact ⟨hsum, hI, hD, hS, hW, hj⟩
  | subst en hj hen hne hlim =>
    rcases subst_bound hwf hlim with (hb | hb) | ⟨hz1, hz2⟩ <;>
      exact ⟨by dsimp only; omega, hI, hD, by dsimp only; omega, hW, hj⟩
  | swap node2 hj hpath hlim =>
    rcases swap_bound hwf hlim with hb | hb <;>
      exact ⟨by dsimp only; omega, hI, hD, hS, by dsimp only; omega, by dsimp only; omega⟩
  | ins hj hwin hlim =>
    rcases ins_bound hwf hlim with hb | hb <;>
      exact ⟨by dsimp only; omega, by dsimp only; omega, hD, hS, hW, hj⟩
  | del en hen hlim =>
    rcases del_bound hwf hlim with hb | hb <;>
      exact ⟨by dsimp only; omega, hI, by dsimp only; omega, hS, hW, hJ⟩

/-- Every transition strictly increases `j + edits`. -/
theorem step_nu {A : FuzzyAhoCorasick} {tc : List G} {s c : SState}
    (hstep : Step A tc s c) : s.j + s.edits + 1 ≤ c.j + c.edits := by
  cases hstep with
  | exact en hj hen heq => dsimp only; omega
  | subst en hj hen hne hlim => dsimp only; omega
  | swap node2 hj hpath hlim => dsimp only; omega
  | ins hj hwin hlim => dsimp only; omega
  | del en hen hlim => dsimp only; omega

theorem flatMap_length_le {α β : Type} (f : α → List β) :
    ∀ (l : List α), (∀ x, (f x).length ≤ 1) → (l.flatMap f).length ≤ l.length := by
  intro l
  induction l with
  | nil => intro _; simp
  | cons x xs ih =>
    intro h
    rw [List.flatMap_cons, List.length_append, List.length_cons]
    have := h x
    have := ih h
    omega

theorem exactSubstChildren_length (A : FuzzyAhoCorasick) (s : SState) (cg : G) :
    (exactSubstChildren A s cg).length ≤ maxTrans A := by
  unfold exactSubstChildren
  refine le_trans (flatMap_length_le _ _ ?_) (trans_length_le A s.node)
  intro en
  by_cases h1 : en.1 = cg
  · rw [if_pos h1]
    exact le_refl 1
  · rw [if_neg h1]
    by_cases h2 : within_limits_subst A (get_node_limits A s.node)
        s.edits s.substitutions = true
    · rw [if_pos h2]
      exact le_refl 1
    · rw [if_neg h2]
      exact Nat.zero_le 1

theorem swapChildren_length (A : FuzzyAhoCorasick) (tc : List G) (s : SState) :
    (swapChildren A tc s).length ≤ 1 := by
  unfold swapChildren
  by_cases hj : s.j + 1 < tc.length
  · rw [if_pos hj]
    cases hpath : (alGet (nodeAt A s.node).transitions (tc.getD (s.j + 1) [])).bind
        fun x => alGet (nodeAt A x).transitions (tc.getD s.j []) with
    | none => exact Nat.zero_le 1
    | some node2 =>
      dsimp only
      by_cases hl : within_limits_swap_ahead A (get_node_limits A node2)
          s.edits s.swaps = true
      · rw [if_pos hl]
        exact le_refl 1
      · rw [if_neg hl]
        exact Nat.zero_le 1
  · rw [if_neg hj]
    exact Nat.zero_le 1

theorem insChildren_length (A : FuzzyAhoCorasick) (s : SState) :
    (insChildren A s).length ≤ 1 := by
  unfold insChildren
  by_cases hg : ((s.matched_start ≠ s.matched_end || s.matched_start ≠ s.j) &&
      within_limits_insertion_ahead A (get_node_limits A s.node)
        s.edits s.insertions) = true
  · rw [if_pos hg]
    exact le_refl 1
  · rw [if_neg hg]
    exact Nat.zero_le 1

theorem delChildren_length (A : FuzzyAhoCorasick) (s : SState) :
    (delChildren A s).length ≤ maxTrans A := by
  unfold delChildren
  by_cases hl : within_limits_deletion_ahead A (get_node_limits A s.node)
      s.edits s.deletions = true
  · rw [if_pos hl]
    rw [List.length_map]
    exact trans_length_le A s.node
  · rw [if_neg hl]
    exact Nat.zero_le _

theorem stepChildren_length (A : FuzzyAhoCorasick) (tc : List G) (s : SState) :
    (stepChildren A tc s).length ≤ 2 * maxTrans A + 2 := by
  unfold stepChildren
  rw [List.length_append]
  have hdel := delChildren_length A s
  by_cases hj : s.j < tc.length
  · rw [if_pos hj]
    rw [List.length_append, List.length_append]
    have h1 := exactSubstChildren_length A s (tc.getD s.j [])
    have h2 := swapChildren_length A tc s
    have h3 := insChildren_length A s
    omega
  · rw [if_neg hj]
    simp only [List.length_nil]
    omega

/-- The termination potential of the unprocessed queue. -/
def pot (K N : Nat) (rest : List SState) : Nat :=
  (rest.map fun s => (K + 1) ^ (N + 1 - (s.j + s.edits))).sum

theorem pot_nil (K N : Nat) : pot K N [] = 0 := rfl

theorem pot_cons (K N : Nat) (s : SState) (l : List SState) :
    pot K N (s :: l) = (K + 1) ^ (N + 1 - (s.j + s.edits)) + pot K N l := by
  unfold pot
  rw [List.map_cons, List.sum_cons]

theorem pot_append (K N : Nat) (a b : List SState) :
    pot K N (a ++ b) = pot K N a + pot K N b := by
  unfold pot
  rw [List.map_append, List.sum_append]

theorem pot_sublist {K N : Nat} : ∀ {a b : List SState},
    a.Sublist b → pot K N a ≤ pot K N b := by
  intro a b h
  induction h with
  | slnil => exact le_refl 0
  | cons x _ ih =>
    rw [pot_cons]
    omega
  | cons₂ x _ ih =>
    rw [pot_cons, pot_cons]
    omega

theorem pot_perm {K N : Nat} {a b : List SState} (h : a.Perm b) :
    pot K N a = pot K N b := by
  unfold pot
  exact List.Perm.sum_eq (List.Perm.map _ h)

theorem pot_beamPrune (K N : Nat) (bw : Option Nat) (rest : List SState) :
    pot K N (beamPrune bw rest) ≤ pot K N rest := by
  unfold beamPrune
  cases bw with
  | none => exact le_refl _
  | some b =>
    dsimp only
    by_cases hl : b * 2 < rest.length
    · rw [if_pos hl]
      refine le_trans (pot_sublist (List.take_sublist _ _)) ?_
      rw [pot_perm (stableSortBy_perm penLe rest)]
    · rw [if_neg hl]

theorem sum_map_const {α : Type} (c : Nat) :
    ∀ l : List α, (l.map fun _ => c).sum = l.length * c := by
  intro l
  induction l with
  | nil => simp
  | cons x xs ih =>
    rw [List.map_cons, List.sum_cons, ih, List.length_cons]
    ring

theorem pot_children_le (A : FuzzyAhoCorasick) (tc : List G) (s : SState) {N : Nat}
    (hnu : s.j + s.edits ≤ N) :
    pot (2 * maxTrans A + 2) N (stepChildren A tc s) ≤
      (2 * maxTrans A + 2) * (2 * maxTrans A + 2 + 1) ^ (N - (s.j + s.edits)) := by
  have hterm : ∀ c ∈ stepChildren A tc s,
      (2 * maxTrans A + 2 + 1) ^ (N + 1 - (c.j + c.edits)) ≤
        (2 * maxTrans A + 2 + 1) ^ (N - (s.j + s.edits)) := by
    intro c hc
    have hν := step_nu (step_of_mem hc)
    exact Nat.pow_le_pow_right (by omega) (by omega)
  have hlen := stepChildren_length A tc s
  unfold pot
  calc (List.map (fun c => (2 * maxTrans A + 2 + 1) ^ (N + 1 - (c.j + c.edits)))
        (stepChildren A tc s)).sum
      ≤ (List.map (fun _ => (2 * maxTrans A + 2 + 1) ^ (N - (s.j + s.edits)))
        (stepChildren A tc s)).sum := by
        apply List.sum_le_sum
        intro c hc
        exact hterm c (by simpa using hc)
    _ = (stepChildren A tc s).length *
        (2 * maxTrans A + 2 + 1) ^ (N - (s.j + s.edits)) :=
        sum_map_const _ _
    _ ≤ (2 * maxTrans A + 2) * (2 * maxTrans A + 2 + 1) ^ (N - (s.j + s.edits)) :=
        Nat.mul_le_mul_right _ hlen

/-- With enough fuel — one unit per unit of potential — the search loop
always completes: every expansion trades one state for at most
`2 * maxTrans + 2` children, each strictly closer to the `j + edits`
ceiling. -/
theorem bfsLoop_total {A : FuzzyAhoCorasick} (hs tc : List G) (t : ℚ)
    (hwf : ∀ mx ∈ allLimits A, FinalizedL mx) :
    ∀ (fuel : Nat) (rest : List SState) (best : Best),
      (∀ s ∈ rest, KInv A tc.length s) →
      pot (2 * maxTrans A + 2) (tc.length + 4 * (maxLimBound A + 1)) rest ≤ fuel →
      (bfsLoop A hs tc t fuel rest best).isSome = true := by
  intro fuel
  induction fuel with
  | zero =>
    intro rest best hK hpot
    cases rest with
    | nil =>
      unfold bfsLoop
      rw [beamPrune_nil]
      rfl
    | cons s tail =>
      rw [pot_cons] at hpot
      have h1 : 1 ≤ (2 * maxTrans A + 2 + 1) ^
          (tc.length + 4 * (maxLimBound A + 1) + 1 - (s.j + s.edits)) :=
        Nat.one_le_pow _ _ (by omega)
      omega
  | succ n ih =>
    intro rest best hK hpot
    unfold bfsLoop
    cases hbp : beamPrune A.beam_width rest with
    | nil => rfl
    | cons s tail =>
      dsimp only
      have hKs : KInv A tc.length s :=
        hK _ (mem_beamPrune (by rw [hbp]; exact List.mem_cons_self ..))
      have hKtail : ∀ x ∈ tail, KInv A tc.length x := fun x hx =>
        hK _ (mem_beamPrune (by rw [hbp]; exact List.mem_cons_of_mem _ hx))
      have hpot2 : pot (2 * maxTrans A + 2) (tc.length + 4 * (maxLimBound A + 1))
          (s :: tail) ≤ n + 1 := by
        have hb := pot_beamPrune (2 * maxTrans A + 2)
          (tc.length + 4 * (maxLimBound A + 1)) A.beam_width rest
        rw [hbp] at hb
        exact le_trans hb hpot
      have hνs : s.j + s.edits ≤ tc.length + 4 * (maxLimBound A + 1) := by
        obtain ⟨hsum, hI, hD, hS, hW, hJ⟩ := hKs
        omega
      rw [pot_cons] at hpot2
      have hone : 1 ≤ (2 * maxTrans A + 2 + 1) ^
          (tc.length + 4 * (maxLimBound A + 1) - (s.j + s.edits)) :=
        Nat.one_le_pow _ _ (by omega)
      have hexp : tc.length + 4 * (maxLimBound A + 1) + 1 - (s.j + s.edits) =
          (tc.length + 4 * (maxLimBound A + 1) - (s.j + s.edits)) + 1 := by omega
      rw [hexp] at hpot2
      have hXY : (2 * maxTrans A + 2 + 1) ^
          ((tc.length + 4 * (maxLimBound A + 1) - (s.j + s.edits)) + 1) =
          (2 * maxTrans A + 2) * (2 * maxTrans A + 2 + 1) ^
            (tc.length + 4 * (maxLimBound A + 1) - (s.j + s.edits)) +
          (2 * maxTrans A + 2 + 1) ^
            (tc.length + 4 * (maxLimBound A + 1) - (s.j + s.edits)) := by
        rw [pow_succ]
        ring
      by_cases hpr : maxPossibleSim A s.penalties < t
      · rw [if_pos hpr]
        refine ih tail best hKtail ?_
        omega
      · rw [if_neg hpr]
        refine ih (tail ++ stepChildren A tc s) (emitState A hs t s best) ?_ ?_
        · intro x hx
          rcases List.mem_append.mp hx with hx | hx
          · exact hKtail x hx
          · exact kInv_step hwf hKs (step_of_mem hx)
        · rw [pot_append]
          have hch := pot_children_le A tc s hνs
          omega

theorem runSeeds_total {A : FuzzyAhoCorasick} (hs tc : List G) (t : ℚ)
    (hwf : ∀ mx ∈ allLimits A, FinalizedL mx) :
    ∀ (seeds : List Nat) (best : Best), (∀ st ∈ seeds, st ≤ tc.length) →
      (runSeeds A hs tc t
        ((2 * maxTrans A + 2 + 1) ^ (tc.length + 4 * (maxLimBound A + 1) + 1))
        seeds best).isSome = true := by
  intro seeds
  induction seeds with
  | nil => intro best _; rfl
  | cons st rest ih =>
    intro best hse
    unfold runSeeds
    cases hl : bfsLoop A hs tc t
        ((2 * maxTrans A + 2 + 1) ^ (tc.length + 4 * (maxLimBound A + 1) + 1))
        [initState st] best with
    | none =>
      have htot := bfsLoop_total hs tc t hwf
        ((2 * maxTrans A + 2 + 1) ^ (tc.length + 4 * (maxLimBound A + 1) + 1))
        [initState st] best
        (by
          intro x hx
          rcases List.mem_singleton.mp hx with rfl
          exact ⟨rfl, Nat.zero_le _, Nat.zero_le _, Nat.zero_le _, Nat.zero_le _,
            hse st (List.mem_cons_self ..)⟩)
        (by
          rw [pot_cons, pot_nil]
          have : (2 * maxTrans A + 2 + 1) ^
              (tc.length + 4 * (maxLimBound A + 1) + 1 -
                ((initState st).j + (initState st).edits)) ≤
              (2 * maxTrans A + 2 + 1) ^
                (tc.length + 4 * (maxLimBound A + 1) + 1) :=
            Nat.pow_le_pow_right (by omega) (by omega)
          omega)
      rw [hl] at htot
      cases htot
    | some b' =>
      exact ih b' fun x hx => hse x (List.mem_cons_of_mem _ hx)

/-- Claim C7: for every built automaton — whose limits objects are all
`finalize`d, so each carries a global edit bound or bounds on every
individual kind — and every haystack and threshold, the search terminates:
the fuel `(2 * maxTrans + 3) ^ (len + 4 * (maxLimBound + 1) + 1)` always
suffices, because every enqueued transition strictly increases `j + edits`,
`j` is bounded by the haystack length and each edit count by the largest
configured bound plus one. -/
theorem C7_termination (A : FuzzyAhoCorasick) (lower : G → G) (hs : List G) (t : ℚ)
    (hwf : ∀ mx ∈ allLimits A, FinalizedL mx) :
    ∃ fuel : Nat,
      (search_unsorted A lower hs t fuel).isSome = true ∧
      (search A lower hs t fuel).isSome = true ∧
      (search_non_overlapping A lower hs t fuel).isSome = true ∧
      (search_non_overlapping_unique A lower hs t fuel).isSome = true := by
  refine ⟨(2 * maxTrans A + 2 + 1) ^
    ((if A.case_insensitive then hs.map lower else hs).length +
      4 * (maxLimBound A + 1) + 1), ?_⟩
  have hu : (search_unsorted A lower hs t
      ((2 * maxTrans A + 2 + 1) ^
        ((if A.case_insensitive then hs.map lower else hs).length +
          4 * (maxLimBound A + 1) + 1))).isSome = true := by
    unfold search_unsorted
    by_cases hemp : hs.isEmpty
    · rw [if_pos hemp]
      rfl
    · rw [if_neg hemp]
      dsimp only
      cases hrs : runSeeds A hs (if A.case_insensitive then hs.map lower else hs) t
          ((2 * maxTrans A + 2 + 1) ^
            ((if A.case_insensitive then hs.map lower else hs).length +
              4 * (maxLimBound A + 1) + 1))
          (List.range (if A.case_insensitive then hs.map lower else hs).length) [] with
      | none =>
        have htot := runSeeds_total hs (if A.case_insensitive then hs.map lower else hs) t hwf
          (List.range (if A.case_insensitive then hs.map lower else hs).length) []
          (fun st hst => Nat.le_of_lt (List.mem_range.mp hst))
        rw [hrs] at htot
        cases htot
      | some bestf => rfl
  refine ⟨hu, ?_, ?_, ?_⟩
  · cases hu' : search_unsorted A lower hs t
        ((2 * maxTrans A + 2 + 1) ^
          ((if A.case_insensitive then hs.map lower else hs).length +
            4 * (maxLimBound A + 1) + 1)) with
    | none => rw [hu'] at hu; cases hu
    | some r =>
      unfold search
      rw [hu']
      rfl
  · cases hu' : search_unsorted A lower hs t
        ((2 * maxTrans A + 2 + 1) ^
          ((if A.case_insensitive then hs.map lower else hs).length +
            4 * (maxLimBound A + 1) + 1)) with
    | none => rw [hu'] at hu; cases hu
    | some r =>
      unfold search_non_overlapping search
      rw [hu']
      rfl
  · cases hu' : search_unsorted A lower hs t
        ((2 * maxTrans A + 2 + 1) ^
          ((if A.case_insensitive then hs.map lower else hs).length +
            4 * (maxLimBound A + 1) + 1)) with
    | none => rw [hu'] at hu; cases hu
    | some r =>
      unfold search_non_overlapping_unique search
      rw [hu']
      rfl

/-- Witness for C7 at a concrete automaton and haystack. -/
theorem C7_termination_witness :
    ∃ fuel : Nat,
      (search_unsorted autAB id [gX, gY] (1/5) fuel).isSome = true ∧
      (search autAB id [gX, gY] (1/5) fuel).isSome = true ∧
      (search_non_overlapping autAB id [gX, gY] (1/5) fuel).isSome = true ∧
      (search_non_overlapping_unique autAB id [gX, gY] (1/5) fuel).isSome = true :=
  C7_termination autAB id [gX, gY] (1/5) (by
    intro mx hmx
    have hal : allLimits autAB = [lim2] := rfl
    rw [hal] at hmx
    rcases List.mem_singleton.mp hmx with rfl
    unfold FinalizedL
    left
    rfl)

end FAC
